import Mathlib

/-!
Verification development for the incremental group-by operator of a
differential dataflow engine.  The Rust sources embedded here are
src/operators/group.rs (the operator) and src/collection/lookup.rs (the
pluggable key-indexed storage).  The Trace, Compact, Coalesce and
RadixSorter components are referenced by the operator but their sources are
not part of the excerpt; their definitions below are modelled from the
specification and are marked as such in their doc comments.
-/

namespace DD

/-- Difference lists pair values with signed multiplicities (weights); this is
the representation of per-key update batches throughout the operator. -/
abbrev Diffs (V : Type) := List (V × Int)

/-- Net weight contributed to bucket d after mapping values through g: the
multiset semantics of a difference list, bucketed by an output mapping. -/
def wOfBy {V D : Type} [DecidableEq D] (g : V → D) (xs : Diffs V) (d : D) : Int :=
  (xs.map (fun p => if g p.1 = d then p.2 else 0)).sum

/-- Net weight of a single value in a difference list. -/
def wOf {V : Type} [DecidableEq V] (xs : Diffs V) (v : V) : Int :=
  wOfBy id xs v

/-- Negate every weight of a difference list, modelling the map over the
previously emitted collection at group.rs line 285. -/
def negate {V : Type} (xs : Diffs V) : Diffs V :=
  xs.map (fun p => (p.1, -p.2))

/-- One step of the coalescing fold: combine the entry (v, w) with an already
coalesced suffix, merging equal leading values and suppressing zero sums. -/
def coalescePush {V : Type} [DecidableEq V] (v : V) (w : Int) : Diffs V → Diffs V
  | [] => if w = 0 then [] else [(v, w)]
  | (v2, w2) :: tail =>
    if v = v2 then
      (if w + w2 = 0 then tail else (v, w + w2) :: tail)
    else
      (if w = 0 then (v2, w2) :: tail else (v, w) :: (v2, w2) :: tail)

/-- Modelled from the spec: the Coalesce iterator (iterators/coalesce.rs is not
part of the excerpt).  It consumes a value-sorted stream, sums the weights of
each run of equal values, and suppresses results whose summed weight is
zero. -/
def coalesce {V : Type} [DecidableEq V] : Diffs V → Diffs V
  | [] => []
  | (v, w) :: rest => coalescePush v w (coalesce rest)

/-- Fuel-indexed two-way merge; with enough fuel this is the streaming merge
of two sequences where ties favour the left side. -/
def mergeFuel {α : Type} (le : α → α → Bool) : Nat → List α → List α → List α
  | 0, xs, ys => xs ++ ys
  | _ + 1, [], ys => ys
  | _ + 1, x :: xs, [] => x :: xs
  | n + 1, x :: xs, y :: ys =>
    if le x y then x :: mergeFuel le n xs (y :: ys) else y :: mergeFuel le n (x :: xs) ys

/-- Two-way merge of two sequences, modelling the itertools merge used at
group.rs line 286: emit the smaller head first, the left side on ties. -/
def mergeBy {α : Type} (le : α → α → Bool) (xs ys : List α) : List α :=
  mergeFuel le (xs.length + ys.length) xs ys

theorem mergeFuel_congr {α : Type} (le : α → α → Bool) :
    ∀ (n m : Nat) (xs ys : List α), xs.length + ys.length ≤ n →
      xs.length + ys.length ≤ m → mergeFuel le n xs ys = mergeFuel le m xs ys := by
  intro n
  induction n with
  | zero =>
    intro m xs ys h _
    have hx : xs = [] := by cases xs <;> simp_all
    have hy : ys = [] := by cases ys <;> simp_all
    subst hx; subst hy
    cases m <;> rfl
  | succ n ih =>
    intro m xs ys h hm
    cases xs with
    | nil =>
      cases ys with
      | nil => cases m <;> rfl
      | cons y ys =>
        cases m with
        | zero => simp at hm
        | succ m => rfl
    | cons x xs =>
      cases ys with
      | nil =>
        cases m with
        | zero => simp at hm
        | succ m => rfl
      | cons y ys =>
        cases m with
        | zero => simp at hm
        | succ m =>
          simp only [List.length_cons] at h hm
          simp only [mergeFuel]
          rw [ih m xs (y :: ys) (by simp only [List.length_cons]; omega)
                (by simp only [List.length_cons]; omega),
              ih m (x :: xs) ys (by simp only [List.length_cons]; omega)
                (by simp only [List.length_cons]; omega)]

theorem mergeBy_nil_left {α : Type} (le : α → α → Bool) (ys : List α) :
    mergeBy le [] ys = ys := by
  cases ys <;> rfl

theorem mergeBy_nil_right {α : Type} (le : α → α → Bool) (xs : List α) :
    mergeBy le xs [] = xs := by
  cases xs <;> rfl

theorem mergeBy_cons_cons {α : Type} (le : α → α → Bool) (x y : α) (xs ys : List α) :
    mergeBy le (x :: xs) (y :: ys) =
      if le x y then x :: mergeBy le xs (y :: ys) else y :: mergeBy le (x :: xs) ys := by
  have step : mergeBy le (x :: xs) (y :: ys)
      = mergeFuel le (xs.length + (y :: ys).length + 1) (x :: xs) (y :: ys) := by
    apply mergeFuel_congr <;> simp only [List.length_cons] <;> omega
  rw [step]
  simp only [mergeFuel]
  rw [mergeFuel_congr le (xs.length + (y :: ys).length) (xs.length + (y :: ys).length)
        xs (y :: ys) (le_refl _) (le_refl _)]
  have h2 : mergeFuel le (xs.length + (y :: ys).length) (x :: xs) ys
      = mergeBy le (x :: xs) ys := by
    apply mergeFuel_congr <;> simp only [List.length_cons] <;> omega
  rw [h2]
  rfl

theorem mergeBy_perm {α : Type} (le : α → α → Bool) (xs ys : List α) :
    (mergeBy le xs ys).Perm (xs ++ ys) := by
  have main : ∀ (n : Nat) (xs ys : List α), xs.length + ys.length ≤ n →
      (mergeBy le xs ys).Perm (xs ++ ys) := by
    intro n
    induction n with
    | zero =>
      intro xs ys h
      have hx : xs = [] := by cases xs <;> simp_all
      have hy : ys = [] := by cases ys <;> simp_all
      subst hx; subst hy
      simp [mergeBy, mergeFuel]
    | succ n ih =>
      intro xs ys h
      cases xs with
      | nil => simp [mergeBy_nil_left]
      | cons x xs =>
        cases ys with
        | nil => simp [mergeBy_nil_right]
        | cons y ys =>
          rw [mergeBy_cons_cons]
          by_cases hle : le x y
          · simp only [hle, if_true]
            have := ih xs (y :: ys) (by simp only [List.length_cons] at h ⊢; omega)
            exact (this.cons x)
          · simp only [hle, if_false]
            have := ih (x :: xs) ys (by simp only [List.length_cons] at h ⊢; omega)
            refine (this.cons y).trans ?_
            exact (List.perm_middle).symm
  exact main (xs.length + ys.length) xs ys (le_refl _)

theorem wOfBy_nil {V D : Type} [DecidableEq D] (g : V → D) (d : D) :
    wOfBy g [] d = 0 := rfl

theorem wOfBy_cons {V D : Type} [DecidableEq D] (g : V → D) (v : V) (w : Int)
    (xs : Diffs V) (d : D) :
    wOfBy g ((v, w) :: xs) d = (if g v = d then w else 0) + wOfBy g xs d := by
  simp [wOfBy]

theorem wOfBy_append {V D : Type} [DecidableEq D] (g : V → D) (xs ys : Diffs V) (d : D) :
    wOfBy g (xs ++ ys) d = wOfBy g xs d + wOfBy g ys d := by
  simp [wOfBy]

theorem wOfBy_perm {V D : Type} [DecidableEq D] (g : V → D) {xs ys : Diffs V}
    (h : xs.Perm ys) (d : D) : wOfBy g xs d = wOfBy g ys d := by
  unfold wOfBy
  exact (h.map _).sum_eq

theorem wOfBy_negate {V D : Type} [DecidableEq D] (g : V → D) (xs : Diffs V) (d : D) :
    wOfBy g (negate xs) d = -(wOfBy g xs d) := by
  induction xs with
  | nil => rfl
  | cons p xs ih =>
    obtain ⟨v, w⟩ := p
    simp only [negate, List.map_cons] at *
    rw [wOfBy_cons, wOfBy_cons, ih]
    by_cases h : g v = d <;> simp [h] <;> ring

theorem wOfBy_coalescePush {V D : Type} [DecidableEq V] [DecidableEq D] (g : V → D)
    (v : V) (w : Int) (xs : Diffs V) (d : D) :
    wOfBy g (coalescePush v w xs) d = (if g v = d then w else 0) + wOfBy g xs d := by
  cases xs with
  | nil =>
    by_cases hw : w = 0
    · have e : coalescePush v w ([] : Diffs V) = [] := by simp [coalescePush, hw]
      rw [e]
      simp only [wOfBy_nil, hw]
      split_ifs <;> omega
    · have e : coalescePush v w ([] : Diffs V) = [(v, w)] := by simp [coalescePush, hw]
      rw [e, wOfBy_cons]
  | cons q tail =>
    obtain ⟨v2, w2⟩ := q
    by_cases hv : v = v2
    · subst hv
      by_cases hz : w + w2 = 0
      · have e : coalescePush v w ((v, w2) :: tail) = tail := by
          simp [coalescePush, hz]
        rw [e, wOfBy_cons]
        split_ifs <;> omega
      · have e : coalescePush v w ((v, w2) :: tail) = (v, w + w2) :: tail := by
          simp [coalescePush, hz]
        rw [e]
        simp only [wOfBy_cons]
        split_ifs <;> omega
    · by_cases hw : w = 0
      · have e : coalescePush v w ((v2, w2) :: tail) = (v2, w2) :: tail := by
          simp [coalescePush, hv, hw]
        rw [e]
        simp only [wOfBy_cons]
        split_ifs <;> omega
      · have e : coalescePush v w ((v2, w2) :: tail) = (v, w) :: (v2, w2) :: tail := by
          simp [coalescePush, hv, hw]
        rw [e]
        simp only [wOfBy_cons]

theorem wOfBy_coalesce {V D : Type} [DecidableEq V] [DecidableEq D] (g : V → D)
    (xs : Diffs V) (d : D) : wOfBy g (coalesce xs) d = wOfBy g xs d := by
  induction xs with
  | nil => rfl
  | cons p xs ih =>
    obtain ⟨v, w⟩ := p
    simp only [coalesce]
    rw [wOfBy_coalescePush, ih, wOfBy_cons]

theorem wOf_nil {V : Type} [DecidableEq V] (v : V) : wOf ([] : Diffs V) v = 0 := rfl

theorem wOf_cons {V : Type} [DecidableEq V] (v0 : V) (w : Int) (xs : Diffs V) (v : V) :
    wOf ((v0, w) :: xs) v = (if v0 = v then w else 0) + wOf xs v := by
  simp [wOf, wOfBy]

theorem wOf_append {V : Type} [DecidableEq V] (xs ys : Diffs V) (v : V) :
    wOf (xs ++ ys) v = wOf xs v + wOf ys v :=
  wOfBy_append id xs ys v

theorem wOf_perm {V : Type} [DecidableEq V] {xs ys : Diffs V} (h : xs.Perm ys) (v : V) :
    wOf xs v = wOf ys v :=
  wOfBy_perm id h v

theorem wOf_negate {V : Type} [DecidableEq V] (xs : Diffs V) (v : V) :
    wOf (negate xs) v = -(wOf xs v) :=
  wOfBy_negate id xs v

theorem wOf_coalesce {V : Type} [DecidableEq V] (xs : Diffs V) (v : V) :
    wOf (coalesce xs) v = wOf xs v :=
  wOfBy_coalesce id xs v

/-- Order on difference entries by value only, the comparator used for
buffer.sort_by and the merge at group.rs lines 280 and 287. -/
def valLe {V : Type} [LinearOrder V] (p q : V × Int) : Prop := p.1 ≤ q.1

/-- Strict version of the value order on difference entries. -/
def valLt {V : Type} [LinearOrder V] (p q : V × Int) : Prop := p.1 < q.1

instance {V : Type} [LinearOrder V] : DecidableRel (valLe (V := V)) :=
  fun p q => inferInstanceAs (Decidable (p.1 ≤ q.1))

instance {V : Type} [LinearOrder V] : DecidableRel (valLt (V := V)) :=
  fun p q => inferInstanceAs (Decidable (p.1 < q.1))

instance {V : Type} [LinearOrder V] : IsTotal (V × Int) valLe :=
  ⟨fun p q => le_total p.1 q.1⟩

instance {V : Type} [LinearOrder V] : IsTrans (V × Int) valLe :=
  ⟨fun _ _ _ h1 h2 => le_trans h1 h2⟩

/-- Sort a difference list by value (a stable comparison sort, modelling the
in-place sort of the logic output buffer at group.rs line 280). -/
def sortVals {V : Type} [LinearOrder V] (xs : Diffs V) : Diffs V :=
  List.insertionSort valLe xs

/-- Canonical form of a difference list: sort by value, then coalesce equal
values and drop zero weights.  Collections handed to user logic and installed
as trace entries are always in this form. -/
def canonDiffs {V : Type} [LinearOrder V] (xs : Diffs V) : Diffs V :=
  coalesce (sortVals xs)

/-- A difference list is in strict form when its values are strictly
increasing and every weight is nonzero. -/
def StrictForm {V : Type} [LinearOrder V] (xs : Diffs V) : Prop :=
  xs.Pairwise valLt ∧ ∀ p ∈ xs, p.2 ≠ 0

theorem sortVals_perm {V : Type} [LinearOrder V] (xs : Diffs V) :
    (sortVals xs).Perm xs :=
  List.perm_insertionSort valLe xs

theorem sortVals_sorted {V : Type} [LinearOrder V] (xs : Diffs V) :
    (sortVals xs).Pairwise valLe :=
  List.sorted_insertionSort valLe xs

theorem coalesce_spec {V : Type} [LinearOrder V] {xs : Diffs V}
    (h : xs.Pairwise valLe) :
    (coalesce xs).Pairwise valLt ∧ (∀ p ∈ coalesce xs, p.2 ≠ 0) ∧
      (∀ p ∈ coalesce xs, ∃ q ∈ xs, q.1 = p.1) := by
  induction xs with
  | nil => exact ⟨List.Pairwise.nil, by simp [coalesce], by simp [coalesce]⟩
  | cons p xs ih =>
    obtain ⟨v, w⟩ := p
    rw [List.pairwise_cons] at h
    obtain ⟨hv, hxs⟩ := h
    obtain ⟨ihp, ihz, ihm⟩ := ih hxs
    simp only [coalesce]
    cases hc : coalesce xs with
    | nil =>
      by_cases hw : w = 0
      · simp [coalescePush, hw]
      · refine ⟨?_, ?_, ?_⟩ <;> simp [coalescePush, hw]
    | cons q tail =>
      obtain ⟨v2, w2⟩ := q
      rw [hc] at ihp ihz ihm
      have hv2 : v ≤ v2 := by
        obtain ⟨q, hq, hq1⟩ := ihm (v2, w2) (by simp)
        have hle := hv q hq
        simp only [valLe] at hle
        rw [hq1] at hle
        exact hle
      rw [List.pairwise_cons] at ihp
      obtain ⟨ihp1, ihp2⟩ := ihp
      by_cases hveq : v = v2
      · subst hveq
        by_cases hz : w + w2 = 0
        · have e : coalescePush v w ((v, w2) :: tail) = tail := by
            simp [coalescePush, hz]
          rw [e]
          refine ⟨ihp2, ?_, ?_⟩
          · intro p hp
            exact ihz p (List.mem_cons_of_mem _ hp)
          · intro p hp
            obtain ⟨q, hq, hq1⟩ := ihm p (List.mem_cons_of_mem _ hp)
            exact ⟨q, List.mem_cons_of_mem _ hq, hq1⟩
        · have e : coalescePush v w ((v, w2) :: tail) = (v, w + w2) :: tail := by
            simp [coalescePush, hz]
          rw [e]
          refine ⟨?_, ?_, ?_⟩
          · rw [List.pairwise_cons]
            exact ⟨fun p hp => ihp1 p hp, ihp2⟩
          · intro p hp
            rcases List.mem_cons.mp hp with h1 | h1
            · rw [h1]; exact hz
            · exact ihz p (List.mem_cons_of_mem _ h1)
          · intro p hp
            rcases List.mem_cons.mp hp with h1 | h1
            · exact ⟨(v, w), List.mem_cons_self _ _, by rw [h1]⟩
            · obtain ⟨q, hq, hq1⟩ := ihm p (List.mem_cons_of_mem _ h1)
              exact ⟨q, List.mem_cons_of_mem _ hq, hq1⟩
      · have hlt : v < v2 := lt_of_le_of_ne hv2 hveq
        by_cases hw : w = 0
        · have e : coalescePush v w ((v2, w2) :: tail) = (v2, w2) :: tail := by
            simp [coalescePush, hveq, hw]
          rw [e]
          refine ⟨List.pairwise_cons.mpr ⟨ihp1, ihp2⟩, ihz, ?_⟩
          intro p hp
          obtain ⟨q, hq, hq1⟩ := ihm p hp
          exact ⟨q, List.mem_cons_of_mem _ hq, hq1⟩
        · have e : coalescePush v w ((v2, w2) :: tail) = (v, w) :: (v2, w2) :: tail := by
            simp [coalescePush, hveq, hw]
          rw [e]
          refine ⟨?_, ?_, ?_⟩
          · rw [List.pairwise_cons]
            refine ⟨?_, List.pairwise_cons.mpr ⟨ihp1, ihp2⟩⟩
            intro p hp
            rcases List.mem_cons.mp hp with h1 | h1
            · rw [h1]; exact hlt
            · exact lt_trans hlt (ihp1 p h1)
          · intro p hp
            rcases List.mem_cons.mp hp with h1 | h1
            · rw [h1]; exact hw
            · exact ihz p h1
          · intro p hp
            rcases List.mem_cons.mp hp with h1 | h1
            · exact ⟨(v, w), List.mem_cons_self _ _, by rw [h1]⟩
            · obtain ⟨q, hq, hq1⟩ := ihm p h1
              exact ⟨q, List.mem_cons_of_mem _ hq, hq1⟩

theorem coalesce_fix {V : Type} [LinearOrder V] {xs : Diffs V}
    (h : StrictForm xs) : coalesce xs = xs := by
  obtain ⟨hp, hz⟩ := h
  induction xs with
  | nil => rfl
  | cons p xs ih =>
    obtain ⟨v, w⟩ := p
    rw [List.pairwise_cons] at hp
    obtain ⟨hv, hxs⟩ := hp
    have hrest : coalesce xs = xs :=
      ih hxs (fun q hq => hz q (List.mem_cons_of_mem _ hq))
    simp only [coalesce, hrest]
    have hw : w ≠ 0 := hz (v, w) (List.mem_cons_self _ _)
    cases xs with
    | nil => simp [coalescePush, hw]
    | cons q tail =>
      obtain ⟨v2, w2⟩ := q
      have hlt : v < v2 := hv (v2, w2) (List.mem_cons_self _ _)
      have hne : v ≠ v2 := ne_of_lt hlt
      simp [coalescePush, hne, hw]

theorem wOf_eq_zero_of_lt {V : Type} [LinearOrder V] {xs : Diffs V} {v : V}
    (h : ∀ p ∈ xs, v < p.1) : wOf xs v = 0 := by
  induction xs with
  | nil => rfl
  | cons p xs ih =>
    obtain ⟨v0, w⟩ := p
    rw [wOf_cons]
    have hne : v0 ≠ v := by
      have := h (v0, w) (List.mem_cons_self _ _)
      exact ne_of_gt this
    rw [if_neg hne, ih (fun q hq => h q (List.mem_cons_of_mem _ hq))]
    omega

theorem wOf_eq_zero_of_not_mem {V : Type} [LinearOrder V] {xs : Diffs V} {v : V}
    (h : ∀ p ∈ xs, p.1 ≠ v) : wOf xs v = 0 := by
  induction xs with
  | nil => rfl
  | cons p xs ih =>
    obtain ⟨v0, w⟩ := p
    rw [wOf_cons]
    rw [if_neg (h (v0, w) (List.mem_cons_self _ _)),
        ih (fun q hq => h q (List.mem_cons_of_mem _ hq))]
    omega

theorem wOf_head_strict {V : Type} [LinearOrder V] {v : V} {w : Int} {xs : Diffs V}
    (h : ((v, w) :: xs).Pairwise valLt) : wOf ((v, w) :: xs) v = w := by
  rw [List.pairwise_cons] at h
  rw [wOf_cons, if_pos rfl, wOf_eq_zero_of_lt (fun q hq => h.1 q hq)]
  omega

theorem strict_eq_of_wOf {V : Type} [LinearOrder V] :
    ∀ {xs ys : Diffs V}, StrictForm xs → StrictForm ys →
      (∀ v, wOf xs v = wOf ys v) → xs = ys := by
  intro xs
  induction xs with
  | nil =>
    intro ys _ hy hw
    cases ys with
    | nil => rfl
    | cons q ys =>
      obtain ⟨b, wb⟩ := q
      exfalso
      have h1 : wOf ((b, wb) :: ys) b = wb := wOf_head_strict hy.1
      have h2 : wOf ([] : Diffs V) b = 0 := rfl
      have := hw b
      rw [h1, h2] at this
      exact hy.2 (b, wb) (List.mem_cons_self _ _) this.symm
  | cons p xs ih =>
    intro ys hx hy hw
    obtain ⟨a, wa⟩ := p
    cases ys with
    | nil =>
      exfalso
      have h1 : wOf ((a, wa) :: xs) a = wa := wOf_head_strict hx.1
      have := hw a
      rw [h1] at this
      exact hx.2 (a, wa) (List.mem_cons_self _ _) this
    | cons q ys =>
      obtain ⟨b, wb⟩ := q
      have hxa : wOf ((a, wa) :: xs) a = wa := wOf_head_strict hx.1
      have hyb : wOf ((b, wb) :: ys) b = wb := wOf_head_strict hy.1
      have hmemy : ∀ v, wOf ((b, wb) :: ys) v ≠ 0 → b ≤ v := by
        intro v hv
        by_contra hlt
        push_neg at hlt
        apply hv
        apply wOf_eq_zero_of_not_mem
        intro p hp
        rcases List.mem_cons.mp hp with h1 | h1
        · rw [h1]; exact ne_of_gt hlt
        · have := (List.pairwise_cons.mp hy.1).1 p h1
          simp only [valLt] at this
          exact ne_of_gt (lt_trans hlt this)
      have hmemx : ∀ v, wOf ((a, wa) :: xs) v ≠ 0 → a ≤ v := by
        intro v hv
        by_contra hlt
        push_neg at hlt
        apply hv
        apply wOf_eq_zero_of_not_mem
        intro p hp
        rcases List.mem_cons.mp hp with h1 | h1
        · rw [h1]; exact ne_of_gt hlt
        · have := (List.pairwise_cons.mp hx.1).1 p h1
          simp only [valLt] at this
          exact ne_of_gt (lt_trans hlt this)
      have hwa : wa ≠ 0 := hx.2 (a, wa) (List.mem_cons_self _ _)
      have hwb : wb ≠ 0 := hy.2 (b, wb) (List.mem_cons_self _ _)
      have hba : b ≤ a := by
        apply hmemy
        rw [← hw a, hxa]
        exact hwa
      have hab : a ≤ b := by
        apply hmemx
        rw [hw b, hyb]
        exact hwb
      have hce : a = b := le_antisymm hab hba
      subst hce
      have hweq : wa = wb := by rw [← hxa, hw a, hyb]
      subst hweq
      have hxs : StrictForm xs :=
        ⟨(List.pairwise_cons.mp hx.1).2, fun q hq => hx.2 q (List.mem_cons_of_mem _ hq)⟩
      have hys : StrictForm ys :=
        ⟨(List.pairwise_cons.mp hy.1).2, fun q hq => hy.2 q (List.mem_cons_of_mem _ hq)⟩
      have hwt : ∀ v, wOf xs v = wOf ys v := by
        intro v
        by_cases hva : a = v
        · subst hva
          rw [wOf_eq_zero_of_lt (fun q hq => (List.pairwise_cons.mp hx.1).1 q hq),
              wOf_eq_zero_of_lt (fun q hq => (List.pairwise_cons.mp hy.1).1 q hq)]
        · have := hw v
          rw [wOf_cons, wOf_cons, if_neg hva] at this
          omega
      rw [ih hxs hys hwt]

theorem canonDiffs_strict {V : Type} [LinearOrder V] (xs : Diffs V) :
    StrictForm (canonDiffs xs) := by
  obtain ⟨h1, h2, _⟩ := coalesce_spec (sortVals_sorted xs)
  exact ⟨h1, h2⟩

theorem canonDiffs_wOf {V : Type} [LinearOrder V] (xs : Diffs V) (v : V) :
    wOf (canonDiffs xs) v = wOf xs v := by
  rw [canonDiffs, wOf_coalesce, wOf_perm (sortVals_perm xs)]

theorem canonDiffs_ext {V : Type} [LinearOrder V] {xs ys : Diffs V}
    (h : ∀ v, wOf xs v = wOf ys v) : canonDiffs xs = canonDiffs ys := by
  apply strict_eq_of_wOf (canonDiffs_strict xs) (canonDiffs_strict ys)
  intro v
  rw [canonDiffs_wOf, canonDiffs_wOf]
  exact h v

theorem canonDiffs_fix {V : Type} [LinearOrder V] {xs : Diffs V}
    (h : StrictForm xs) : canonDiffs xs = xs := by
  apply strict_eq_of_wOf (canonDiffs_strict xs) h
  intro v
  rw [canonDiffs_wOf]

theorem canonDiffs_nil {V : Type} [LinearOrder V] :
    canonDiffs ([] : Diffs V) = [] := rfl

theorem canonDiffs_eq_nil_of_zero {V : Type} [LinearOrder V] {xs : Diffs V}
    (h : ∀ v, wOf xs v = 0) : canonDiffs xs = [] := by
  rw [show ([] : Diffs V) = canonDiffs [] from rfl]
  apply canonDiffs_ext
  intro v
  rw [h v, wOf_nil]

/-- One input record: a (key, value, weight) triple, the shape records take
after the key-value selector has been applied (group.rs lines 222 and 232). -/
abbrev Rec (K V : Type) := K × V × Int

/-- Compact batch: per-key groups of value differences, keys in (hash, key)
order.  This is the nested view of the columnar Compact of the source. -/
abbrev Compact (K V : Type) := List (K × Diffs V)

/-- Order on keys by hash first and key second, the order used to sort the
pending key list at group.rs line 266. -/
def keyLe {K : Type} [LinearOrder K] (hash : K → Nat) (a b : K) : Prop :=
  hash a < hash b ∨ (hash a = hash b ∧ a ≤ b)

/-- Strict order on keys by hash first and key second. -/
def keyLt {K : Type} [LinearOrder K] (hash : K → Nat) (a b : K) : Prop :=
  hash a < hash b ∨ (hash a = hash b ∧ a < b)

instance {K : Type} [LinearOrder K] (hash : K → Nat) : DecidableRel (keyLe hash) :=
  fun a b => inferInstanceAs (Decidable (_ ∨ _))

instance {K : Type} [LinearOrder K] (hash : K → Nat) : DecidableRel (keyLt hash) :=
  fun a b => inferInstanceAs (Decidable (_ ∨ _))

instance {K : Type} [LinearOrder K] (hash : K → Nat) : IsTotal K (keyLe hash) := by
  constructor
  intro a b
  rcases lt_trichotomy (hash a) (hash b) with h | h | h
  · exact Or.inl (Or.inl h)
  · rcases le_total a b with h2 | h2
    · exact Or.inl (Or.inr ⟨h, h2⟩)
    · exact Or.inr (Or.inr ⟨h.symm, h2⟩)
  · exact Or.inr (Or.inl h)

instance {K : Type} [LinearOrder K] (hash : K → Nat) : IsTrans K (keyLe hash) := by
  constructor
  intro a b c h1 h2
  rcases h1 with h1 | ⟨h1, h1k⟩ <;> rcases h2 with h2 | ⟨h2, h2k⟩
  · exact Or.inl (lt_trans h1 h2)
  · exact Or.inl (h2 ▸ h1)
  · exact Or.inl (h1 ▸ h2)
  · exact Or.inr ⟨h1.trans h2, le_trans h1k h2k⟩

theorem keyLt_trans {K : Type} [LinearOrder K] (hash : K → Nat) {a b c : K}
    (h1 : keyLt hash a b) (h2 : keyLt hash b c) : keyLt hash a c := by
  rcases h1 with h1 | ⟨h1, h1k⟩ <;> rcases h2 with h2 | ⟨h2, h2k⟩
  · exact Or.inl (lt_trans h1 h2)
  · exact Or.inl (h2 ▸ h1)
  · exact Or.inl (h1 ▸ h2)
  · exact Or.inr ⟨h1.trans h2, lt_trans h1k h2k⟩

theorem keyLt_of_keyLt_of_keyLe {K : Type} [LinearOrder K] (hash : K → Nat) {a b c : K}
    (h1 : keyLt hash a b) (h2 : keyLe hash b c) : keyLt hash a c := by
  rcases h1 with h1 | ⟨h1, h1k⟩ <;> rcases h2 with h2 | ⟨h2, h2k⟩
  · exact Or.inl (lt_trans h1 h2)
  · exact Or.inl (h2 ▸ h1)
  · exact Or.inl (h1 ▸ h2)
  · exact Or.inr ⟨h1.trans h2, lt_of_lt_of_le h1k h2k⟩

theorem keyLt_irrefl {K : Type} [LinearOrder K] (hash : K → Nat) (a : K) :
    ¬keyLt hash a a := by
  intro h
  rcases h with h | ⟨_, h⟩
  · exact lt_irrefl _ h
  · exact lt_irrefl _ h

theorem keyLt_asymm {K : Type} [LinearOrder K] (hash : K → Nat) {a b : K}
    (h1 : keyLt hash a b) (h2 : keyLt hash b a) : False :=
  keyLt_irrefl hash a (keyLt_trans hash h1 h2)

theorem keyLt_connex {K : Type} [LinearOrder K] (hash : K → Nat) {a b : K}
    (h1 : ¬keyLt hash a b) (h2 : ¬keyLt hash b a) : a = b := by
  rcases lt_trichotomy (hash a) (hash b) with h | h | h
  · exact absurd (Or.inl h) h1
  · rcases lt_trichotomy a b with hk | hk | hk
    · exact absurd (Or.inr ⟨h, hk⟩) h1
    · exact hk
    · exact absurd (Or.inr ⟨h.symm, hk⟩) h2
  · exact absurd (Or.inl h) h2

theorem keyLe_of_not_keyLt {K : Type} [LinearOrder K] (hash : K → Nat) {a b : K}
    (h : ¬keyLt hash b a) : keyLe hash a b := by
  rcases lt_trichotomy (hash a) (hash b) with hh | hh | hh
  · exact Or.inl hh
  · rcases le_or_lt a b with hk | hk
    · exact Or.inr ⟨hh, hk⟩
    · exact absurd (Or.inr ⟨hh.symm, hk⟩) h
  · exact absurd (Or.inl hh) h

/-- Order on records by key hash only: the radix sorter buckets by the
caller-supplied hash, and the direct path sorts with exactly this comparator
(group.rs line 233). -/
def hashLeRec {K V : Type} (hash : K → Nat) (r s : Rec K V) : Prop :=
  hash r.1 ≤ hash s.1

instance {K V : Type} (hash : K → Nat) : DecidableRel (hashLeRec (K := K) (V := V) hash) :=
  fun r s => inferInstanceAs (Decidable (_ ≤ _))

instance {K V : Type} (hash : K → Nat) : IsTotal (Rec K V) (hashLeRec hash) :=
  ⟨fun r s => le_total _ _⟩

instance {K V : Type} (hash : K → Nat) : IsTrans (Rec K V) (hashLeRec hash) :=
  ⟨fun _ _ _ h1 h2 => le_trans h1 h2⟩

/-- Order on records by (hash, key) and then by value, the full order a
Compact presents its triples in. -/
def recLe {K V : Type} [LinearOrder K] [LinearOrder V] (hash : K → Nat)
    (r s : Rec K V) : Prop :=
  keyLt hash r.1 s.1 ∨ (r.1 = s.1 ∧ r.2.1 ≤ s.2.1)

instance {K V : Type} [LinearOrder K] [LinearOrder V] (hash : K → Nat) :
    DecidableRel (recLe (K := K) (V := V) hash) :=
  fun r s => inferInstanceAs (Decidable (_ ∨ _))

instance {K V : Type} [LinearOrder K] [LinearOrder V] (hash : K → Nat) :
    IsTotal (Rec K V) (recLe hash) := by
  constructor
  intro r s
  by_cases h1 : keyLt hash r.1 s.1
  · exact Or.inl (Or.inl h1)
  · by_cases h2 : keyLt hash s.1 r.1
    · exact Or.inr (Or.inl h2)
    · have he : r.1 = s.1 := keyLt_connex hash h1 h2
      rcases le_total r.2.1 s.2.1 with h3 | h3
      · exact Or.inl (Or.inr ⟨he, h3⟩)
      · exact Or.inr (Or.inr ⟨he.symm, h3⟩)

instance {K V : Type} [LinearOrder K] [LinearOrder V] (hash : K → Nat) :
    IsTrans (Rec K V) (recLe hash) := by
  constructor
  intro r s t h1 h2
  rcases h1 with h1 | ⟨h1, h1v⟩ <;> rcases h2 with h2 | ⟨h2, h2v⟩
  · exact Or.inl (keyLt_trans hash h1 h2)
  · exact Or.inl (h2 ▸ h1)
  · exact Or.inl (h1 ▸ h2)
  · exact Or.inr ⟨h1.trans h2, le_trans h1v h2v⟩

/-- One step of run grouping: push record (k, p) onto an already grouped
suffix, extending the leading group when its key matches. -/
def groupPush {K V : Type} [DecidableEq K] (k : K) (p : V × Int) :
    Compact K V → Compact K V
  | [] => [(k, [p])]
  | (k2, ps) :: tail =>
    if k = k2 then (k, p :: ps) :: tail else (k, [p]) :: (k2, ps) :: tail

/-- Group a record list into per-key runs of adjacent equal keys, keeping
record order inside each run. -/
def groupRuns {K V : Type} [DecidableEq K] : List (Rec K V) → Compact K V
  | [] => []
  | (k, p) :: rest => groupPush k p (groupRuns rest)

/-- All differences a Compact holds for one key. -/
def diffsFor {K V : Type} [DecidableEq K] (c : Compact K V) (k : K) : Diffs V :=
  ((c.filter (fun g => g.1 = k)).map (fun g => g.2)).flatten

/-- Net weight of value v under key k in a raw record list. -/
def recW {K V : Type} [DecidableEq K] [DecidableEq V] (recs : List (Rec K V))
    (k : K) (v : V) : Int :=
  wOf ((recs.filter (fun r => r.1 = k)).map (fun r => r.2)) v

theorem diffsFor_nil {K V : Type} [DecidableEq K] (k : K) :
    diffsFor ([] : Compact K V) k = [] := rfl

theorem diffsFor_cons {K V : Type} [DecidableEq K] (k0 : K) (ps : Diffs V)
    (c : Compact K V) (k : K) :
    diffsFor ((k0, ps) :: c) k = (if k0 = k then ps else []) ++ diffsFor c k := by
  by_cases h : k0 = k
  · simp [diffsFor, h]
  · simp [diffsFor, h]

theorem recW_nil {K V : Type} [DecidableEq K] [DecidableEq V] (k : K) (v : V) :
    recW ([] : List (Rec K V)) k v = 0 := rfl

theorem recW_cons {K V : Type} [DecidableEq K] [DecidableEq V] (k0 : K) (p : V × Int)
    (recs : List (Rec K V)) (k : K) (v : V) :
    recW ((k0, p) :: recs) k v
      = (if k0 = k then (if p.1 = v then p.2 else 0) else 0) + recW recs k v := by
  by_cases h : k0 = k
  · obtain ⟨v0, w⟩ := p
    simp [recW, h, wOf_cons]
  · simp [recW, h]

theorem recW_perm {K V : Type} [DecidableEq K] [DecidableEq V]
    {recs recs2 : List (Rec K V)} (h : recs.Perm recs2) (k : K) (v : V) :
    recW recs k v = recW recs2 k v := by
  unfold recW
  exact wOf_perm ((h.filter _).map _) v

theorem recW_append {K V : Type} [DecidableEq K] [DecidableEq V]
    (recs recs2 : List (Rec K V)) (k : K) (v : V) :
    recW (recs ++ recs2) k v = recW recs k v + recW recs2 k v := by
  unfold recW
  rw [List.filter_append, List.map_append, wOf_append]

theorem wOf_ite_list {V : Type} [DecidableEq V] (c : Prop) [Decidable c]
    (xs ys : Diffs V) (v : V) :
    wOf (if c then xs else ys) v = if c then wOf xs v else wOf ys v := by
  split_ifs <;> rfl

theorem diffsFor_groupPush {K V : Type} [DecidableEq K] [DecidableEq V]
    (k0 : K) (p : V × Int) (gs : Compact K V) (k : K) (v : V) :
    wOf (diffsFor (groupPush k0 p gs) k) v
      = (if k0 = k then (if p.1 = v then p.2 else 0) else 0)
          + wOf (diffsFor gs k) v := by
  obtain ⟨v0, w⟩ := p
  cases gs with
  | nil =>
    have e : groupPush k0 (v0, w) ([] : Compact K V) = [(k0, [(v0, w)])] := rfl
    rw [e]
    simp only [diffsFor_cons, diffsFor_nil, wOf_append, wOf_ite_list, wOf_cons,
      wOf_nil, List.append_nil, List.nil_append]
    split_ifs <;> omega
  | cons g tail =>
    obtain ⟨k2, ps⟩ := g
    by_cases he : k0 = k2
    · subst he
      have e : groupPush k0 (v0, w) ((k0, ps) :: tail)
          = (k0, (v0, w) :: ps) :: tail := by
        simp [groupPush]
      rw [e]
      simp only [diffsFor_cons, diffsFor_nil, wOf_append, wOf_ite_list, wOf_cons,
        wOf_nil, List.append_nil, List.nil_append]
      split_ifs <;> omega
    · have e : groupPush k0 (v0, w) ((k2, ps) :: tail)
          = (k0, [(v0, w)]) :: (k2, ps) :: tail := by
        simp [groupPush, he]
      rw [e]
      simp only [diffsFor_cons, diffsFor_nil, wOf_append, wOf_ite_list, wOf_cons,
        wOf_nil, List.append_nil, List.nil_append]
      split_ifs <;> omega

theorem diffsFor_groupRuns {K V : Type} [DecidableEq K] [DecidableEq V]
    (l : List (Rec K V)) (k : K) (v : V) :
    wOf (diffsFor (groupRuns l) k) v = recW l k v := by
  induction l with
  | nil => rfl
  | cons r l ih =>
    obtain ⟨k0, p⟩ := r
    simp only [groupRuns]
    rw [diffsFor_groupPush, ih, recW_cons]

/-- Sort records into (hash, key, value) order.  Modelled from the spec: the
radix sorter followed by the per-run ordering that Compact::from_radix
establishes (neither is part of the excerpt). -/
def sortRecs {K V : Type} [LinearOrder K] [LinearOrder V] (hash : K → Nat)
    (recs : List (Rec K V)) : List (Rec K V) :=
  List.insertionSort (recLe hash) recs

/-- Coalesce each group of a run-grouped batch and drop groups left empty:
the compaction step that turns grouped runs into a Compact. -/
def canonPost {K V : Type} [DecidableEq V] (gs : Compact K V) : Compact K V :=
  gs.filterMap (fun g => if coalesce g.2 = [] then none else some (g.1, coalesce g.2))

/-- Modelled from the spec: Compact::from_radix builds one Compact from a
record batch, sorted first by key hash and then by key, grouped into per-key
runs with per-value coalesced weights (collection/compact.rs is not part of
the excerpt). -/
def canonCompact {K V : Type} [LinearOrder K] [LinearOrder V] (hash : K → Nat)
    (recs : List (Rec K V)) : Compact K V :=
  canonPost (groupRuns (sortRecs hash recs))

/-- A Compact in canonical form: keys strictly increasing in (hash, key)
order, every group nonempty and in strict difference form. -/
def CanonicalCompact {K V : Type} [LinearOrder K] [LinearOrder V] (hash : K → Nat)
    (c : Compact K V) : Prop :=
  (c.map (fun g => g.1)).Pairwise (keyLt hash) ∧ ∀ g ∈ c, g.2 ≠ [] ∧ StrictForm g.2

theorem wOf_diffsFor_canonPost {K V : Type} [DecidableEq K] [LinearOrder V]
    (gs : Compact K V) (k : K) (v : V) :
    wOf (diffsFor (canonPost gs) k) v = wOf (diffsFor gs k) v := by
  induction gs with
  | nil => rfl
  | cons g gs ih =>
    obtain ⟨k0, ps⟩ := g
    by_cases hc : coalesce ps = []
    · have e : canonPost ((k0, ps) :: gs) = canonPost gs := by
        simp [canonPost, hc]
      have hz : wOf ps v = 0 := by
        rw [← wOf_coalesce, hc, wOf_nil]
      rw [e, ih, diffsFor_cons, wOf_append, wOf_ite_list, hz, wOf_nil]
      split_ifs <;> omega
    · have e : canonPost ((k0, ps) :: gs) = (k0, coalesce ps) :: canonPost gs := by
        simp [canonPost, hc]
      rw [e, diffsFor_cons, diffsFor_cons, wOf_append, wOf_append,
          wOf_ite_list, wOf_ite_list, ih, wOf_coalesce]

theorem canonCompact_recW {K V : Type} [LinearOrder K] [LinearOrder V]
    (hash : K → Nat) (recs : List (Rec K V)) (k : K) (v : V) :
    wOf (diffsFor (canonCompact hash recs) k) v = recW recs k v := by
  rw [canonCompact, wOf_diffsFor_canonPost, diffsFor_groupRuns]
  exact recW_perm (List.perm_insertionSort _ recs) k v

theorem groupRuns_group_mem {K V : Type} [DecidableEq K] :
    ∀ {l : List (Rec K V)} {g : K × Diffs V}, g ∈ groupRuns l →
      ∀ p ∈ g.2, (g.1, p) ∈ l := by
  intro l
  induction l with
  | nil => intro g hg; simp [groupRuns] at hg
  | cons r l ih =>
    obtain ⟨k0, q⟩ := r
    intro g hg p hp
    simp only [groupRuns] at hg
    cases hc : groupRuns l with
    | nil =>
      rw [hc] at hg
      simp only [groupPush, List.mem_singleton] at hg
      subst hg
      simp only [List.mem_singleton] at hp
      subst hp
      exact List.mem_cons_self _ _
    | cons g2 tail =>
      obtain ⟨k2, ps⟩ := g2
      rw [hc] at hg
      by_cases he : k0 = k2
      · subst he
        have e : groupPush k0 q ((k0, ps) :: tail) = (k0, q :: ps) :: tail := by
          simp [groupPush]
        rw [e] at hg
        rcases List.mem_cons.mp hg with hg | hg
        · subst hg
          simp only [List.mem_cons] at hp
          rcases hp with hp | hp
          · subst hp; exact List.mem_cons_self _ _
          · have := ih (hc ▸ List.mem_cons_self (k0, ps) tail) p hp
            exact List.mem_cons_of_mem _ this
        · have := ih (hc ▸ List.mem_cons_of_mem _ hg) p hp
          exact List.mem_cons_of_mem _ this
      · have e : groupPush k0 q ((k2, ps) :: tail) = (k0, [q]) :: (k2, ps) :: tail := by
          simp [groupPush, he]
        rw [e] at hg
        rcases List.mem_cons.mp hg with hg | hg
        · subst hg
          simp only [List.mem_singleton] at hp
          subst hp
          exact List.mem_cons_self _ _
        · have := ih (hc ▸ hg) p hp
          exact List.mem_cons_of_mem _ this

theorem groupRuns_sorted {K V : Type} [LinearOrder K] [LinearOrder V] {hash : K → Nat} :
    ∀ {l : List (Rec K V)}, l.Pairwise (recLe hash) →
      ((groupRuns l).map (fun g => g.1)).Pairwise (keyLt hash) ∧
        ∀ g ∈ groupRuns l, g.2 ≠ [] ∧ g.2.Pairwise valLe := by
  intro l
  induction l with
  | nil => intro _; exact ⟨List.Pairwise.nil, by simp [groupRuns]⟩
  | cons r l ih =>
    obtain ⟨k0, q⟩ := r
    intro h
    rw [List.pairwise_cons] at h
    obtain ⟨hb, hrest⟩ := h
    obtain ⟨ihk, ihg⟩ := ih hrest
    simp only [groupRuns]
    cases hc : groupRuns l with
    | nil =>
      refine ⟨by simp [groupPush], ?_⟩
      intro g hg
      simp only [groupPush, List.mem_singleton] at hg
      subst hg
      exact ⟨by simp, by simp⟩
    | cons g2 tail =>
      obtain ⟨k2, ps⟩ := g2
      rw [hc] at ihk ihg
      have hps : ps ≠ [] := (ihg (k2, ps) (List.mem_cons_self _ _)).1
      have hkmem : ∀ p ∈ ps, (k2, p) ∈ l := by
        intro p hp
        exact groupRuns_group_mem (hc ▸ List.mem_cons_self (k2, ps) tail) p hp
      by_cases he : k0 = k2
      · subst he
        have e : groupPush k0 q ((k0, ps) :: tail) = (k0, q :: ps) :: tail := by
          simp [groupPush]
        rw [e]
        constructor
        · simpa using ihk
        · intro g hg
          rcases List.mem_cons.mp hg with hg | hg
          · subst hg
            refine ⟨by simp, ?_⟩
            rw [List.pairwise_cons]
            refine ⟨?_, (ihg (k0, ps) (List.mem_cons_self _ _)).2⟩
            intro p hp
            have hmem := hkmem p hp
            have hle := hb (k0, p) hmem
            rcases hle with hle | ⟨_, hle⟩
            · exact absurd hle (keyLt_irrefl hash k0)
            · exact hle
          · exact ihg g (List.mem_cons_of_mem _ hg)
      · have e : groupPush k0 q ((k2, ps) :: tail) = (k0, [q]) :: (k2, ps) :: tail := by
          simp [groupPush, he]
        rw [e]
        have hk02 : keyLt hash k0 k2 := by
          obtain ⟨p, hp⟩ := List.exists_mem_of_ne_nil ps hps
          have hle := hb (k2, p) (hkmem p hp)
          rcases hle with hle | ⟨hle, _⟩
          · exact hle
          · exact absurd hle he
        have ihk2 : (k2 :: tail.map (fun g : K × Diffs V => g.1)).Pairwise (keyLt hash) := by
          simpa using ihk
        constructor
        · simp only [List.map_cons]
          rw [List.pairwise_cons]
          constructor
          · intro x hx
            rcases List.mem_cons.mp hx with hx | hx
            · rw [hx]; exact hk02
            · exact keyLt_trans hash hk02 ((List.pairwise_cons.mp ihk2).1 x hx)
          · exact ihk2
        · intro g hg
          rcases List.mem_cons.mp hg with hg | hg
          · subst hg
            exact ⟨by simp, by simp⟩
          · exact ihg g hg

theorem canonPost_keys_sublist {K V : Type} [DecidableEq V] (gs : Compact K V) :
    ((canonPost gs).map (fun g => g.1)).Sublist (gs.map (fun g => g.1)) := by
  induction gs with
  | nil => simp [canonPost]
  | cons g gs ih =>
    by_cases hc : coalesce g.2 = []
    · have e : canonPost (g :: gs) = canonPost gs := by simp [canonPost, hc]
      rw [e, List.map_cons]
      exact ih.cons _
    · have e : canonPost (g :: gs) = (g.1, coalesce g.2) :: canonPost gs := by
        simp [canonPost, hc]
      rw [e, List.map_cons, List.map_cons]
      exact ih.cons₂ _

theorem canonPost_mem {K V : Type} [DecidableEq V] {gs : Compact K V}
    {g : K × Diffs V} (h : g ∈ canonPost gs) :
    ∃ ps, (g.1, ps) ∈ gs ∧ g.2 = coalesce ps ∧ g.2 ≠ [] := by
  rw [canonPost, List.mem_filterMap] at h
  obtain ⟨a, ha, hfa⟩ := h
  by_cases hc : coalesce a.2 = []
  · simp [hc] at hfa
  · simp only [hc, if_false, Option.some.injEq] at hfa
    refine ⟨a.2, ?_, ?_, ?_⟩
    · rw [← hfa]; exact ha
    · rw [← hfa]
    · rw [← hfa]; exact hc

theorem canonCompact_canonical {K V : Type} [LinearOrder K] [LinearOrder V]
    (hash : K → Nat) (recs : List (Rec K V)) :
    CanonicalCompact hash (canonCompact hash recs) := by
  have hsorted : (sortRecs hash recs).Pairwise (recLe hash) :=
    List.sorted_insertionSort (recLe hash) recs
  obtain ⟨hk, hg⟩ := groupRuns_sorted hsorted
  constructor
  · exact hk.sublist (canonPost_keys_sublist _)
  · intro g hmem
    obtain ⟨ps, hps, hgeq, hgne⟩ := canonPost_mem hmem
    have hsort : ps.Pairwise valLe := (hg (g.1, ps) hps).2
    obtain ⟨hstrict, hnz, _⟩ := coalesce_spec hsort
    exact ⟨hgne, by rw [hgeq]; exact ⟨hstrict, hnz⟩⟩

theorem diffsFor_eq_nil_of_keys {K V : Type} [DecidableEq K] {c : Compact K V} {k : K}
    (h : ∀ g ∈ c, g.1 ≠ k) : diffsFor c k = [] := by
  induction c with
  | nil => rfl
  | cons g c ih =>
    obtain ⟨k0, ps⟩ := g
    rw [diffsFor_cons, if_neg (h (k0, ps) (List.mem_cons_self _ _)),
        ih (fun g hg => h g (List.mem_cons_of_mem _ hg)), List.nil_append]

theorem key_mem_of_wOf_ne {K V : Type} [DecidableEq K] [DecidableEq V]
    {c : Compact K V} {k : K} {v : V} (h : wOf (diffsFor c k) v ≠ 0) :
    ∃ g ∈ c, g.1 = k := by
  by_contra hc
  push_neg at hc
  rw [diffsFor_eq_nil_of_keys hc, wOf_nil] at h
  exact h rfl

theorem canonical_head_wOf {K V : Type} [LinearOrder K] [LinearOrder V]
    {hash : K → Nat} {k : K} {ps : Diffs V} {c : Compact K V}
    (hcan : CanonicalCompact hash ((k, ps) :: c)) :
    ∃ v, wOf (diffsFor ((k, ps) :: c) k) v ≠ 0 := by
  obtain ⟨hkeys, hgroups⟩ := hcan
  obtain ⟨hne, hstrict⟩ := hgroups (k, ps) (List.mem_cons_self _ _)
  have htail : diffsFor c k = [] := by
    apply diffsFor_eq_nil_of_keys
    intro g hg hk
    rw [List.map_cons, List.pairwise_cons] at hkeys
    have := hkeys.1 g.1 (List.mem_map_of_mem _ hg)
    rw [hk] at this
    exact keyLt_irrefl hash k this
  cases ps with
  | nil => exact absurd rfl hne
  | cons p ps2 =>
    obtain ⟨v, w⟩ := p
    refine ⟨v, ?_⟩
    rw [diffsFor_cons, if_pos rfl, htail, List.append_nil,
        wOf_head_strict hstrict.1]
    exact hstrict.2 (v, w) (List.mem_cons_self _ _)

theorem canonical_tail {K V : Type} [LinearOrder K] [LinearOrder V]
    {hash : K → Nat} {g : K × Diffs V} {c : Compact K V}
    (h : CanonicalCompact hash (g :: c)) : CanonicalCompact hash c := by
  obtain ⟨hkeys, hgroups⟩ := h
  rw [List.map_cons, List.pairwise_cons] at hkeys
  exact ⟨hkeys.2, fun g2 hg2 => hgroups g2 (List.mem_cons_of_mem _ hg2)⟩

theorem canonical_eq_of_wOf {K V : Type} [LinearOrder K] [LinearOrder V]
    {hash : K → Nat} :
    ∀ {c1 c2 : Compact K V}, CanonicalCompact hash c1 → CanonicalCompact hash c2 →
      (∀ k v, wOf (diffsFor c1 k) v = wOf (diffsFor c2 k) v) → c1 = c2 := by
  intro c1
  induction c1 with
  | nil =>
    intro c2 _ h2 hw
    cases c2 with
    | nil => rfl
    | cons g2 c2 =>
      obtain ⟨k2, ps2⟩ := g2
      exfalso
      obtain ⟨v, hv⟩ := canonical_head_wOf h2
      rw [← hw k2 v, diffsFor_nil, wOf_nil] at hv
      exact hv rfl
  | cons g1 c1 ih =>
    obtain ⟨k1, ps1⟩ := g1
    intro c2 h1 h2 hw
    cases c2 with
    | nil =>
      exfalso
      obtain ⟨v, hv⟩ := canonical_head_wOf h1
      rw [hw k1 v, diffsFor_nil, wOf_nil] at hv
      exact hv rfl
    | cons g2 c2 =>
      obtain ⟨k2, ps2⟩ := g2
      have hk12 : k1 = k2 := by
        obtain ⟨v1, hv1⟩ := canonical_head_wOf h1
        have hv1b : wOf (diffsFor ((k2, ps2) :: c2) k1) v1 ≠ 0 := by
          rw [← hw]; exact hv1
        obtain ⟨g, hg, hgk⟩ := key_mem_of_wOf_ne hv1b
        obtain ⟨v2, hv2⟩ := canonical_head_wOf h2
        have hv2b : wOf (diffsFor ((k1, ps1) :: c1) k2) v2 ≠ 0 := by
          rw [hw]; exact hv2
        obtain ⟨g2m, hg2m, hg2k⟩ := key_mem_of_wOf_ne hv2b
        have hcase1 : k1 = k2 ∨ keyLt hash k2 k1 := by
          rcases List.mem_cons.mp hg with h | h
          · left; rw [← hgk, h]
          · right
            obtain ⟨hkeys, -⟩ := h2
            rw [List.map_cons, List.pairwise_cons] at hkeys
            have := hkeys.1 g.1 (List.mem_map_of_mem _ h)
            rw [hgk] at this
            exact this
        have hcase2 : k2 = k1 ∨ keyLt hash k1 k2 := by
          rcases List.mem_cons.mp hg2m with h | h
          · left; rw [← hg2k, h]
          · right
            obtain ⟨hkeys, -⟩ := h1
            rw [List.map_cons, List.pairwise_cons] at hkeys
            have := hkeys.1 g2m.1 (List.mem_map_of_mem _ h)
            rw [hg2k] at this
            exact this
        rcases hcase1 with h | hlt1
        · exact h
        · rcases hcase2 with h | hlt2
          · exact h.symm
          · exact absurd hlt2 (fun hl => keyLt_asymm hash hl hlt1)
      subst hk12
      have htail1 : diffsFor c1 k1 = [] := by
        apply diffsFor_eq_nil_of_keys
        intro g hg hk
        obtain ⟨hkeys, _⟩ := h1
        rw [List.map_cons, List.pairwise_cons] at hkeys
        have := hkeys.1 g.1 (List.mem_map_of_mem _ hg)
        rw [hk] at this
        exact keyLt_irrefl hash k1 this
      have htail2 : diffsFor c2 k1 = [] := by
        apply diffsFor_eq_nil_of_keys
        intro g hg hk
        obtain ⟨hkeys, _⟩ := h2
        rw [List.map_cons, List.pairwise_cons] at hkeys
        have := hkeys.1 g.1 (List.mem_map_of_mem _ hg)
        rw [hk] at this
        exact keyLt_irrefl hash k1 this
      have hps : ps1 = ps2 := by
        apply strict_eq_of_wOf
          ((h1.2 (k1, ps1) (List.mem_cons_self _ _)).2)
          ((h2.2 (k1, ps2) (List.mem_cons_self _ _)).2)
        intro v
        have := hw k1 v
        rw [diffsFor_cons, diffsFor_cons, if_pos rfl, if_pos rfl, htail1, htail2,
            List.append_nil, List.append_nil] at this
        exact this
      subst hps
      have htl : c1 = c2 := by
        apply ih (canonical_tail h1) (canonical_tail h2)
        intro k v
        by_cases hk : k = k1
        · subst hk
          rw [htail1, htail2]
        · have := hw k v
          rw [diffsFor_cons, diffsFor_cons, if_neg (fun h => hk h.symm)] at this
          simp only [List.nil_append] at this
          exact this
      rw [htl]

theorem canonCompact_ext {K V : Type} [LinearOrder K] [LinearOrder V]
    (hash : K → Nat) {recs1 recs2 : List (Rec K V)}
    (h : ∀ k v, recW recs1 k v = recW recs2 k v) :
    canonCompact hash recs1 = canonCompact hash recs2 := by
  apply canonical_eq_of_wOf (canonCompact_canonical hash recs1)
    (canonCompact_canonical hash recs2)
  intro k v
  rw [canonCompact_recW, canonCompact_recW]
  exact h k v

theorem canonCompact_perm {K V : Type} [LinearOrder K] [LinearOrder V]
    (hash : K → Nat) {recs1 recs2 : List (Rec K V)} (h : recs1.Perm recs2) :
    canonCompact hash recs1 = canonCompact hash recs2 :=
  canonCompact_ext hash (fun k v => recW_perm h k v)

theorem canonCompact_eq_nil {K V : Type} [LinearOrder K] [LinearOrder V]
    (hash : K → Nat) {recs : List (Rec K V)} (h : ∀ k v, recW recs k v = 0) :
    canonCompact hash recs = [] := by
  apply canonical_eq_of_wOf (canonCompact_canonical hash recs)
    (⟨List.Pairwise.nil, by simp⟩ : CanonicalCompact hash ([] : Compact K V))
  intro k v
  rw [canonCompact_recW, h k v, diffsFor_nil, wOf_nil]

/-- Modelled from the spec: the radix sorter.  All buffered deliveries are fed
in and finish returns every record in key-hash order (radix_sort is not part
of the excerpt; an LSB radix sort by the hash is a stable hash-ordered
sort). -/
def radixFinish {K V : Type} [LinearOrder K] [LinearOrder V] (hash : K → Nat)
    (queue : List (List (Rec K V))) : List (Rec K V) :=
  List.insertionSort (hashLeRec hash) queue.flatten

/-- Direct sort path for a single buffered delivery: a stable in-place sort by
key hash only, group.rs line 233. -/
def directSort {K V : Type} [LinearOrder K] [LinearOrder V] (hash : K → Nat)
    (delivery : List (Rec K V)) : List (Rec K V) :=
  List.insertionSort (hashLeRec hash) delivery

/-- Modelled from the spec: Compact::from_radix builds one Compact from the
staged buffers, or none when the batch compacts away entirely (group.rs line
237 tests this option). -/
def fromRadix {K V : Type} [LinearOrder K] [LinearOrder V] (hash : K → Nat)
    (buffers : List (List (Rec K V))) : Option (Compact K V) :=
  if canonCompact hash buffers.flatten = [] then none
  else some (canonCompact hash buffers.flatten)

/-- Staging of a finalized time, group.rs lines 220-235: with more than one
buffered delivery every record goes through the radix sorter; with exactly
one delivery the records are sorted directly; both paths then build one
Compact. -/
def stageAndCompact {K V : Type} [LinearOrder K] [LinearOrder V] (hash : K → Nat)
    (queue : List (List (Rec K V))) : Option (Compact K V) :=
  if queue.length > 1 then
    fromRadix hash [radixFinish hash queue]
  else
    match queue with
    | [] => none
    | d :: _ => fromRadix hash [directSort hash d]

theorem stageAndCompact_eq_canon {K V : Type} [LinearOrder K] [LinearOrder V]
    (hash : K → Nat) (queue : List (List (Rec K V))) (hne : queue ≠ []) :
    stageAndCompact hash queue =
      (if canonCompact hash queue.flatten = [] then none
       else some (canonCompact hash queue.flatten)) := by
  have key : ∀ l : List (Rec K V), l.Perm queue.flatten →
      fromRadix hash [l] = (if canonCompact hash queue.flatten = [] then none
        else some (canonCompact hash queue.flatten)) := by
    intro l hp
    have : canonCompact hash ([l] : List (List (Rec K V))).flatten
        = canonCompact hash queue.flatten := by
      apply canonCompact_perm
      simpa using hp
    rw [fromRadix, this]
  by_cases hlen : queue.length > 1
  · rw [stageAndCompact.eq_def, if_pos hlen]
    apply key
    exact (List.perm_insertionSort _ _)
  · cases queue with
    | nil => exact absurd rfl hne
    | cons d rest =>
      have hrest : rest = [] := by
        cases rest with
        | nil => rfl
        | cons e rest2 => simp [List.length_cons] at hlen
      subst hrest
      rw [stageAndCompact.eq_def, if_neg hlen]
      apply key
      simp only [List.flatten, List.append_nil]
      exact (List.perm_insertionSort _ _)

/-- Remove consecutive duplicates, modelling Vec::dedup at group.rs line
267. -/
def dedupC {α : Type} [DecidableEq α] : List α → List α
  | [] => []
  | [a] => [a]
  | a :: b :: rest => if a = b then dedupC (b :: rest) else a :: dedupC (b :: rest)

/-- Deterministic per-time key order: sort the pending keys by (hash, key)
and remove consecutive duplicates, group.rs lines 266-267. -/
def processKeys {K : Type} [LinearOrder K] (hash : K → Nat) (keys : List K) :
    List K :=
  dedupC (List.insertionSort (keyLe hash) keys)

theorem mem_dedupC {α : Type} [DecidableEq α] :
    ∀ (l : List α) (x : α), x ∈ dedupC l ↔ x ∈ l := by
  intro l
  induction l with
  | nil => simp [dedupC]
  | cons a l ih =>
    cases l with
    | nil => simp [dedupC]
    | cons b rest =>
      intro x
      by_cases hab : a = b
      · have e : dedupC (a :: b :: rest) = dedupC (b :: rest) := by
          simp [dedupC, hab]
        rw [e, ih x]
        subst hab
        simp [List.mem_cons]
      · have e : dedupC (a :: b :: rest) = a :: dedupC (b :: rest) := by
          simp [dedupC, hab]
        rw [e]
        simp only [List.mem_cons, ih x]

theorem keyLe_antisymm {K : Type} [LinearOrder K] (hash : K → Nat) {a b : K}
    (h1 : keyLe hash a b) (h2 : keyLe hash b a) : a = b := by
  rcases h1 with h1 | ⟨h1, h1k⟩ <;> rcases h2 with h2 | ⟨h2, h2k⟩
  · exact absurd (lt_trans h1 h2) (lt_irrefl _)
  · exact absurd h1 (by rw [h2]; exact lt_irrefl _)
  · exact absurd h2 (by rw [h1]; exact lt_irrefl _)
  · exact le_antisymm h1k h2k

theorem keyLt_of_keyLe_ne {K : Type} [LinearOrder K] (hash : K → Nat) {a b : K}
    (h : keyLe hash a b) (hne : a ≠ b) : keyLt hash a b := by
  rcases h with h | ⟨h, hk⟩
  · exact Or.inl h
  · exact Or.inr ⟨h, lt_of_le_of_ne hk hne⟩

theorem dedupC_strict {K : Type} [LinearOrder K] (hash : K → Nat) :
    ∀ {l : List K}, l.Pairwise (keyLe hash) → (dedupC l).Pairwise (keyLt hash) := by
  intro l
  induction l with
  | nil => intro _; exact List.Pairwise.nil
  | cons a l ih =>
    cases l with
    | nil => intro _; simp [dedupC]
    | cons b rest =>
      intro h
      rw [List.pairwise_cons] at h
      obtain ⟨ha, hbr⟩ := h
      by_cases hab : a = b
      · have e : dedupC (a :: b :: rest) = dedupC (b :: rest) := by
          simp [dedupC, hab]
        rw [e]
        exact ih hbr
      · have e : dedupC (a :: b :: rest) = a :: dedupC (b :: rest) := by
          simp [dedupC, hab]
        rw [e, List.pairwise_cons]
        refine ⟨?_, ih hbr⟩
        intro x hx
        rw [mem_dedupC] at hx
        have hax : keyLe hash a x := ha x hx
        have hne : a ≠ x := by
          rcases List.mem_cons.mp hx with hx | hx
          · rw [hx]; exact hab
          · intro he
            have hbx : keyLe hash b x := (List.pairwise_cons.mp hbr).1 x hx
            rw [← he] at hbx
            exact hab (keyLe_antisymm hash (ha b (List.mem_cons_self _ _)) hbx)
        exact keyLt_of_keyLe_ne hash hax hne

theorem strictKeys_eq_of_mem {K : Type} [LinearOrder K] (hash : K → Nat) :
    ∀ {l1 l2 : List K}, l1.Pairwise (keyLt hash) → l2.Pairwise (keyLt hash) →
      (∀ x, x ∈ l1 ↔ x ∈ l2) → l1 = l2 := by
  intro l1
  induction l1 with
  | nil =>
    intro l2 _ _ hm
    cases l2 with
    | nil => rfl
    | cons b l2 =>
      exfalso
      have := (hm b).mpr (List.mem_cons_self _ _)
      simp at this
  | cons a l1 ih =>
    intro l2 h1 h2 hm
    cases l2 with
    | nil =>
      exfalso
      have := (hm a).mp (List.mem_cons_self _ _)
      simp at this
    | cons b l2 =>
      have hab : a = b := by
        have hain : a ∈ b :: l2 := (hm a).mp (List.mem_cons_self _ _)
        have hbin : b ∈ a :: l1 := (hm b).mpr (List.mem_cons_self _ _)
        rcases List.mem_cons.mp hain with h | h
        · exact h
        · rcases List.mem_cons.mp hbin with h2m | h2m
          · exact h2m.symm
          · exfalso
            have hba : keyLt hash b a := (List.pairwise_cons.mp h2).1 a h
            have hab2 : keyLt hash a b := (List.pairwise_cons.mp h1).1 b h2m
            exact keyLt_asymm hash hab2 hba
      subst hab
      have htail : l1 = l2 := by
        apply ih (List.pairwise_cons.mp h1).2 (List.pairwise_cons.mp h2).2
        intro x
        constructor
        · intro hx
          have hne : x ≠ a := by
            intro he
            exact keyLt_irrefl hash a (he ▸ (List.pairwise_cons.mp h1).1 x hx)
          rcases List.mem_cons.mp ((hm x).mp (List.mem_cons_of_mem _ hx)) with h | h
          · exact absurd h hne
          · exact h
        · intro hx
          have hne : x ≠ a := by
            intro he
            exact keyLt_irrefl hash a (he ▸ (List.pairwise_cons.mp h2).1 x hx)
          rcases List.mem_cons.mp ((hm x).mpr (List.mem_cons_of_mem _ hx)) with h | h
          · exact absurd h hne
          · exact h
      rw [htail]

theorem processKeys_strict {K : Type} [LinearOrder K] (hash : K → Nat)
    (keys : List K) : (processKeys hash keys).Pairwise (keyLt hash) :=
  dedupC_strict hash (List.sorted_insertionSort (keyLe hash) keys)

theorem processKeys_mem {K : Type} [LinearOrder K] (hash : K → Nat)
    (keys : List K) (k : K) : k ∈ processKeys hash keys ↔ k ∈ keys := by
  rw [processKeys, mem_dedupC]
  exact (List.perm_insertionSort (keyLe hash) keys).mem_iff

theorem processKeys_nodup {K : Type} [LinearOrder K] (hash : K → Nat)
    (keys : List K) : (processKeys hash keys).Nodup := by
  apply List.Pairwise.imp ?_ (processKeys_strict hash keys)
  intro a b hab he
  exact keyLt_irrefl hash a (he ▸ hab)

theorem processKeys_perm_inv {K : Type} [LinearOrder K] (hash : K → Nat)
    {ks1 ks2 : List K} (h : ks1.Perm ks2) :
    processKeys hash ks1 = processKeys hash ks2 := by
  apply strictKeys_eq_of_mem hash (processKeys_strict hash ks1)
    (processKeys_strict hash ks2)
  intro x
  rw [processKeys_mem, processKeys_mem]
  exact h.mem_iff

/-- Modelled from the spec: a Trace is, per key, the append-only list of
(time, differences) entries ever installed (collection/trace.rs is not part
of the excerpt).  Times here are drawn from the linear Nat domain, where the
least upper bound is max. -/
abbrev Trace (K V : Type) := List (Nat × Compact K V)

/-- Times already on record for a key in a trace. -/
def recTimes {K V : Type} [DecidableEq K] (tr : Trace K V) (k : K) : List Nat :=
  (tr.filter (fun e => e.2.any (fun g => decide (g.1 = k)))).map (fun e => e.1)

/-- Modelled from the spec: Trace::interesting_times — the least upper bounds
of the new time with every time already on record for the key, plus the new
time itself, deduplicated. -/
def interestingTimes {K V : Type} [DecidableEq K] (tr : Trace K V) (k : K)
    (t : Nat) : List Nat :=
  List.dedup (t :: (recTimes tr k).map (fun s => max t s))

/-- Modelled from the spec: Trace::get_collection_using — merge every entry
installed at times at most t for the key into one value-sorted,
weight-coalesced collection. -/
def getCollection {K V : Type} [DecidableEq K] [LinearOrder V] (tr : Trace K V)
    (k : K) (t : Nat) : Diffs V :=
  canonDiffs (((tr.filter (fun e => decide (e.1 ≤ t))).map (fun e => diffsFor e.2 k)).flatten)

/-- Modelled from the spec: Trace::set_difference installs a compacted batch
as the entries for a new time and never revises previous entries. -/
def setDifference {K V : Type} (tr : Trace K V) (t : Nat) (c : Compact K V) :
    Trace K V :=
  tr ++ [(t, c)]

/-- All differences ever installed for a key, across every time of a trace. -/
def allDiffs {K V : Type} [DecidableEq K] (tr : Trace K V) (k : K) : Diffs V :=
  (tr.map (fun e => diffsFor e.2 k)).flatten

/-- Push a key onto the pending work-list of a time, creating the entry when
the time is absent: the entry_or_insert on the to_do list at group.rs line
241. -/
def pendPush {T K : Type} [DecidableEq T] (td : List (T × List K)) (s : T) (k : K) :
    List (T × List K) :=
  match td with
  | [] => [(s, [k])]
  | (t0, ks) :: rest =>
    if t0 = s then (t0, ks ++ [k]) :: rest else (t0, ks) :: pendPush rest s k

/-- Remove and return the pending work-list of a time, the remove_key on the
to_do list at group.rs line 262. -/
def pendRemove {T K : Type} [DecidableEq T] (td : List (T × List K)) (s : T) :
    Option (List K) × List (T × List K) :=
  match td with
  | [] => (none, [])
  | (t0, ks) :: rest =>
    if t0 = s then (some ks, rest)
    else
      let r := pendRemove rest s
      (r.1, (t0, ks) :: r.2)

/-- Phase A enqueueing, group.rs lines 239-244: for every key of the new
Compact, enqueue the key into the pending list of every interesting time the
source trace reports. -/
def phaseAEnqueue {K V : Type} [DecidableEq K] (source : Trace K V)
    (toDo : List (Nat × List K)) (t : Nat) (keys : List K) :
    List (Nat × List K) :=
  keys.foldl
    (fun td k => (interestingTimes source k t).foldl (fun td2 s => pendPush td2 s k) td)
    toDo

/-- Boolean value order on difference entries, for the streaming merge. -/
def valLeB {V : Type} [LinearOrder V] (p q : V × Int) : Bool :=
  decide (p.1 ≤ q.1)

/-- Net output differences for one pending key at one time, group.rs lines
274-292: read the merged input collection, run the user logic on it when it
is nonempty, sort the buffer by value, then merge it against the negated
previously emitted collection and coalesce. -/
def keyOutput {K V V2 : Type} [DecidableEq K] [LinearOrder V] [LinearOrder V2]
    (source : Trace K V) (result : Trace K V2)
    (logic : K → Diffs V → Diffs V2) (t : Nat) (k : K) : Diffs V2 :=
  let inColl := getCollection source k t
  let buffer := if inColl = [] then [] else logic k inColl
  coalesce (mergeBy valLeB (negate (getCollection result k t)) (sortVals buffer))

/-- Operator state: the source and result traces, the pending work-lists per
time, and the log of every (time, key, output record, weight) emission. -/
structure GState (K V V2 D2 : Type) where
  source : Trace K V
  result : Trace K V2
  toDo : List (Nat × List K)
  emitted : List (Nat × K × D2 × Int)

/-- Per-key outputs of one processed time, in processing order. -/
def outsOf {K V V2 : Type} [DecidableEq K] [LinearOrder V] [LinearOrder V2]
    (source : Trace K V) (result : Trace K V2)
    (logic : K → Diffs V → Diffs V2) (t : Nat) (keys2 : List K) :
    List (K × Diffs V2) :=
  keys2.map (fun k => (k, keyOutput source result logic t k))

/-- The session emissions of one processed time: every net difference mapped
through the output function and tagged with its time and key, group.rs line
290. -/
def emitsOf {K V2 D2 : Type} (reduc : K → V2 → D2) (t : Nat)
    (outs : List (K × Diffs V2)) : List (Nat × K × D2 × Int) :=
  outs.flatMap (fun ko => ko.2.map (fun p => (t, ko.1, reduc ko.1 p.1, p.2)))

/-- The accumulation Compact of one processed time: each processed key with
its net differences, keys with no differences dropped, group.rs lines
283-293. -/
def accOf {K V2 : Type} [DecidableEq V2] (outs : List (K × Diffs V2)) : Compact K V2 :=
  outs.filterMap (fun ko => if ko.2 = [] then none else some ko)

/-- Phase A of one notified time, group.rs lines 217-249: stage and compact
the buffered deliveries; when the batch compacts to something, enqueue every
key of the compact at every interesting time the source trace reports, then
install the compact into the source trace. -/
def gStepA {K V V2 D2 : Type} [LinearOrder K] [LinearOrder V]
    (hash : K → Nat) (st : GState K V V2 D2) (t : Nat)
    (queue : List (List (Rec K V))) : GState K V V2 D2 :=
  match stageAndCompact hash queue with
  | none => st
  | some c =>
    { st with
      toDo := phaseAEnqueue st.source st.toDo t (c.map (fun g => g.1)),
      source := setDifference st.source t c }

/-- Phase B of one notified time, group.rs lines 262-301: take the pending
key list of the time if any, process the keys in deterministic (hash, key)
order, emit their net differences, and install the nonempty accumulation
into the result trace. -/
def gStepB {K V V2 D2 : Type} [LinearOrder K] [LinearOrder V] [LinearOrder V2]
    (hash : K → Nat) (logic : K → Diffs V → Diffs V2) (reduc : K → V2 → D2)
    (st1 : GState K V V2 D2) (t : Nat) : GState K V V2 D2 :=
  match pendRemove st1.toDo t with
  | (none, td) => { st1 with toDo := td }
  | (some keys, td) =>
    let outs := outsOf st1.source st1.result logic t (processKeys hash keys)
    { source := st1.source,
      result := if accOf outs = [] then st1.result
                else setDifference st1.result t (accOf outs),
      toDo := td,
      emitted := st1.emitted ++ emitsOf reduc t outs }

/-- One notified time of the operator, group.rs lines 214-302: phase A
(ingest) followed by phase B (recompute and emit). -/
def gStep {K V V2 D2 : Type} [LinearOrder K] [LinearOrder V] [LinearOrder V2]
    (hash : K → Nat) (logic : K → Diffs V → Diffs V2) (reduc : K → V2 → D2)
    (st : GState K V V2 D2) (inp : Nat × List (List (Rec K V))) :
    GState K V V2 D2 :=
  gStepB hash logic reduc (gStepA hash st inp.1 inp.2) inp.1

/-- Run the operator over a sequence of notified times, each carrying the
deliveries buffered for that time. -/
def gRun {K V V2 D2 : Type} [LinearOrder K] [LinearOrder V] [LinearOrder V2]
    (hash : K → Nat) (logic : K → Diffs V → Diffs V2) (reduc : K → V2 → D2)
    (inputs : List (Nat × List (List (Rec K V)))) : GState K V V2 D2 :=
  inputs.foldl (gStep hash logic reduc) ⟨[], [], [], []⟩

/-- All (time, record) updates carried by an input sequence. -/
def updatesOf {K V : Type} (inputs : List (Nat × List (List (Rec K V)))) :
    List (Nat × Rec K V) :=
  inputs.flatMap (fun e => e.2.flatten.map (fun r => (e.1, r)))

/-- Naive non-incremental accumulation: the net weight of value v under key k
summed over every update at times at most t. -/
def naiveW {K V : Type} [DecidableEq K] [DecidableEq V]
    (inputs : List (Nat × List (List (Rec K V)))) (k : K) (t : Nat) (v : V) : Int :=
  recW (((updatesOf inputs).filter (fun u => decide (u.1 ≤ t))).map (fun u => u.2)) k v

/-- The full final input records of one key, over every time. -/
def recsForKey {K V : Type} [DecidableEq K]
    (inputs : List (Nat × List (List (Rec K V)))) (k : K) : Diffs V :=
  (((updatesOf inputs).map (fun u => u.2)).filter (fun r => decide (r.1 = k))).map
    (fun r => r.2)

/-- The full final input collection of one key, in canonical form. -/
def finalColl {K V : Type} [DecidableEq K] [LinearOrder V]
    (inputs : List (Nat × List (List (Rec K V)))) (k : K) : Diffs V :=
  canonDiffs (recsForKey inputs k)

/-- Sum of all emitted weights for one key and one output record across the
whole emission log. -/
def emittedW {K D2 : Type} [DecidableEq K] [DecidableEq D2]
    (log : List (Nat × K × D2 × Int)) (k : K) (d : D2) : Int :=
  (log.map (fun e => if e.2.1 = k ∧ e.2.2.1 = d then e.2.2.2 else 0)).sum

theorem wOfBy_ext_of_wOf {V D : Type} [LinearOrder V] [DecidableEq D]
    {xs ys : Diffs V} (h : ∀ v, wOf xs v = wOf ys v) (g : V → D) (d : D) :
    wOfBy g xs d = wOfBy g ys d := by
  have h1 : wOfBy g xs d = wOfBy g (canonDiffs xs) d := by
    rw [canonDiffs, wOfBy_coalesce, wOfBy_perm g (sortVals_perm xs) d]
  have h2 : wOfBy g ys d = wOfBy g (canonDiffs ys) d := by
    rw [canonDiffs, wOfBy_coalesce, wOfBy_perm g (sortVals_perm ys) d]
  rw [h1, h2, canonDiffs_ext h]

theorem emittedW_append {K D2 : Type} [DecidableEq K] [DecidableEq D2]
    (l1 l2 : List (Nat × K × D2 × Int)) (k : K) (d : D2) :
    emittedW (l1 ++ l2) k d = emittedW l1 k d + emittedW l2 k d := by
  simp [emittedW]

theorem getCollection_append_wOf {K V : Type} [DecidableEq K] [LinearOrder V]
    (tr : Trace K V) (t0 : Nat) (c : Compact K V) (k : K) (t : Nat) (v : V) :
    wOf (getCollection (tr ++ [(t0, c)]) k t) v
      = wOf (getCollection tr k t) v
          + (if t0 ≤ t then wOf (diffsFor c k) v else 0) := by
  rw [getCollection, getCollection, canonDiffs_wOf, canonDiffs_wOf,
      List.filter_append, List.map_append, List.flatten_append, wOf_append]
  congr 1
  by_cases h : t0 ≤ t
  · simp [h]
  · simp only [h]
    simp [wOf_nil, h]

theorem allDiffs_append {K V : Type} [DecidableEq K] (tr : Trace K V) (t : Nat)
    (c : Compact K V) (k : K) :
    allDiffs (tr ++ [(t, c)]) k = allDiffs tr k ++ diffsFor c k := by
  simp [allDiffs]

theorem getCollection_of_le {K V : Type} [DecidableEq K] [LinearOrder V]
    {tr : Trace K V} {t : Nat} (h : ∀ e ∈ tr, e.1 ≤ t) (k : K) :
    getCollection tr k t = canonDiffs (allDiffs tr k) := by
  rw [getCollection, allDiffs, List.filter_eq_self.mpr]
  intro e he
  exact decide_eq_true (h e he)

theorem updatesOf_append {K V : Type} (l1 l2 : List (Nat × List (List (Rec K V)))) :
    updatesOf (l1 ++ l2) = updatesOf l1 ++ updatesOf l2 := by
  simp [updatesOf]

theorem naiveW_of_updates {K V : Type} [DecidableEq K] [DecidableEq V]
    {u1 u2 : List (Nat × List (List (Rec K V)))}
    (h : updatesOf u1 = updatesOf u2) (k : K) (t : Nat) (v : V) :
    naiveW u1 k t v = naiveW u2 k t v := by
  rw [naiveW, naiveW, h]

theorem naiveW_append {K V : Type} [DecidableEq K] [DecidableEq V]
    (l1 l2 : List (Nat × List (List (Rec K V)))) (k : K) (t : Nat) (v : V) :
    naiveW (l1 ++ l2) k t v = naiveW l1 k t v + naiveW l2 k t v := by
  rw [naiveW, naiveW, naiveW, updatesOf_append, List.filter_append,
      List.map_append, recW_append]

theorem filter_dconst {α : Type} (l : List α) (c : Prop) [Decidable c] :
    l.filter (fun _ => decide c) = if c then l else [] := by
  induction l with
  | nil => simp
  | cons a l ih =>
    by_cases h : c
    · simp [h, List.filter_cons, ih]
    · simp [h, List.filter_cons, ih]

theorem naiveW_single {K V : Type} [DecidableEq K] [DecidableEq V]
    (t : Nat) (queue : List (List (Rec K V))) (k : K) (t0 : Nat) (v : V) :
    naiveW [(t, queue)] k t0 v = if t ≤ t0 then recW queue.flatten k v else 0 := by
  have hu : updatesOf [(t, queue)] = queue.flatten.map (fun r => (t, r)) := by
    simp [updatesOf]
  rw [naiveW, hu, List.filter_map]
  have : ((fun u : Nat × Rec K V => decide (u.1 ≤ t0)) ∘ fun r => (t, r))
      = fun _ => decide (t ≤ t0) := by
    funext r
    rfl
  rw [this, filter_dconst]
  by_cases h : t ≤ t0
  · simp only [h, if_true]
    congr 1
    rw [List.map_map]
    have : ((fun u : Nat × Rec K V => u.2) ∘ fun r => (t, r)) = id := by
      funext r; rfl
    rw [this, List.map_id]
  · simp [h, recW_nil]

theorem recsForKey_wOf {K V : Type} [DecidableEq K] [DecidableEq V]
    (inputs : List (Nat × List (List (Rec K V)))) (k : K) (v : V) :
    wOf (recsForKey inputs k) v = recW ((updatesOf inputs).map (fun u => u.2)) k v := rfl

theorem naiveW_eq_final {K V : Type} [DecidableEq K] [DecidableEq V]
    {inputs : List (Nat × List (List (Rec K V)))} {t : Nat}
    (h : ∀ u ∈ updatesOf inputs, u.1 ≤ t) (k : K) (v : V) :
    naiveW inputs k t v = wOf (recsForKey inputs k) v := by
  rw [naiveW, recsForKey_wOf, List.filter_eq_self.mpr]
  intro u hu
  exact decide_eq_true (h u hu)

theorem dedup_all_eq {t : Nat} : ∀ {l : List Nat}, (∀ x ∈ l, x = t) →
    (t :: l).dedup = [t] := by
  intro l
  induction l with
  | nil => intro _; simp
  | cons a l ih =>
    intro h
    have ha : a = t := h a (List.mem_cons_self _ _)
    subst ha
    rw [List.dedup_cons_of_mem (List.mem_cons_self _ _)]
    exact ih (fun x hx => h x (List.mem_cons_of_mem _ hx))

theorem interestingTimes_all {K V : Type} [DecidableEq K] {tr : Trace K V} {k : K}
    {t : Nat} (h : ∀ s ∈ recTimes tr k, s ≤ t) :
    interestingTimes tr k t = [t] := by
  rw [interestingTimes]
  apply dedup_all_eq
  intro x hx
  rw [List.mem_map] at hx
  obtain ⟨s, hs, hsx⟩ := hx
  rw [← hsx]
  exact Nat.max_eq_left (h s hs)

theorem pendPush_fold_at {K : Type} (t : Nat) :
    ∀ (keys : List K) (ks : List K),
      keys.foldl (fun td k => pendPush td t k) [(t, ks)] = [(t, ks ++ keys)] := by
  intro keys
  induction keys with
  | nil => intro ks; simp
  | cons k0 keys ih =>
    intro ks
    have e : pendPush [(t, ks)] t k0 = [(t, ks ++ [k0])] := by
      simp [pendPush]
    simp only [List.foldl_cons, e, ih]
    simp

theorem pendPush_fold_nil {K : Type} (t : Nat) (keys : List K) (hne : keys ≠ []) :
    keys.foldl (fun td k => pendPush td t k) [] = [(t, keys)] := by
  cases keys with
  | nil => exact absurd rfl hne
  | cons k0 keys =>
    have e : pendPush ([] : List (Nat × List K)) t k0 = [(t, [k0])] := rfl
    simp only [List.foldl_cons, e]
    rw [pendPush_fold_at]
    simp

theorem pendRemove_single {K : Type} (t : Nat) (ks : List K) :
    pendRemove [(t, ks)] t = (some ks, []) := by
  simp [pendRemove]

theorem pendRemove_nil {K : Type} (t : Nat) :
    pendRemove ([] : List (Nat × List K)) t = (none, []) := rfl

theorem keyOutput_wOf {K V V2 : Type} [DecidableEq K] [LinearOrder V] [LinearOrder V2]
    (source : Trace K V) (result : Trace K V2) (logic : K → Diffs V → Diffs V2)
    (t : Nat) (k : K) (v2 : V2) :
    wOf (keyOutput source result logic t k) v2
      = wOf (if getCollection source k t = [] then []
             else logic k (getCollection source k t)) v2
          - wOf (getCollection result k t) v2 := by
  rw [keyOutput, wOf_coalesce, wOf_perm (mergeBy_perm _ _ _) v2, wOf_append,
      wOf_negate, wOf_perm (sortVals_perm _) v2]
  omega

theorem keyOutput_indep {K V V2 : Type} [DecidableEq K] [LinearOrder V]
    [LinearOrder V2] (source : Trace K V) (result : Trace K V2)
    (logic1 logic2 : K → Diffs V → Diffs V2) (t : Nat) (k : K)
    (h : getCollection source k t = []) :
    keyOutput source result logic1 t k = keyOutput source result logic2 t k := by
  rw [keyOutput, keyOutput, h]
  simp

theorem keyOutput_empty_coll {K V V2 : Type} [DecidableEq K] [LinearOrder V]
    [LinearOrder V2] (source : Trace K V) (result : Trace K V2)
    (logic : K → Diffs V → Diffs V2) (t : Nat) (k : K)
    (h : getCollection source k t = []) :
    keyOutput source result logic t k = negate (getCollection result k t) := by
  have hb : keyOutput source result logic t k
      = coalesce (negate (getCollection result k t)) := by
    rw [keyOutput, h]
    simp [sortVals, List.insertionSort, mergeBy_nil_right]
  rw [hb]
  apply coalesce_fix
  have hs : StrictForm (getCollection result k t) := by
    rw [getCollection]
    exact canonDiffs_strict _
  obtain ⟨hp, hz⟩ := hs
  constructor
  · rw [negate]
    refine List.Pairwise.map _ ?_ hp
    intro p q hpq
    exact hpq
  · intro p hp2
    rw [negate, List.mem_map] at hp2
    obtain ⟨q, hq, hqp⟩ := hp2
    rw [← hqp]
    simp only [ne_eq, neg_eq_zero]
    exact hz q hq

theorem emittedW_single {K V2 D2 : Type} [DecidableEq K] [DecidableEq D2]
    (reduc : K → V2 → D2) (t : Nat) (k0 : K) (out : Diffs V2) (k : K) (d : D2) :
    emittedW (out.map (fun p => (t, k0, reduc k0 p.1, p.2))) k d
      = if k0 = k then wOfBy (reduc k) out d else 0 := by
  induction out with
  | nil => by_cases h : k0 = k <;> simp [emittedW, h, wOfBy_nil]
  | cons p out ih =>
    obtain ⟨v2, w⟩ := p
    simp only [List.map_cons, emittedW, List.sum_cons] at *
    rw [ih]
    by_cases h : k0 = k
    · subst h
      rw [wOfBy_cons]
      by_cases hd : reduc k0 v2 = d
      · simp [hd]
      · simp [hd]
    · simp [h]

theorem emittedW_emitsOf {K V2 D2 : Type} [DecidableEq K] [DecidableEq D2]
    (reduc : K → V2 → D2) (t : Nat) (outs : List (K × Diffs V2)) (k : K) (d : D2) :
    emittedW (emitsOf reduc t outs) k d
      = ((outs.filter (fun ko => ko.1 = k)).map
          (fun ko => wOfBy (reduc k) ko.2 d)).sum := by
  induction outs with
  | nil => rfl
  | cons ko outs ih =>
    obtain ⟨k0, out⟩ := ko
    simp only [emitsOf, List.flatMap_cons] at *
    rw [show emittedW (List.map (fun p => (t, k0, reduc k0 p.1, p.2)) out
          ++ outs.flatMap (fun ko => ko.2.map (fun p => (t, ko.1, reduc ko.1 p.1, p.2)))) k d
        = emittedW (List.map (fun p => (t, k0, reduc k0 p.1, p.2)) out) k d
            + emittedW (outs.flatMap (fun ko => ko.2.map (fun p => (t, ko.1, reduc ko.1 p.1, p.2)))) k d
        from emittedW_append _ _ k d]
    rw [ih, emittedW_single]
    by_cases h : k0 = k
    · simp [List.filter_cons, h]
    · simp [List.filter_cons, h]

theorem filter_eq_of_nodup {α : Type} [DecidableEq α] :
    ∀ {l : List α}, l.Nodup → ∀ k, l.filter (fun x => x = k) = if k ∈ l then [k] else [] := by
  intro l
  induction l with
  | nil => intro _ k; simp
  | cons a l ih =>
    intro h k
    rw [List.nodup_cons] at h
    by_cases hak : a = k
    · subst hak
      have e : List.filter (fun x => decide (x = a)) (a :: l)
          = a :: List.filter (fun x => decide (x = a)) l := by
        simp [List.filter_cons]
      rw [e, ih h.2 a, if_neg h.1, if_pos (List.mem_cons_self _ _)]
    · have e : List.filter (fun x => decide (x = k)) (a :: l)
          = List.filter (fun x => decide (x = k)) l := by
        simp [List.filter_cons, hak]
      rw [e, ih h.2 k]
      by_cases hm : k ∈ l
      · rw [if_pos hm, if_pos (List.mem_cons_of_mem _ hm)]
      · rw [if_neg hm, if_neg ?_]
        intro hc
        rcases List.mem_cons.mp hc with h1 | h1
        · exact hak h1.symm
        · exact hm h1

theorem outsOf_filter {K V V2 : Type} [DecidableEq K] [LinearOrder V] [LinearOrder V2]
    (source : Trace K V) (result : Trace K V2) (logic : K → Diffs V → Diffs V2)
    (t : Nat) {keys2 : List K} (h : keys2.Nodup) (k : K) :
    (outsOf source result logic t keys2).filter (fun ko => ko.1 = k)
      = if k ∈ keys2 then [(k, keyOutput source result logic t k)] else [] := by
  rw [outsOf, List.filter_map]
  have e : ((fun ko : K × Diffs V2 => decide (ko.1 = k))
      ∘ fun k2 => (k2, keyOutput source result logic t k2)) = fun x => decide (x = k) := by
    funext x
    rfl
  rw [e, filter_eq_of_nodup h k]
  by_cases hm : k ∈ keys2
  · simp [hm]
  · simp [hm]

theorem emittedW_emitsOf_outsOf {K V V2 D2 : Type} [DecidableEq K] [LinearOrder V]
    [LinearOrder V2] [DecidableEq D2] (source : Trace K V) (result : Trace K V2)
    (logic : K → Diffs V → Diffs V2) (reduc : K → V2 → D2) (t : Nat)
    {keys2 : List K} (h : keys2.Nodup) (k : K) (d : D2) :
    emittedW (emitsOf reduc t (outsOf source result logic t keys2)) k d
      = if k ∈ keys2 then wOfBy (reduc k) (keyOutput source result logic t k) d
        else 0 := by
  rw [emittedW_emitsOf, outsOf_filter source result logic t h k]
  by_cases hm : k ∈ keys2
  · simp [hm]
  · simp [hm]

theorem diffsFor_accOf {K V2 : Type} [DecidableEq K] [DecidableEq V2] :
    ∀ {keys2 : List K}, keys2.Nodup → ∀ (f : K → Diffs V2) (k : K),
      diffsFor (accOf (keys2.map (fun k2 => (k2, f k2)))) k
        = if k ∈ keys2 then f k else [] := by
  intro keys2
  induction keys2 with
  | nil => intro _ f k; simp [accOf, diffsFor_nil]
  | cons a keys2 ih =>
    intro h f k
    rw [List.nodup_cons] at h
    by_cases hfa : f a = []
    · have e : accOf (((a :: keys2).map (fun k2 => (k2, f k2))))
          = accOf (keys2.map (fun k2 => (k2, f k2))) := by
        simp [accOf, hfa]
      rw [e, ih h.2 f k]
      by_cases hk : k = a
      · subst hk
        rw [if_neg h.1, if_pos (List.mem_cons_self _ _), hfa]
      · simp only [List.mem_cons]
        by_cases hm : k ∈ keys2
        · simp [hm]
        · simp [hm, hk]
    · have e : accOf (((a :: keys2).map (fun k2 => (k2, f k2))))
          = (a, f a) :: accOf (keys2.map (fun k2 => (k2, f k2))) := by
        simp [accOf, hfa]
      rw [e, diffsFor_cons, ih h.2 f k]
      by_cases hk : a = k
      · subst hk
        rw [if_pos rfl, if_neg h.1, if_pos (List.mem_cons_self _ _), List.append_nil]
      · rw [if_neg hk, List.nil_append]
        simp only [List.mem_cons]
        by_cases hm : k ∈ keys2
        · simp [hm]
        · rw [if_neg hm, if_neg ?_]
          intro hc
          rcases hc with h1 | h1
          · exact hk h1.symm
          · exact hm h1

theorem allDiffs_install {K V2 : Type} [DecidableEq K] [DecidableEq V2] (res : Trace K V2) (t : Nat)
    (acc : Compact K V2) (k : K) :
    allDiffs (if acc = [] then res else setDifference res t acc) k
      = allDiffs res k ++ diffsFor acc k := by
  split_ifs with h
  · rw [h, diffsFor_nil, List.append_nil]
  · exact allDiffs_append res t acc k

theorem stage_none_recW {K V : Type} [LinearOrder K] [LinearOrder V]
    {hash : K → Nat} {queue : List (List (Rec K V))}
    (h : stageAndCompact hash queue = none) (k : K) (v : V) :
    recW queue.flatten k v = 0 := by
  cases hq : queue with
  | nil => subst hq; rfl
  | cons d rest =>
    subst hq
    rw [stageAndCompact_eq_canon hash _ (by simp)] at h
    by_cases hc : canonCompact hash ((d :: rest).flatten) = []
    · rw [← canonCompact_recW hash, hc, diffsFor_nil, wOf_nil]
    · rw [if_neg hc] at h
      exact absurd h (by simp)

theorem stage_some_canon {K V : Type} [LinearOrder K] [LinearOrder V]
    {hash : K → Nat} {queue : List (List (Rec K V))} {c : Compact K V}
    (h : stageAndCompact hash queue = some c) :
    c = canonCompact hash queue.flatten ∧ c ≠ [] := by
  have hq : queue ≠ [] := by
    intro he
    subst he
    simp [stageAndCompact] at h
  rw [stageAndCompact_eq_canon hash _ hq] at h
  by_cases hc : canonCompact hash queue.flatten = []
  · rw [if_pos hc] at h
    exact absurd h (by simp)
  · rw [if_neg hc] at h
    simp only [Option.some.injEq] at h
    exact ⟨h.symm, by rw [h] at hc; exact hc⟩

theorem not_key_recW {K V : Type} [LinearOrder K] [LinearOrder V]
    {hash : K → Nat} {queue : List (List (Rec K V))} {c : Compact K V}
    (h : stageAndCompact hash queue = some c) {k : K}
    (hk : k ∉ c.map (fun g => g.1)) (v : V) : recW queue.flatten k v = 0 := by
  obtain ⟨hc, -⟩ := stage_some_canon h
  rw [← canonCompact_recW hash, ← hc, diffsFor_eq_nil_of_keys, wOf_nil]
  intro g hg he
  exact hk (he ▸ List.mem_map_of_mem _ hg)

theorem recTimes_sub {K V : Type} [DecidableEq K] {tr : Trace K V} {k : K} {s : Nat}
    (h : s ∈ recTimes tr k) : s ∈ tr.map (fun e => e.1) := by
  rw [recTimes, List.mem_map] at h
  obtain ⟨e, he, hes⟩ := h
  rw [← hes]
  exact List.mem_map_of_mem _ (List.mem_of_mem_filter he)

theorem phaseAEnqueue_all {K V : Type} [DecidableEq K] {source : Trace K V} {t : Nat}
    (h : ∀ k : K, interestingTimes source k t = [t]) :
    ∀ (keys : List K) (td : List (Nat × List K)),
      phaseAEnqueue source td t keys = keys.foldl (fun td2 k => pendPush td2 t k) td := by
  intro keys
  induction keys with
  | nil => intro td; rfl
  | cons k0 keys ih =>
    intro td
    rw [phaseAEnqueue, List.foldl_cons, h k0]
    rw [show ([t].foldl (fun td2 s => pendPush td2 s k0) td) = pendPush td t k0 from rfl]
    rw [List.foldl_cons]
    exact ih (pendPush td t k0)

theorem recsForKey_append {K V : Type} [DecidableEq K]
    (l1 l2 : List (Nat × List (List (Rec K V)))) (k : K) :
    recsForKey (l1 ++ l2) k = recsForKey l1 k ++ recsForKey l2 k := by
  simp [recsForKey, updatesOf_append]

theorem recsForKey_single_wOf {K V : Type} [DecidableEq K] [DecidableEq V]
    (t : Nat) (queue : List (List (Rec K V))) (k : K) (v : V) :
    wOf (recsForKey [(t, queue)] k) v = recW queue.flatten k v := by
  have e : (updatesOf [(t, queue)]).map (fun u => u.2) = queue.flatten := by
    simp [updatesOf, List.map_map]
  rw [recsForKey, e]
  rfl

theorem updatesOf_time_mem {K V : Type} {inputs : List (Nat × List (List (Rec K V)))}
    {u : Nat × Rec K V} (h : u ∈ updatesOf inputs) :
    u.1 ∈ inputs.map (fun e => e.1) := by
  rw [updatesOf, List.mem_flatMap] at h
  obtain ⟨e, he, hu⟩ := h
  rw [List.mem_map] at hu
  obtain ⟨r, _, hru⟩ := hu
  rw [← hru]
  exact List.mem_map_of_mem _ he

theorem finalColl_stable {K V : Type} [DecidableEq K] [LinearOrder V]
    {queue : List (List (Rec K V))} {k : K}
    (h : ∀ v, recW queue.flatten k v = 0)
    (processed : List (Nat × List (List (Rec K V)))) (t : Nat) :
    finalColl (processed ++ [(t, queue)]) k = finalColl processed k := by
  rw [finalColl, finalColl]
  apply canonDiffs_ext
  intro v
  rw [recsForKey_append, wOf_append, recsForKey_single_wOf, h v]
  omega

/-- The induction invariant tying the operator state after a prefix of the
input to the naive semantics of that prefix: no pending work remains, trace
times come from processed times, cumulative emissions mirror the recorded
result differences, the recorded result differences equal the reduction of
the processed input, and the source collection matches the naive
accumulation. -/
def Inv {K V V2 D2 : Type} [LinearOrder K] [LinearOrder V] [LinearOrder V2]
    [DecidableEq D2] (logic : K → Diffs V → Diffs V2) (reduc : K → V2 → D2)
    (processed : List (Nat × List (List (Rec K V)))) (st : GState K V V2 D2) : Prop :=
  st.toDo = []
  ∧ (∀ s ∈ st.source.map (fun e => e.1), s ∈ processed.map (fun e => e.1))
  ∧ (∀ s ∈ st.result.map (fun e => e.1), s ∈ processed.map (fun e => e.1))
  ∧ (∀ k d, emittedW st.emitted k d = wOfBy (reduc k) (allDiffs st.result k) d)
  ∧ (∀ k v2, wOf (allDiffs st.result k) v2 = wOf (logic k (finalColl processed k)) v2)
  ∧ (∀ k t0 v, wOf (getCollection st.source k t0) v = naiveW processed k t0 v)

theorem gStep_inv {K V V2 D2 : Type} [LinearOrder K] [LinearOrder V] [LinearOrder V2]
    [DecidableEq D2] (hash : K → Nat) (logic : K → Diffs V → Diffs V2)
    (reduc : K → V2 → D2) (hlogic : ∀ k, logic k [] = [])
    {processed : List (Nat × List (List (Rec K V)))} {st : GState K V V2 D2}
    (hinv : Inv logic reduc processed st) {t : Nat}
    (hlt : ∀ s ∈ processed.map (fun e => e.1), s < t)
    (queue : List (List (Rec K V))) :
    Inv logic reduc (processed ++ [(t, queue)])
      (gStep hash logic reduc st (t, queue)) := by
  obtain ⟨src, res, td, em⟩ := st
  obtain ⟨h1, h2, h3, h4, h5, h6⟩ := hinv
  dsimp only at h1 h2 h3 h4 h5 h6
  subst h1
  have hmemnew : ∀ s, s ∈ processed.map (fun e => e.1) →
      s ∈ (processed ++ [(t, queue)]).map (fun e => e.1) := by
    intro s hs
    rw [List.map_append]
    exact List.mem_append_left _ hs
  have htmem : t ∈ (processed ++ [(t, queue)]).map (fun e => e.1) := by
    rw [List.map_append]
    apply List.mem_append_right
    simp
  cases hst : stageAndCompact hash queue with
  | none =>
    have hrecW : ∀ (k : K) (v : V), recW queue.flatten k v = 0 :=
      fun k v => stage_none_recW hst k v
    have hB : gStep hash logic reduc ⟨src, res, [], em⟩ (t, queue)
        = ⟨src, res, [], em⟩ := by
      rw [gStep]
      dsimp only
      rw [show gStepA hash (⟨src, res, [], em⟩ : GState K V V2 D2) t queue
            = ⟨src, res, [], em⟩ from by rw [gStepA, hst]]
      rw [gStepB]
      dsimp only
      rw [pendRemove_nil]
    rw [hB]
    refine ⟨rfl, ?_, ?_, h4, ?_, ?_⟩
    · intro s hs
      exact hmemnew s (h2 s hs)
    · intro s hs
      exact hmemnew s (h3 s hs)
    · intro k v2
      rw [finalColl_stable (hrecW k) processed t]
      exact h5 k v2
    · intro k t0 v
      rw [naiveW_append, naiveW_single, h6, hrecW]
      split_ifs <;> omega
  | some c =>
    obtain ⟨hc, hcne⟩ := stage_some_canon hst
    have hkeysne : c.map (fun g => g.1) ≠ [] := by
      intro h
      exact hcne (List.map_eq_nil_iff.mp h)
    have hint : ∀ k : K, interestingTimes src k t = [t] := by
      intro k
      apply interestingTimes_all
      intro s hs
      exact le_of_lt (hlt s (h2 s (recTimes_sub hs)))
    have htd : phaseAEnqueue src [] t (c.map (fun g => g.1))
        = [(t, c.map (fun g => g.1))] := by
      rw [phaseAEnqueue_all hint]
      exact pendPush_fold_nil t _ hkeysne
    have hA2 : gStepA hash (⟨src, res, [], em⟩ : GState K V V2 D2) t queue
        = ⟨setDifference src t c, res, [(t, c.map (fun g => g.1))], em⟩ := by
      rw [gStepA, hst]
      dsimp only
      rw [htd]
    have hB : gStep hash logic reduc ⟨src, res, [], em⟩ (t, queue)
        = ⟨setDifference src t c,
           (if accOf (outsOf (setDifference src t c) res logic t
                (processKeys hash (c.map (fun g => g.1)))) = [] then res
            else setDifference res t (accOf (outsOf (setDifference src t c) res logic t
                (processKeys hash (c.map (fun g => g.1)))))),
           [],
           em ++ emitsOf reduc t (outsOf (setDifference src t c) res logic t
                (processKeys hash (c.map (fun g => g.1))))⟩ := by
      rw [gStep]
      dsimp only
      rw [hA2, gStepB]
      dsimp only
      rw [pendRemove_single]
    rw [hB]
    have hnodup : (processKeys hash (c.map (fun g => g.1))).Nodup :=
      processKeys_nodup hash _
    have hmemk : ∀ k : K, k ∈ processKeys hash (c.map (fun g => g.1))
        ↔ k ∈ c.map (fun g => g.1) :=
      fun k => processKeys_mem hash _ k
    have h6n : ∀ (k : K) (t0 : Nat) (v : V),
        wOf (getCollection (setDifference src t c) k t0) v
          = naiveW (processed ++ [(t, queue)]) k t0 v := by
      intro k t0 v
      rw [setDifference, getCollection_append_wOf, h6, naiveW_append, naiveW_single]
      congr 1
      split_ifs with h
      · rw [hc, canonCompact_recW]
      · rfl
    have hall : ∀ u ∈ updatesOf (processed ++ [(t, queue)]), u.1 ≤ t := by
      intro u hu
      have := updatesOf_time_mem hu
      rw [List.map_append] at this
      rcases List.mem_append.mp this with h | h
      · exact le_of_lt (hlt _ h)
      · simp at h
        omega
    have hcoll : ∀ k : K, getCollection (setDifference src t c) k t
        = finalColl (processed ++ [(t, queue)]) k := by
      intro k
      rw [getCollection, finalColl]
      apply canonDiffs_ext
      intro v
      have e1 : wOf ((((setDifference src t c).filter
            (fun e => decide (e.1 ≤ t))).map (fun e => diffsFor e.2 k)).flatten) v
          = wOf (getCollection (setDifference src t c) k t) v := by
        rw [getCollection, canonDiffs_wOf]
      rw [e1, h6n k t v, naiveW_eq_final hall]
    have hprev : ∀ k : K, getCollection res k t = canonDiffs (allDiffs res k) := by
      intro k
      apply getCollection_of_le
      intro e he
      exact le_of_lt (hlt _ (h3 _ (List.mem_map_of_mem _ he)))
    have hko : ∀ (k : K) (v2 : V2),
        wOf (keyOutput (setDifference src t c) res logic t k) v2
          = wOf (logic k (finalColl (processed ++ [(t, queue)]) k)) v2
              - wOf (allDiffs res k) v2 := by
      intro k v2
      rw [keyOutput_wOf, hcoll k, hprev k, canonDiffs_wOf]
      congr 1
      by_cases h : finalColl (processed ++ [(t, queue)]) k = []
      · rw [if_pos h, h, hlogic k]
      · rw [if_neg h]
    have hacc : ∀ k : K, diffsFor (accOf (outsOf (setDifference src t c) res logic t
          (processKeys hash (c.map (fun g => g.1))))) k
        = if k ∈ processKeys hash (c.map (fun g => g.1))
          then keyOutput (setDifference src t c) res logic t k else [] := by
      intro k
      rw [outsOf]
      exact diffsFor_accOf hnodup _ k
    have hstable : ∀ k : K, k ∉ processKeys hash (c.map (fun g => g.1)) →
        finalColl (processed ++ [(t, queue)]) k = finalColl processed k := by
      intro k hk
      apply finalColl_stable
      intro v
      exact not_key_recW hst (fun hm => hk ((hmemk k).mpr hm)) v
    refine ⟨rfl, ?_, ?_, ?_, ?_, ?_⟩
    · intro s hs
      dsimp only at hs
      rw [setDifference, List.map_append] at hs
      rcases List.mem_append.mp hs with h | h
      · exact hmemnew s (h2 s h)
      · simp at h
        rw [h]
        exact htmem
    · intro s hs
      dsimp only at hs
      split_ifs at hs with hacce
      · exact hmemnew s (h3 s hs)
      · rw [setDifference, List.map_append] at hs
        rcases List.mem_append.mp hs with h | h
        · exact hmemnew s (h3 s h)
        · simp at h
          rw [h]
          exact htmem
    · intro k d
      dsimp only
      rw [emittedW_append, h4, emittedW_emitsOf_outsOf _ _ _ _ _ hnodup,
          allDiffs_install, wOfBy_append, hacc k]
      by_cases hm : k ∈ processKeys hash (c.map (fun g => g.1))
      · rw [if_pos hm, if_pos hm]
      · rw [if_neg hm, if_neg hm, wOfBy_nil]
    · intro k v2
      dsimp only
      rw [allDiffs_install, wOf_append, hacc k]
      by_cases hm : k ∈ processKeys hash (c.map (fun g => g.1))
      · rw [if_pos hm, hko k v2, h5 k v2]
        omega
      · rw [if_neg hm, wOf_nil, hstable k hm, h5 k v2]
        omega
    · intro k t0 v
      dsimp only
      exact h6n k t0 v

theorem gStep_source {K V V2 D2 : Type} [LinearOrder K] [LinearOrder V]
    [LinearOrder V2] (hash : K → Nat) (logic : K → Diffs V → Diffs V2)
    (reduc : K → V2 → D2) (st : GState K V V2 D2) (t : Nat)
    (queue : List (List (Rec K V))) :
    (gStep hash logic reduc st (t, queue)).source
      = match stageAndCompact hash queue with
        | none => st.source
        | some c => setDifference st.source t c := by
  rw [gStep]
  dsimp only
  have hB : ∀ st1 : GState K V V2 D2,
      (gStepB hash logic reduc st1 t).source = st1.source := by
    intro st1
    rw [gStepB]
    rcases hr : pendRemove st1.toDo t with ⟨o, td⟩
    cases o <;> rfl
  rw [hB]
  cases hst : stageAndCompact hash queue with
  | none => rw [gStepA, hst]
  | some c => rw [gStepA, hst]

theorem gStep_source_wOf {K V V2 D2 : Type} [LinearOrder K] [LinearOrder V]
    [LinearOrder V2] (hash : K → Nat) (logic : K → Diffs V → Diffs V2)
    (reduc : K → V2 → D2) (st : GState K V V2 D2) (t : Nat)
    (queue : List (List (Rec K V))) (k : K) (t0 : Nat) (v : V) :
    wOf (getCollection (gStep hash logic reduc st (t, queue)).source k t0) v
      = wOf (getCollection st.source k t0) v
          + (if t ≤ t0 then recW queue.flatten k v else 0) := by
  rw [gStep_source]
  cases hst : stageAndCompact hash queue with
  | none =>
    dsimp only
    rw [stage_none_recW hst]
    split_ifs <;> omega
  | some c =>
    dsimp only
    rw [setDifference, getCollection_append_wOf]
    congr 1
    split_ifs with h
    · obtain ⟨hc, -⟩ := stage_some_canon hst
      rw [hc, canonCompact_recW]
    · rfl

theorem gRun_source_wOf {K V V2 D2 : Type} [LinearOrder K] [LinearOrder V]
    [LinearOrder V2] (hash : K → Nat) (logic : K → Diffs V → Diffs V2)
    (reduc : K → V2 → D2) :
    ∀ (inputs : List (Nat × List (List (Rec K V)))) (st : GState K V V2 D2)
      (k : K) (t : Nat) (v : V),
      wOf (getCollection ((inputs.foldl (gStep hash logic reduc) st).source) k t) v
        = wOf (getCollection st.source k t) v + naiveW inputs k t v := by
  intro inputs
  induction inputs with
  | nil =>
    intro st k t v
    rw [List.foldl_nil]
    have : naiveW ([] : List (Nat × List (List (Rec K V)))) k t v = 0 := rfl
    rw [this]
    omega
  | cons i rest ih =>
    intro st k t v
    obtain ⟨ti, qi⟩ := i
    rw [List.foldl_cons, ih, gStep_source_wOf,
        show (ti, qi) :: rest = [(ti, qi)] ++ rest from rfl,
        naiveW_append, naiveW_single]
    omega

theorem naiveW_perm {K V : Type} [DecidableEq K] [DecidableEq V]
    {u1 u2 : List (Nat × List (List (Rec K V)))}
    (h : (updatesOf u1).Perm (updatesOf u2)) (k : K) (t : Nat) (v : V) :
    naiveW u1 k t v = naiveW u2 k t v := by
  rw [naiveW, naiveW]
  exact recW_perm ((h.filter _).map _) k v

theorem inv_start {K V V2 D2 : Type} [LinearOrder K] [LinearOrder V] [LinearOrder V2]
    [DecidableEq D2] (logic : K → Diffs V → Diffs V2) (reduc : K → V2 → D2)
    (hlogic : ∀ k, logic k [] = []) :
    Inv logic reduc ([] : List (Nat × List (List (Rec K V))))
      (⟨[], [], [], []⟩ : GState K V V2 D2) := by
  refine ⟨rfl, by simp, by simp, ?_, ?_, ?_⟩
  · intro k d
    rfl
  · intro k v2
    have e : finalColl ([] : List (Nat × List (List (Rec K V)))) k = [] := rfl
    rw [e, hlogic k]
    rfl
  · intro k t0 v
    rfl

theorem gRun_inv {K V V2 D2 : Type} [LinearOrder K] [LinearOrder V] [LinearOrder V2]
    [DecidableEq D2] (hash : K → Nat) (logic : K → Diffs V → Diffs V2)
    (reduc : K → V2 → D2) (hlogic : ∀ k, logic k [] = []) :
    ∀ (inputs processed : List (Nat × List (List (Rec K V))))
      (st : GState K V V2 D2), Inv logic reduc processed st →
      (∀ s ∈ processed.map (fun e => e.1), ∀ t ∈ inputs.map (fun e => e.1), s < t) →
      List.Pairwise (fun a b => a < b) (inputs.map (fun e => e.1)) →
      Inv logic reduc (processed ++ inputs)
        (inputs.foldl (gStep hash logic reduc) st) := by
  intro inputs
  induction inputs with
  | nil =>
    intro processed st hinv _ _
    rw [List.foldl_nil, List.append_nil]
    exact hinv
  | cons i rest ih =>
    intro processed st hinv hsep hpair
    obtain ⟨t, queue⟩ := i
    rw [List.foldl_cons]
    have hlt : ∀ s ∈ processed.map (fun e => e.1), s < t := by
      intro s hs
      exact hsep s hs t (by simp)
    have hstep := gStep_inv hash logic reduc hlogic hinv hlt queue
    rw [List.map_cons, List.pairwise_cons] at hpair
    have hsep2 : ∀ s ∈ (processed ++ [(t, queue)]).map (fun e => e.1),
        ∀ t2 ∈ rest.map (fun e => e.1), s < t2 := by
      intro s hs t2 ht2
      rw [List.map_append] at hs
      rcases List.mem_append.mp hs with h | h
      · exact hsep s h t2 (by simp [ht2])
      · simp at h
        rw [h]
        exact hpair.1 t2 ht2
    have := ih (processed ++ [(t, queue)]) _ hstep hsep2 hpair.2
    rw [List.append_assoc] at this
    simpa using this

theorem pendRemove_not_mem {T K : Type} [DecidableEq T] :
    ∀ {td : List (T × List K)} {t : T}, (∀ e ∈ td, e.1 ≠ t) →
      pendRemove td t = (none, td) := by
  intro td
  induction td with
  | nil => intro t _; rfl
  | cons e td ih =>
    intro t h
    obtain ⟨t0, ks⟩ := e
    rw [pendRemove]
    rw [if_neg (h (t0, ks) (List.mem_cons_self _ _))]
    rw [ih (fun e he => h e (List.mem_cons_of_mem _ he))]

theorem stage_none_of_cancel {K V : Type} [LinearOrder K] [LinearOrder V]
    (hash : K → Nat) {queue : List (List (Rec K V))}
    (h : ∀ (k : K) (v : V), recW queue.flatten k v = 0) :
    stageAndCompact hash queue = none := by
  cases hq : queue with
  | nil => rfl
  | cons d rest =>
    rw [← hq, stageAndCompact_eq_canon hash queue (by rw [hq]; simp)]
    rw [if_pos (canonCompact_eq_nil hash (by rw [hq] at h ⊢; exact h))]

/-- C1: for every finite update sequence delivered in time order, the source
collection the operator accumulates for a key at a time equals the naive
non-incremental recomputation; collections agree across any two deliveries
carrying the same updates; and the summed emissions per key and output record
equal applying the reduction once to the key's full final input collection
and mapping it to output records. -/
theorem c1_convergence_and_delta {K V V2 D2 : Type} [LinearOrder K]
    [LinearOrder V] [LinearOrder V2] [DecidableEq D2]
    (hash : K → Nat) (logic : K → Diffs V → Diffs V2) (reduc : K → V2 → D2)
    (inputs : List (Nat × List (List (Rec K V))))
    (horder : List.Pairwise (fun a b => a < b) (inputs.map (fun e => e.1)))
    (hlogic : ∀ k, logic k [] = []) :
    (∀ (k : K) (t : Nat) (v : V),
        wOf (getCollection (gRun hash logic reduc inputs).source k t) v
          = naiveW inputs k t v)
    ∧ (∀ inputs2 : List (Nat × List (List (Rec K V))),
        (updatesOf inputs2).Perm (updatesOf inputs) →
        ∀ (k : K) (t : Nat) (v : V),
          wOf (getCollection (gRun hash logic reduc inputs2).source k t) v
            = wOf (getCollection (gRun hash logic reduc inputs).source k t) v)
    ∧ (∀ (k : K) (d : D2),
        emittedW (gRun hash logic reduc inputs).emitted k d
          = wOfBy (reduc k) (logic k (finalColl inputs k)) d) := by
  have ha : ∀ (inputs0 : List (Nat × List (List (Rec K V)))) (k : K) (t : Nat) (v : V),
      wOf (getCollection (gRun hash logic reduc inputs0).source k t) v
        = naiveW inputs0 k t v := by
    intro inputs0 k t v
    rw [gRun, gRun_source_wOf]
    have e : wOf (getCollection ((⟨[], [], [], []⟩ : GState K V V2 D2).source) k t) v
        = 0 := rfl
    rw [e]
    omega
  refine ⟨ha inputs, ?_, ?_⟩
  · intro inputs2 hperm k t v
    rw [ha inputs, ha inputs2]
    exact naiveW_perm hperm k t v
  · intro k d
    have hrun := gRun_inv hash logic reduc hlogic inputs [] ⟨[], [], [], []⟩
      (inv_start logic reduc hlogic) (by simp) horder
    rw [List.nil_append] at hrun
    obtain ⟨-, -, -, h4, h5, -⟩ := hrun
    rw [gRun, h4 k d]
    exact wOfBy_ext_of_wOf (h5 k) (reduc k) d

theorem c1_witness :
    wOf (getCollection (gRun (fun k : Nat => k) (fun _ c => c) (fun _ v => v)
        [(0, [[(1, 5, 1), (1, 3, 1)]]), (1, [[(1, 5, -1)]])]).source 1 1) 3
      = naiveW [(0, [[(1, 5, 1), (1, 3, 1)]]), (1, [[(1, 5, -1)]])] 1 1 3
    ∧ emittedW (gRun (fun k : Nat => k) (fun _ c => c) (fun _ v => v)
        [(0, [[(1, 5, 1), (1, 3, 1)]]), (1, [[(1, 5, -1)]])]).emitted 1 3
      = wOfBy ((fun (_ : Nat) (v : Nat) => v) 1)
          ((fun (_ : Nat) (c : Diffs Nat) => c) 1
            (finalColl [(0, [[(1, 5, 1), (1, 3, 1)]]), (1, [[(1, 5, -1)]])] 1)) 3 := by
  have h := c1_convergence_and_delta (fun k : Nat => k)
    (fun (_ : Nat) (c : Diffs Nat) => c) (fun (_ : Nat) (v : Nat) => v)
    [(0, [[(1, 5, 1), (1, 3, 1)]]), (1, [[(1, 5, -1)]])]
    (by decide) (fun _ => rfl)
  exact ⟨h.1 1 1 3, h.2.2 1 3⟩

/-- C3: phase B installs an entry into the result trace only when the
accumulation is nonempty; and delivering a batch at a new time whose net
weight per key and value is zero leaves the output, the result trace and the
source trace untouched. -/
theorem c3_empty_accumulation {K V V2 D2 : Type} [LinearOrder K] [LinearOrder V]
    [LinearOrder V2] (hash : K → Nat) (logic : K → Diffs V → Diffs V2)
    (reduc : K → V2 → D2) :
    (∀ (st1 : GState K V V2 D2) (t : Nat),
        (gStepB hash logic reduc st1 t).result = st1.result
        ∨ ∃ acc : Compact K V2, acc ≠ []
            ∧ (gStepB hash logic reduc st1 t).result = setDifference st1.result t acc)
    ∧ (∀ (st : GState K V V2 D2) (t : Nat) (queue : List (List (Rec K V))),
        (∀ e ∈ st.toDo, e.1 ≠ t) →
        (∀ (k : K) (v : V), recW queue.flatten k v = 0) →
        (gStep hash logic reduc st (t, queue)).result = st.result
          ∧ (gStep hash logic reduc st (t, queue)).emitted = st.emitted
          ∧ (gStep hash logic reduc st (t, queue)).source = st.source) := by
  constructor
  · intro st1 t
    rw [gStepB]
    rcases hr : pendRemove st1.toDo t with ⟨o, td⟩
    cases o with
    | none => left; rfl
    | some keys =>
      dsimp only
      by_cases hacc : accOf (outsOf st1.source st1.result logic t
          (processKeys hash keys)) = []
      · left
        rw [if_pos hacc]
      · right
        exact ⟨_, hacc, by rw [if_neg hacc]⟩
  · intro st t queue htd hzero
    have hstage : stageAndCompact hash queue = none := stage_none_of_cancel hash hzero
    have hA : gStepA hash st t queue = st := by
      rw [gStepA, hstage]
    have hB : gStep hash logic reduc st (t, queue) = { st with toDo := st.toDo } := by
      rw [gStep]
      dsimp only
      rw [hA, gStepB, pendRemove_not_mem htd]
    rw [hB]
    exact ⟨rfl, rfl, rfl⟩

theorem c3_witness :
    ((gStep (fun k : Nat => k) (fun (_ : Nat) (c : Diffs Nat) => c)
        (fun (_ : Nat) (v : Nat) => v)
        (⟨[], [], [], []⟩ : GState Nat Nat Nat Nat)
        (0, [[(1, 5, 1), (1, 5, -1)]])).result = [])
    ∧ ((gStep (fun k : Nat => k) (fun (_ : Nat) (c : Diffs Nat) => c)
        (fun (_ : Nat) (v : Nat) => v)
        (⟨[], [], [], []⟩ : GState Nat Nat Nat Nat)
        (0, [[(1, 5, 1), (1, 5, -1)]])).emitted = [])
    ∧ ((gStep (fun k : Nat => k) (fun (_ : Nat) (c : Diffs Nat) => c)
        (fun (_ : Nat) (v : Nat) => v)
        (⟨[], [], [], []⟩ : GState Nat Nat Nat Nat)
        (0, [[(1, 5, 1), (1, 5, -1)]])).source = []) := by
  have h := (c3_empty_accumulation (fun k : Nat => k)
    (fun (_ : Nat) (c : Diffs Nat) => c) (fun (_ : Nat) (v : Nat) => v)).2
    ⟨[], [], [], []⟩ 0 [[(1, 5, 1), (1, 5, -1)]]
    (by simp)
    (by
      intro k v
      have e : ([[(1, 5, 1), (1, 5, -1)]] : List (List (Rec Nat Nat))).flatten
          = [(1, 5, 1), (1, 5, -1)] := rfl
      rw [e, recW_cons, recW_cons, recW_nil]
      split_ifs <;> omega)
  exact ⟨h.1, h.2.1, h.2.2⟩

/-- C4 counterexample: a key whose merged source collection at the notified
time is empty is not silently skipped: the operator still emits the
retraction of its previously recorded output.  At time 1 the collection for
key 1 is empty, yet (5, -1) is emitted. -/
theorem c4_counterexample :
    getCollection (gRun (fun k : Nat => k) (fun (_ : Nat) (c : Diffs Nat) => c)
        (fun (_ : Nat) (v : Nat) => v)
        [(0, [[(1, 5, 1)]]), (1, [[(1, 5, -1)]])]).source 1 1 = []
    ∧ (gRun (fun k : Nat => k) (fun (_ : Nat) (c : Diffs Nat) => c)
        (fun (_ : Nat) (v : Nat) => v)
        [(0, [[(1, 5, 1)]]), (1, [[(1, 5, -1)]])]).emitted.filter
          (fun e => decide (e.1 = 1)) = [(1, 1, 5, -1)] := by
  constructor
  · rfl
  · rfl

/-- C4 amended: when the merged source collection of a pending key at the
notified time is empty, the user logic is not consulted (the outcome is the
same for every logic function), and the net differences are exactly the
negation of the key's previously emitted collection, which is emitted rather
than skipped. -/
theorem c4_amended_empty_input {K V V2 : Type} [DecidableEq K] [LinearOrder V]
    [LinearOrder V2] (source : Trace K V) (result : Trace K V2)
    (logic : K → Diffs V → Diffs V2) (t : Nat) (k : K)
    (h : getCollection source k t = []) :
    keyOutput source result logic t k = negate (getCollection result k t)
    ∧ ∀ logic2 : K → Diffs V → Diffs V2,
        keyOutput source result logic t k = keyOutput source result logic2 t k :=
  ⟨keyOutput_empty_coll source result logic t k h,
   fun logic2 => keyOutput_indep source result logic logic2 t k h⟩

theorem c4_amended_witness :
    keyOutput ([] : Trace Nat Nat) ([(0, [(1, [(5, 1)])])] : Trace Nat Nat)
        (fun (_ : Nat) (c : Diffs Nat) => c) 1 1
      = negate (getCollection ([(0, [(1, [(5, 1)])])] : Trace Nat Nat) 1 1) := by
  have h := c4_amended_empty_input ([] : Trace Nat Nat)
    ([(0, [(1, [(5, 1)])])] : Trace Nat Nat)
    (fun (_ : Nat) (c : Diffs Nat) => c) 1 1 rfl
  exact h.1

/-- C8: with more than one buffered delivery the radix-sorter path is used,
with exactly one the direct sort path; the staged Compact depends only on the
multiset of records, not on how deliveries split them; and every produced
Compact is in canonical form (keys in strict (hash, key) order, per-key runs
of strict differences) and carries exactly the batch's net weights. -/
theorem c8_staging_paths {K V : Type} [LinearOrder K] [LinearOrder V]
    (hash : K → Nat) :
    (∀ queue : List (List (Rec K V)), queue.length > 1 →
        stageAndCompact hash queue = fromRadix hash [radixFinish hash queue])
    ∧ (∀ d : List (Rec K V),
        stageAndCompact hash [d] = fromRadix hash [directSort hash d])
    ∧ (∀ q1 q2 : List (List (Rec K V)), q1 ≠ [] → q2 ≠ [] →
        q1.flatten.Perm q2.flatten →
        stageAndCompact hash q1 = stageAndCompact hash q2)
    ∧ (∀ (queue : List (List (Rec K V))) (c : Compact K V),
        stageAndCompact hash queue = some c →
        CanonicalCompact hash c
          ∧ ∀ (k : K) (v : V), wOf (diffsFor c k) v = recW queue.flatten k v) := by
  refine ⟨?_, ?_, ?_, ?_⟩
  · intro queue hlen
    rw [stageAndCompact.eq_def, if_pos hlen]
  · intro d
    rw [stageAndCompact.eq_def, if_neg (by simp)]
  · intro q1 q2 h1 h2 hperm
    rw [stageAndCompact_eq_canon hash q1 h1, stageAndCompact_eq_canon hash q2 h2,
        canonCompact_perm hash hperm]
  · intro queue c hst
    obtain ⟨hc, -⟩ := stage_some_canon hst
    subst hc
    exact ⟨canonCompact_canonical hash _,
           fun k v => canonCompact_recW hash _ k v⟩

theorem c8_witness :
    stageAndCompact (fun k : Nat => k) [[((1 : Nat), (2 : Nat), (3 : Int))], [(0, 1, 1)]]
        = fromRadix (fun k : Nat => k)
            [radixFinish (fun k : Nat => k) [[(1, 2, 3)], [(0, 1, 1)]]]
    ∧ stageAndCompact (fun k : Nat => k)
          [[((1 : Nat), (2 : Nat), (3 : Int)), (0, 1, 1)]]
        = stageAndCompact (fun k : Nat => k) [[(0, 1, 1)], [(1, 2, 3)]] := by
  have h := c8_staging_paths (K := Nat) (V := Nat) (fun k => k)
  refine ⟨h.1 _ (by decide), h.2.2.1 _ _ (by decide) (by decide) (by decide)⟩

/-- C9: the pending key list of a time is sorted by (hash, key) and
deduplicated before processing: the resulting order is strictly increasing in
(hash, key), free of duplicates, retains exactly the pending keys, and is
identical for any two arrival orders of the same pending keys. -/
theorem c9_deterministic_key_order {K : Type} [LinearOrder K] (hash : K → Nat) :
    (∀ ks1 ks2 : List K, ks1.Perm ks2 →
        processKeys hash ks1 = processKeys hash ks2)
    ∧ (∀ ks : List K, (processKeys hash ks).Pairwise (keyLt hash))
    ∧ (∀ ks : List K, (processKeys hash ks).Nodup)
    ∧ (∀ (ks : List K) (k : K), k ∈ processKeys hash ks ↔ k ∈ ks) :=
  ⟨fun _ _ h => processKeys_perm_inv hash h,
   processKeys_strict hash,
   processKeys_nodup hash,
   processKeys_mem hash⟩

theorem c9_witness :
    processKeys (fun k : Nat => k % 2) [3, 1, 2, 1] = processKeys (fun k : Nat => k % 2) [1, 2, 3, 1] := by
  have h := (c9_deterministic_key_order (fun k : Nat => k % 2)).1 [3, 1, 2, 1] [1, 2, 3, 1]
    (by decide)
  exact h

theorem coalesce_val_mem {V : Type} [DecidableEq V] :
    ∀ {xs : Diffs V} {p : V × Int}, p ∈ coalesce xs → ∃ q ∈ xs, q.1 = p.1 := by
  intro xs
  induction xs with
  | nil => intro p hp; simp [coalesce] at hp
  | cons r xs ih =>
    obtain ⟨v, w⟩ := r
    intro p hp
    rw [coalesce] at hp
    cases hc : coalesce xs with
    | nil =>
      rw [hc] at hp
      by_cases hw : w = 0
      · simp [coalescePush, hw] at hp
      · simp [coalescePush, hw] at hp
        exact ⟨(v, w), List.mem_cons_self _ _, by rw [hp]⟩
    | cons q2 tail =>
      obtain ⟨v2, w2⟩ := q2
      rw [hc] at hp
      by_cases hv : v = v2
      · subst hv
        by_cases hz : w + w2 = 0
        · simp only [coalescePush, if_pos rfl, if_pos hz] at hp
          obtain ⟨q, hq, hq1⟩ := ih (hc ▸ List.mem_cons_of_mem _ hp)
          exact ⟨q, List.mem_cons_of_mem _ hq, hq1⟩
        · simp only [coalescePush, if_pos rfl, if_neg hz] at hp
          rcases List.mem_cons.mp hp with h | h
          · exact ⟨(v, w), List.mem_cons_self _ _, by rw [h]⟩
          · obtain ⟨q, hq, hq1⟩ := ih (hc ▸ List.mem_cons_of_mem _ h)
            exact ⟨q, List.mem_cons_of_mem _ hq, hq1⟩
      · by_cases hw : w = 0
        · simp only [coalescePush, if_neg hv, if_pos hw] at hp
          obtain ⟨q, hq, hq1⟩ := ih (hc ▸ hp)
          exact ⟨q, List.mem_cons_of_mem _ hq, hq1⟩
        · simp only [coalescePush, if_neg hv, if_neg hw] at hp
          rcases List.mem_cons.mp hp with h | h
          · exact ⟨(v, w), List.mem_cons_self _ _, by rw [h]⟩
          · obtain ⟨q, hq, hq1⟩ := ih (hc ▸ h)
            exact ⟨q, List.mem_cons_of_mem _ hq, hq1⟩

theorem coalescePush_lt {V : Type} [LinearOrder V] {v : V} (w : Int) {L : Diffs V}
    (hlt : ∀ q ∈ L, v < q.1) :
    coalescePush v w (coalesce L)
      = if w = 0 then coalesce L else (v, w) :: coalesce L := by
  cases hc : coalesce L with
  | nil => simp [coalescePush]
  | cons q2 tail =>
    obtain ⟨v2, w2⟩ := q2
    have hv2 : v < v2 := by
      obtain ⟨q, hq, hq1⟩ := coalesce_val_mem (hc ▸ List.mem_cons_self (v2, w2) tail)
      have h2 := hlt q hq
      rw [hq1] at h2
      exact h2
    simp [coalescePush, ne_of_lt hv2]

theorem coalesce_cons_lt {V : Type} [LinearOrder V] {v : V} {w : Int} {L : Diffs V}
    (hlt : ∀ q ∈ L, v < q.1) (hw : w ≠ 0) :
    coalesce ((v, w) :: L) = (v, w) :: coalesce L := by
  rw [show coalesce ((v, w) :: L) = coalescePush v w (coalesce L) from rfl,
      coalescePush_lt w hlt, if_neg hw]

theorem mergeBy_ge_right {V : Type} [LinearOrder V] {y : V × Int} {xs ys : Diffs V}
    (h : ∀ q ∈ xs, y.1 < q.1) :
    mergeBy valLeB xs (y :: ys) = y :: mergeBy valLeB xs ys := by
  cases xs with
  | nil => rw [mergeBy_nil_left, mergeBy_nil_left]
  | cons x2 xs =>
    rw [mergeBy_cons_cons]
    have hx2 : y.1 < x2.1 := h x2 (List.mem_cons_self _ _)
    rw [if_neg ?_]
    simp only [valLeB, decide_eq_true_eq]
    exact not_le_of_lt hx2

theorem coalesceMerge_lt_left {V : Type} [LinearOrder V] {x y : V × Int}
    {xs ys : Diffs V} (hxs : (x :: xs).Pairwise valLt)
    (hys : (y :: ys).Pairwise valLt) (hxy : x.1 < y.1) (hx2 : x.2 ≠ 0) :
    coalesce (mergeBy valLeB (x :: xs) (y :: ys))
      = x :: coalesce (mergeBy valLeB xs (y :: ys)) := by
  rw [mergeBy_cons_cons, if_pos (by rw [valLeB]; simp; exact le_of_lt hxy)]
  obtain ⟨xv, xw⟩ := x
  apply coalesce_cons_lt _ hx2
  intro q hq
  have hq2 := (mergeBy_perm valLeB xs (y :: ys)).mem_iff.mp hq
  rcases List.mem_append.mp hq2 with h | h
  · exact (List.pairwise_cons.mp hxs).1 q h
  · rcases List.mem_cons.mp h with h | h
    · rw [h]; exact hxy
    · exact lt_trans hxy ((List.pairwise_cons.mp hys).1 q h)

theorem coalesceMerge_lt_right {V : Type} [LinearOrder V] {x y : V × Int}
    {xs ys : Diffs V} (hxs : (x :: xs).Pairwise valLt)
    (hys : (y :: ys).Pairwise valLt) (hxy : y.1 < x.1) (hy2 : y.2 ≠ 0) :
    coalesce (mergeBy valLeB (x :: xs) (y :: ys))
      = y :: coalesce (mergeBy valLeB (x :: xs) ys) := by
  rw [mergeBy_cons_cons,
      if_neg (by simp only [valLeB, decide_eq_true_eq]; exact not_le_of_lt hxy)]
  obtain ⟨yv, yw⟩ := y
  apply coalesce_cons_lt _ hy2
  intro q hq
  have hq2 := (mergeBy_perm valLeB (x :: xs) ys).mem_iff.mp hq
  rcases List.mem_append.mp hq2 with h | h
  · rcases List.mem_cons.mp h with h | h
    · rw [h]; exact hxy
    · exact lt_trans hxy ((List.pairwise_cons.mp hxs).1 q h)
  · exact (List.pairwise_cons.mp hys).1 q h

theorem coalesce_pair_eq {V : Type} [LinearOrder V] {x y : V × Int} {M : Diffs V}
    (hxy : x.1 = y.1) (hM : ∀ q ∈ M, y.1 < q.1) :
    coalesce (x :: y :: M)
      = if x.2 + y.2 = 0 then coalesce M else (x.1, x.2 + y.2) :: coalesce M := by
  obtain ⟨xv, xw⟩ := x
  obtain ⟨yv, yw⟩ := y
  dsimp only at hxy hM ⊢
  subst hxy
  rw [show coalesce ((xv, xw) :: (xv, yw) :: M)
        = coalescePush xv xw (coalescePush xv yw (coalesce M)) from rfl]
  rw [coalescePush_lt yw hM]
  by_cases hyw : yw = 0
  · rw [if_pos hyw, coalescePush_lt xw hM]
    subst hyw
    simp only [add_zero]
  · rw [if_neg hyw]
    have houter : coalescePush xv xw ((xv, yw) :: coalesce M)
        = if xw + yw = 0 then coalesce M else (xv, xw + yw) :: coalesce M := by
      simp [coalescePush]
    rw [houter]

theorem coalesceMerge_eq_heads {V : Type} [LinearOrder V] {x y : V × Int}
    {xs ys : Diffs V} (hxs : (x :: xs).Pairwise valLt)
    (hys : (y :: ys).Pairwise valLt) (hxy : x.1 = y.1) :
    coalesce (mergeBy valLeB (x :: xs) (y :: ys))
      = if x.2 + y.2 = 0 then coalesce (mergeBy valLeB xs ys)
        else (x.1, x.2 + y.2) :: coalesce (mergeBy valLeB xs ys) := by
  rw [mergeBy_cons_cons, if_pos (by rw [valLeB]; simp; exact le_of_eq hxy)]
  rw [mergeBy_ge_right (fun q hq => hxy ▸ (List.pairwise_cons.mp hxs).1 q hq)]
  apply coalesce_pair_eq hxy
  intro q hq
  have hq2 := (mergeBy_perm valLeB xs ys).mem_iff.mp hq
  rcases List.mem_append.mp hq2 with h | h
  · exact hxy ▸ (List.pairwise_cons.mp hxs).1 q h
  · exact (List.pairwise_cons.mp hys).1 q h

theorem coalesceMerge_neg {V : Type} [LinearOrder V] :
    ∀ {xs : Diffs V}, xs.Pairwise valLt →
      coalesce (mergeBy valLeB (negate xs) xs) = [] := by
  intro xs
  induction xs with
  | nil => intro _; rfl
  | cons x xs ih =>
    intro h
    obtain ⟨v, w⟩ := x
    have hneg : negate ((v, w) :: xs) = (v, -w) :: negate xs := rfl
    rw [hneg]
    have hnegp : ((v, -w) :: negate xs).Pairwise valLt := by
      rw [negate]
      have e : ((v, -w) :: List.map (fun p => (p.1, -p.2)) xs)
          = List.map (fun p : V × Int => (p.1, -p.2)) ((v, w) :: xs) := rfl
      rw [e]
      refine List.Pairwise.map _ ?_ h
      intro p q hpq
      exact hpq
    rw [coalesceMerge_eq_heads hnegp h rfl]
    rw [if_pos (by omega)]
    exact ih ((List.pairwise_cons.mp h).2)

theorem coalesceMerge_double {V : Type} [LinearOrder V] :
    ∀ {xs : Diffs V}, xs.Pairwise valLt → (∀ p ∈ xs, p.2 ≠ 0) →
      coalesce (mergeBy valLeB xs xs) = xs.map (fun p => (p.1, 2 * p.2)) := by
  intro xs
  induction xs with
  | nil => intro _ _; rfl
  | cons x xs ih =>
    intro h hz
    obtain ⟨v, w⟩ := x
    rw [coalesceMerge_eq_heads h h rfl]
    have hw : w ≠ 0 := hz (v, w) (List.mem_cons_self _ _)
    rw [if_neg (by dsimp only; omega)]
    rw [ih ((List.pairwise_cons.mp h).2) (fun p hp => hz p (List.mem_cons_of_mem _ hp))]
    rw [List.map_cons]
    congr 2
    dsimp only
    omega

/-- C5: the streaming merge-and-coalesce over two value-sorted sequences
emits the lesser head with its own weight, sums the weights of equal heads
into one element suppressed when the sum is zero; consequently merging a
sorted sequence with its weight-negation yields the empty sequence, and
merging it with itself yields each value with doubled weight. -/
theorem c5_coalesce_merge {V : Type} [LinearOrder V] :
    (∀ (x y : V × Int) (xs ys : Diffs V), (x :: xs).Pairwise valLt →
        (y :: ys).Pairwise valLt →
        (x.1 < y.1 → x.2 ≠ 0 → coalesce (mergeBy valLeB (x :: xs) (y :: ys))
            = x :: coalesce (mergeBy valLeB xs (y :: ys)))
        ∧ (y.1 < x.1 → y.2 ≠ 0 → coalesce (mergeBy valLeB (x :: xs) (y :: ys))
            = y :: coalesce (mergeBy valLeB (x :: xs) ys))
        ∧ (x.1 = y.1 → coalesce (mergeBy valLeB (x :: xs) (y :: ys))
            = if x.2 + y.2 = 0 then coalesce (mergeBy valLeB xs ys)
              else (x.1, x.2 + y.2) :: coalesce (mergeBy valLeB xs ys)))
    ∧ (∀ xs : Diffs V, xs.Pairwise valLt →
        coalesce (mergeBy valLeB (negate xs) xs) = [])
    ∧ (∀ xs : Diffs V, xs.Pairwise valLt → (∀ p ∈ xs, p.2 ≠ 0) →
        coalesce (mergeBy valLeB xs xs) = xs.map (fun p => (p.1, 2 * p.2))) := by
  refine ⟨?_, ?_, ?_⟩
  · intro x y xs ys hxs hys
    exact ⟨fun h1 h2 => coalesceMerge_lt_left hxs hys h1 h2,
           fun h1 h2 => coalesceMerge_lt_right hxs hys h1 h2,
           fun h1 => coalesceMerge_eq_heads hxs hys h1⟩
  · intro xs h
    exact coalesceMerge_neg h
  · intro xs h hz
    exact coalesceMerge_double h hz

theorem c5_witness :
    coalesce (mergeBy valLeB (negate [((2 : Nat), (5 : Int)), (7, -3)])
        [((2 : Nat), (5 : Int)), (7, -3)]) = []
    ∧ coalesce (mergeBy valLeB [((2 : Nat), (5 : Int)), (7, -3)]
        [((2 : Nat), (5 : Int)), (7, -3)])
      = [((2 : Nat), (10 : Int)), (7, -6)] := by
  constructor
  · exact (c5_coalesce_merge).2.1 [((2 : Nat), (5 : Int)), (7, -3)] (by decide)
  · have h := (c5_coalesce_merge).2.2 [((2 : Nat), (5 : Int)), (7, -3)] (by decide)
      (by decide)
    rw [h]
    rfl

/-- Modelled from the spec: the least upper bound of the partially ordered
product time domain is the componentwise max. -/
def joinT (a b : Nat × Nat) : Nat × Nat := (max a.1 b.1, max a.2 b.2)

/-- Trace over the partially ordered product time domain. -/
abbrev TraceP (K V : Type) := List ((Nat × Nat) × Compact K V)

/-- Times on record for a key in a partially ordered trace. -/
def recTimesP {K V : Type} [DecidableEq K] (tr : TraceP K V) (k : K) :
    List (Nat × Nat) :=
  (tr.filter (fun e => e.2.any (fun g => decide (g.1 = k)))).map (fun e => e.1)

/-- Modelled from the spec: interesting_times over the partial order — the
joins of the new time with every recorded time of the key, plus the new time
itself, deduplicated. -/
def interestingTimesP {K V : Type} [DecidableEq K] (tr : TraceP K V) (k : K)
    (t : Nat × Nat) : List (Nat × Nat) :=
  List.dedup (t :: (recTimesP tr k).map (fun s => joinT t s))

/-- Push a key onto the pending list of a time, also reporting whether the
entry was created (the factory of the entry_or_insert at group.rs line 241
runs, and a notification is requested, exactly then). -/
def pendPushN {T K : Type} [DecidableEq T] (td : List (T × List K)) (s : T)
    (k : K) : List (T × List K) × Bool :=
  match td with
  | [] => ([(s, [k])], true)
  | (t0, ks) :: rest =>
    if t0 = s then ((t0, ks ++ [k]) :: rest, false)
    else
      let r := pendPushN rest s k
      ((t0, ks) :: r.1, r.2)

/-- Whether a time already has a pending work-list. -/
def pendHas {T K : Type} [DecidableEq T] (td : List (T × List K)) (s : T) : Prop :=
  ∃ ks, (s, ks) ∈ td

/-- The pending work-list of a time (first match, empty when absent). -/
def pendFind {T K : Type} [DecidableEq T] (td : List (T × List K)) (s : T) :
    List K :=
  match td with
  | [] => []
  | (t0, ks) :: rest => if t0 = s then ks else pendFind rest s

/-- One enqueue step: push the key at the time, appending the time to the
requested notifications when its work-list was created. -/
def pushOne {T K : Type} [DecidableEq T] (st : List (T × List K) × List T)
    (sk : T × K) : List (T × List K) × List T :=
  let r := pendPushN st.1 sk.1 sk.2
  (r.1, if r.2 then st.2 ++ [sk.1] else st.2)

/-- The enqueue loop of phase A, group.rs lines 239-244, parameterized by the
trace whose interesting times are queried. -/
def enqueueKeys {K V : Type} [DecidableEq K] (tr : TraceP K V) (t : Nat × Nat)
    (keys : List K) (st : List ((Nat × Nat) × List K) × List (Nat × Nat)) :
    List ((Nat × Nat) × List K) × List (Nat × Nat) :=
  keys.foldl
    (fun st2 k => (interestingTimesP tr k t).foldl (fun st3 s => pushOne st3 (s, k)) st2)
    st

/-- Phase A over the partially ordered time domain, as the code does it
(group.rs lines 239-248): the interesting times queried are those of the
SOURCE trace, and the compact is installed into the source trace. -/
def phaseA {K V V2 : Type} [DecidableEq K] (source : TraceP K V)
    (result : TraceP K V2) (td : List ((Nat × Nat) × List K))
    (nf : List (Nat × Nat)) (t : Nat × Nat) (c : Compact K V) :
    TraceP K V × (List ((Nat × Nat) × List K) × List (Nat × Nat)) :=
  (source ++ [(t, c)], enqueueKeys source t (c.map (fun g => g.1)) (td, nf))

/-- Phase A as the claim words it: the interesting times queried are those of
the RESULT trace. -/
def phaseAClaim {K V V2 : Type} [DecidableEq K] (source : TraceP K V)
    (result : TraceP K V2) (td : List ((Nat × Nat) × List K))
    (nf : List (Nat × Nat)) (t : Nat × Nat) (c : Compact K V) :
    TraceP K V × (List ((Nat × Nat) × List K) × List (Nat × Nat)) :=
  (source ++ [(t, c)], enqueueKeys result t (c.map (fun g => g.1)) (td, nf))

theorem pendHas_cons {T K : Type} [DecidableEq T] (t0 : T) (ks0 : List K)
    (rest : List (T × List K)) (s : T) :
    pendHas ((t0, ks0) :: rest) s ↔ s = t0 ∨ pendHas rest s := by
  simp [pendHas, List.mem_cons, Prod.mk.injEq, exists_or]

theorem pendHas_nil {T K : Type} [DecidableEq T] (s : T) :
    ¬pendHas ([] : List (T × List K)) s := by
  simp [pendHas]

theorem pendPushN_has {T K : Type} [DecidableEq T] (s2 : T) :
    ∀ (td : List (T × List K)) (s : T) (k : K),
      pendHas (pendPushN td s k).1 s2 ↔ (pendHas td s2 ∨ s2 = s) := by
  intro td
  induction td with
  | nil =>
    intro s k
    rw [pendPushN]
    rw [pendHas_cons]
    simp [pendHas_nil, pendHas]
  | cons e rest ih =>
    intro s k
    obtain ⟨t0, ks0⟩ := e
    rw [pendPushN]
    by_cases he : t0 = s
    · rw [if_pos he]
      rw [pendHas_cons, pendHas_cons]
      subst he
      constructor
      · intro h
        rcases h with h | h
        · exact Or.inr h
        · exact Or.inl (Or.inr h)
      · intro h
        rcases h with h | h
        · rcases h with h | h
          · exact Or.inl h
          · exact Or.inr h
        · exact Or.inl h
    · rw [if_neg he]
      dsimp only
      rw [pendHas_cons, pendHas_cons, ih]
      tauto

theorem pendPushN_created {T K : Type} [DecidableEq T] :
    ∀ (td : List (T × List K)) (s : T) (k : K),
      (pendPushN td s k).2 = true ↔ ¬pendHas td s := by
  intro td
  induction td with
  | nil =>
    intro s k
    simp [pendPushN, pendHas_nil]
  | cons e rest ih =>
    intro s k
    obtain ⟨t0, ks0⟩ := e
    rw [pendPushN]
    by_cases he : t0 = s
    · rw [if_pos he]
      subst he
      rw [pendHas_cons]
      simp
    · rw [if_neg he]
      dsimp only
      rw [ih, pendHas_cons]
      have : ¬s = t0 := fun h => he h.symm
      tauto

theorem pendPushN_find_same {T K : Type} [DecidableEq T] :
    ∀ (td : List (T × List K)) (s : T) (k : K),
      pendFind (pendPushN td s k).1 s = pendFind td s ++ [k] := by
  intro td
  induction td with
  | nil =>
    intro s k
    simp [pendPushN, pendFind]
  | cons e rest ih =>
    intro s k
    obtain ⟨t0, ks0⟩ := e
    rw [pendPushN]
    by_cases he : t0 = s
    · rw [if_pos he]
      rw [pendFind, pendFind, if_pos he, if_pos he]
    · rw [if_neg he]
      dsimp only
      rw [pendFind, pendFind, if_neg he, if_neg he, ih]

theorem pendPushN_find_other {T K : Type} [DecidableEq T] {s2 s : T} (hne : s2 ≠ s) :
    ∀ (td : List (T × List K)) (k : K),
      pendFind (pendPushN td s k).1 s2 = pendFind td s2 := by
  intro td
  induction td with
  | nil =>
    intro k
    show pendFind [(s, [k])] s2 = ([] : List K)
    have hns : ¬(s = s2) := fun h => hne h.symm
    simp only [pendFind]
    rw [if_neg hns]
  | cons e rest ih =>
    intro k
    obtain ⟨t0, ks0⟩ := e
    rw [pendPushN]
    by_cases he : t0 = s
    · rw [if_pos he]
      rw [pendFind, pendFind]
      by_cases h2 : t0 = s2
      · exact absurd (h2.symm.trans he) hne
      · rw [if_neg h2, if_neg h2]
    · rw [if_neg he]
      dsimp only
      rw [pendFind, pendFind]
      by_cases h2 : t0 = s2
      · rw [if_pos h2, if_pos h2]
      · rw [if_neg h2, if_neg h2, ih]

theorem foldPush_has {T K : Type} [DecidableEq T] :
    ∀ (ps : List (T × K)) (st : List (T × List K) × List T) (s : T),
      pendHas (ps.foldl pushOne st).1 s
        ↔ pendHas st.1 s ∨ s ∈ ps.map (fun p => p.1) := by
  intro ps
  induction ps with
  | nil => intro st s; simp
  | cons p ps ih =>
    intro st s
    obtain ⟨s0, k0⟩ := p
    rw [List.foldl_cons, ih]
    have h1 : pendHas (pushOne st (s0, k0)).1 s ↔ pendHas st.1 s ∨ s = s0 :=
      pendPushN_has s st.1 s0 k0
    rw [h1]
    simp only [List.map_cons, List.mem_cons]
    tauto

theorem foldPush_find_mono {T K : Type} [DecidableEq T] :
    ∀ (ps : List (T × K)) (st : List (T × List K) × List T) (s : T) (k : K),
      k ∈ pendFind st.1 s → k ∈ pendFind (ps.foldl pushOne st).1 s := by
  intro ps
  induction ps with
  | nil => intro st s k h; exact h
  | cons p ps ih =>
    intro st s k h
    obtain ⟨s0, k0⟩ := p
    rw [List.foldl_cons]
    apply ih
    by_cases he : s = s0
    · subst he
      rw [show (pushOne st (s, k0)).1 = (pendPushN st.1 s k0).1 from rfl,
          pendPushN_find_same]
      exact List.mem_append_left _ h
    · rw [show (pushOne st (s0, k0)).1 = (pendPushN st.1 s0 k0).1 from rfl,
          pendPushN_find_other he]
      exact h

theorem foldPush_find_mem {T K : Type} [DecidableEq T] :
    ∀ (ps : List (T × K)) (st : List (T × List K) × List T) (s : T) (k : K),
      (s, k) ∈ ps → k ∈ pendFind (ps.foldl pushOne st).1 s := by
  intro ps
  induction ps with
  | nil => intro st s k h; simp at h
  | cons p ps ih =>
    intro st s k h
    obtain ⟨s0, k0⟩ := p
    rw [List.foldl_cons]
    rcases List.mem_cons.mp h with h | h
    · have he1 : s = s0 := congrArg Prod.fst h
      have he2 : k = k0 := congrArg Prod.snd h
      subst he1
      subst he2
      apply foldPush_find_mono
      rw [show (pushOne st (s, k)).1 = (pendPushN st.1 s k).1 from rfl,
          pendPushN_find_same]
      exact List.mem_append_right _ (List.mem_singleton_self _)
    · exact ih _ s k h

theorem foldPush_notif {T K : Type} [DecidableEq T] :
    ∀ (ps : List (T × K)) (st : List (T × List K) × List T) (s : T),
      s ∈ (ps.foldl pushOne st).2
        ↔ s ∈ st.2 ∨ (¬pendHas st.1 s ∧ s ∈ ps.map (fun p => p.1)) := by
  intro ps
  induction ps with
  | nil => intro st s; simp
  | cons p ps ih =>
    intro st s
    obtain ⟨s0, k0⟩ := p
    rw [List.foldl_cons, ih]
    have h1 : pendHas (pushOne st (s0, k0)).1 s ↔ pendHas st.1 s ∨ s = s0 :=
      pendPushN_has s st.1 s0 k0
    have h2 : (pushOne st (s0, k0)).2
        = if (pendPushN st.1 s0 k0).2 then st.2 ++ [s0] else st.2 := rfl
    simp only [List.map_cons, List.mem_cons]
    cases hcr : (pendPushN st.1 s0 k0).2 with
    | false =>
      have hh : pendHas st.1 s0 := by
        by_contra hcon
        rw [← pendPushN_created st.1 s0 k0, hcr] at hcon
        simp at hcon
      rw [h2, hcr, if_neg (by simp), h1]
      by_cases hss0 : s = s0
      · subst hss0
        tauto
      · tauto
    | true =>
      have hh : ¬pendHas st.1 s0 := by
        rw [← pendPushN_created st.1 s0 k0, hcr]
      rw [h2, hcr, if_pos rfl, h1]
      rw [List.mem_append, List.mem_singleton]
      by_cases hss0 : s = s0
      · subst hss0
        tauto
      · tauto

theorem enqueueKeys_eq_pairs {K V : Type} [DecidableEq K] (tr : TraceP K V)
    (t : Nat × Nat) :
    ∀ (keys : List K) (st : List ((Nat × Nat) × List K) × List (Nat × Nat)),
      enqueueKeys tr t keys st
        = (keys.flatMap (fun k => (interestingTimesP tr k t).map (fun s => (s, k)))).foldl
            pushOne st := by
  intro keys
  induction keys with
  | nil => intro st; rfl
  | cons k ks ih =>
    intro st
    rw [enqueueKeys, List.foldl_cons, List.flatMap_cons, List.foldl_append]
    have e : (interestingTimesP tr k t).foldl (fun st3 s => pushOne st3 (s, k)) st
        = ((interestingTimesP tr k t).map (fun s => (s, k))).foldl pushOne st := by
      rw [List.foldl_map]
    rw [e]
    exact ih _

theorem pairs_time_mem {K V : Type} [DecidableEq K] (tr : TraceP K V)
    (t : Nat × Nat) (keys : List K) (s : Nat × Nat) :
    s ∈ (keys.flatMap (fun k => (interestingTimesP tr k t).map (fun s2 => (s2, k)))).map
          (fun p => p.1)
      ↔ ∃ k ∈ keys, s ∈ interestingTimesP tr k t := by
  simp only [List.mem_map, List.mem_flatMap]
  constructor
  · intro h
    obtain ⟨p, ⟨k, hk, hp⟩, hps⟩ := h
    obtain ⟨s2, hs2, hs2p⟩ := hp
    refine ⟨k, hk, ?_⟩
    have e : (s2, k) = p := hs2p
    rw [← hps, ← e]
    exact hs2
  · intro h
    obtain ⟨k, hk, hs⟩ := h
    exact ⟨(s, k), ⟨k, hk, ⟨s, hs, rfl⟩⟩, rfl⟩

/-- C2 counterexample: phase A queries the SOURCE trace's interesting times
(group.rs line 240), not the result trace's.  With key 7 recorded in the
source trace at time (0,1), the result trace empty, and new data at the
concurrent time (1,0), the code enqueues the key at (1,0) and at the join
(1,1) and requests both notifications, while the claim's reading enqueues it
at (1,0) only. -/
theorem c2_counterexample :
    (phaseA ([((0, 1), [(7, [(5, 1)])])] : TraceP Nat Nat) ([] : TraceP Nat Nat)
        [] [] (1, 0) [(7, [(5, -1)])]).2
      ≠ (phaseAClaim ([((0, 1), [(7, [(5, 1)])])] : TraceP Nat Nat)
          ([] : TraceP Nat Nat) [] [] (1, 0) [(7, [(5, -1)])]).2 := by
  decide

/-- C2 amended: in phase A the operator queries the SOURCE trace's
interesting_times(key, t) for every key of the Compact; the key is enqueued
into the pending work-list of every returned time, a work-list exists
afterwards exactly for the previously pending times and the returned times,
a notification is requested exactly for the returned times whose work-list
did not already exist, and the Compact is installed into the source trace
via set_difference. -/
theorem c2_amended_phaseA {K V V2 : Type} [DecidableEq K] (source : TraceP K V)
    (result : TraceP K V2) (td : List ((Nat × Nat) × List K))
    (nf : List (Nat × Nat)) (t : Nat × Nat) (c : Compact K V) :
    (phaseA source result td nf t c).1 = source ++ [(t, c)]
    ∧ (∀ k ∈ c.map (fun g => g.1), ∀ s ∈ interestingTimesP source k t,
        k ∈ pendFind (phaseA source result td nf t c).2.1 s)
    ∧ (∀ s, pendHas (phaseA source result td nf t c).2.1 s
        ↔ pendHas td s ∨ ∃ k ∈ c.map (fun g => g.1), s ∈ interestingTimesP source k t)
    ∧ (∀ s, s ∈ (phaseA source result td nf t c).2.2
        ↔ s ∈ nf ∨ (¬pendHas td s
            ∧ ∃ k ∈ c.map (fun g => g.1), s ∈ interestingTimesP source k t)) := by
  refine ⟨rfl, ?_, ?_, ?_⟩
  · intro k hk s hs
    rw [show (phaseA source result td nf t c).2.1
          = (enqueueKeys source t (c.map (fun g => g.1)) (td, nf)).1 from rfl,
        enqueueKeys_eq_pairs]
    apply foldPush_find_mem
    rw [List.mem_flatMap]
    exact ⟨k, hk, List.mem_map_of_mem _ hs⟩
  · intro s
    rw [show (phaseA source result td nf t c).2.1
          = (enqueueKeys source t (c.map (fun g => g.1)) (td, nf)).1 from rfl,
        enqueueKeys_eq_pairs, foldPush_has, pairs_time_mem]
  · intro s
    rw [show (phaseA source result td nf t c).2.2
          = (enqueueKeys source t (c.map (fun g => g.1)) (td, nf)).2 from rfl,
        enqueueKeys_eq_pairs, foldPush_notif, pairs_time_mem]

theorem c2_amended_witness :
    7 ∈ pendFind (phaseA ([((0, 1), [(7, [(5, 1)])])] : TraceP Nat Nat)
        ([] : TraceP Nat Nat) [] [] (1, 0) [(7, [(5, -1)])]).2.1 (1, 1)
    ∧ (1, 1) ∈ (phaseA ([((0, 1), [(7, [(5, 1)])])] : TraceP Nat Nat)
        ([] : TraceP Nat Nat) [] [] (1, 0) [(7, [(5, -1)])]).2.2 := by
  have h := c2_amended_phaseA ([((0, 1), [(7, [(5, 1)])])] : TraceP Nat Nat)
    ([] : TraceP Nat Nat) [] [] (1, 0) [(7, [(5, -1)])]
  refine ⟨h.2.1 7 (by decide) (1, 1) (by decide), ?_⟩
  rw [h.2.2.2 (1, 1)]
  right
  refine ⟨?_, 7, by decide, by decide⟩
  exact pendHas_nil (1, 1)

/-- Semantic model of the hash-indexed Lookup (lookup.rs lines 13-25): a std
HashMap observed as a partial map from keys to values. -/
def HMap (K V : Type) := K → Option V

/-- The empty hash map, HashMap::new. -/
def hmEmpty {K V : Type} : HMap K V := fun _ => none

/-- get_ref and get_mut of the hash-indexed Lookup delegate to HashMap
lookup. -/
def hmGet {K V : Type} (m : HMap K V) (k : K) : Option V := m k

/-- entry_or_insert of the hash-indexed Lookup: entry(key).or_insert_with
invokes the factory (whose own state threads through A) only when the key is
absent. -/
def hmEntryF {K V A : Type} [DecidableEq K] (m : HMap K V) (k : K)
    (f : A → V × A) (a : A) : HMap K V × V × A :=
  match m k with
  | some v => (m, v, a)
  | none =>
    let r := f a
    ((fun k2 => if k2 = k then some r.1 else m k2), r.1, r.2)

/-- remove_key of the hash-indexed Lookup: HashMap::remove. -/
def hmRemove {K V : Type} [DecidableEq K] (m : HMap K V) (k : K) :
    Option V × HMap K V :=
  (m k, fun k2 => if k2 = k then none else m k2)

/-- Writing a value through the mutable reference get_mut returns, when the
key is present. -/
def hmSet {K V : Type} [DecidableEq K] (m : HMap K V) (k : K) (v : V) : HMap K V :=
  match m k with
  | some _ => fun k2 => if k2 = k then some v else m k2
  | none => m

/-- get_ref of the vector Lookup (lookup.rs lines 30-35): iter().position
finds the first pair whose key matches, then the pair is indexed; realized
directly as first-match recursion. -/
def vecGet {K V : Type} [DecidableEq K] : List (K × V) → K → Option V
  | [], _ => none
  | (k0, v) :: rest, k => if k0 = k then some v else vecGet rest k

/-- entry_or_insert of the vector Lookup (lookup.rs lines 44-53): return the
first matching pair, or push (key, func()) at the end, invoking the factory
only then. -/
def vecEntryF {K V A : Type} [DecidableEq K] :
    List (K × V) → K → (A → V × A) → A → List (K × V) × V × A
  | [], k, f, a =>
    let r := f a
    ([(k, r.1)], r.1, r.2)
  | (k0, v) :: rest, k, f, a =>
    if k0 = k then ((k0, v) :: rest, v, a)
    else
      let r := vecEntryF rest k f a
      ((k0, v) :: r.1, r.2.1, r.2.2)

/-- Writing a value through the mutable reference get_mut returns on the
vector Lookup. -/
def vecSet {K V : Type} [DecidableEq K] : List (K × V) → K → V → List (K × V)
  | [], _, _ => []
  | (k0, w) :: rest, k, v =>
    if k0 = k then (k0, v) :: rest else (k0, w) :: vecSet rest k v

/-- swap_remove of the vector Lookup (lookup.rs line 57): replace position i
with the last element and drop the last slot. -/
def vecSwapRemove {K V : Type} (l : List (K × V)) (i : Nat) : List (K × V) :=
  match l.getLast? with
  | none => []
  | some last => (l.set i last).dropLast

/-- iter().position on the pair vector: index of the first pair whose key
matches. -/
def vecPosition {K V : Type} [DecidableEq K] : List (K × V) → K → Option Nat
  | [], _ => none
  | (k0, _) :: rest, k =>
    if k0 = k then some 0 else (vecPosition rest k).map (fun i => i + 1)

/-- remove_key of the vector Lookup (lookup.rs lines 55-60): find the first
position whose key matches and swap_remove it. -/
def vecRemoveKey {K V : Type} [DecidableEq K] (l : List (K × V)) (k : K) :
    Option V × List (K × V) :=
  match vecPosition l k with
  | none => (none, l)
  | some i => ((l[i]?.map (fun p => p.2)), vecSwapRemove l i)

/-- get_ref of the dense Lookup (lookup.rs lines 66-69): index by the key
shifted right by the configured amount, none when out of range. -/
def denseGet {V : Type} (st : List (Option V) × Nat) (k : Nat) : Option V :=
  if st.1.length > k >>> st.2 then st.1.getD (k >>> st.2) none else none

/-- The grow loop of the dense Lookup entry_or_insert (lookup.rs line 78):
push None until the index is in range. -/
def denseGrow {V : Type} (l : List (Option V)) (i : Nat) : List (Option V) :=
  l ++ List.replicate (i + 1 - l.length) none

/-- entry_or_insert of the dense Lookup (lookup.rs lines 76-81): grow, then
fill the slot from the factory only when it is empty. -/
def denseEntryF {V A : Type} (st : List (Option V) × Nat) (k : Nat)
    (f : A → V × A) (a : A) : (List (Option V) × Nat) × V × A :=
  let i := k >>> st.2
  let l := denseGrow st.1 i
  match l.getD i none with
  | some v => ((l, st.2), v, a)
  | none =>
    let r := f a
    ((l.set i (some r.1), st.2), r.1, r.2)

/-- remove_key of the dense Lookup (lookup.rs lines 83-86): take the slot
when it is in range. -/
def denseRemove {V : Type} (st : List (Option V) × Nat) (k : Nat) :
    Option V × (List (Option V) × Nat) :=
  if st.1.length > k >>> st.2 then
    (st.1.getD (k >>> st.2) none, (st.1.set (k >>> st.2) none, st.2))
  else (none, st)

/-- Writing a value through the mutable reference get_mut returns on the
dense Lookup. -/
def denseSet {V : Type} (st : List (Option V) × Nat) (k : Nat) (v : V) :
    List (Option V) × Nat :=
  if st.1.length > k >>> st.2 then
    match st.1.getD (k >>> st.2) none with
    | some _ => (st.1.set (k >>> st.2) (some v), st.2)
    | none => st
  else st

theorem vecEntryF_present {K V A : Type} [DecidableEq K] :
    ∀ {l : List (K × V)} {k : K} {v : V} (f : A → V × A) (a : A),
      vecGet l k = some v → vecEntryF l k f a = (l, v, a) := by
  intro l
  induction l with
  | nil => intro k v f a h; simp [vecGet] at h
  | cons p rest ih =>
    intro k v f a h
    obtain ⟨k0, w⟩ := p
    rw [vecGet] at h
    rw [vecEntryF]
    by_cases he : k0 = k
    · rw [if_pos he] at h
      rw [if_pos he]
      simp only [Option.some.injEq] at h
      rw [h]
    · rw [if_neg he] at h
      rw [if_neg he]
      dsimp only
      rw [ih f a h]

theorem vecEntryF_absent {K V A : Type} [DecidableEq K] :
    ∀ {l : List (K × V)} {k : K} (f : A → V × A) (a : A),
      vecGet l k = none →
      vecEntryF l k f a = (l ++ [(k, (f a).1)], (f a).1, (f a).2) := by
  intro l
  induction l with
  | nil => intro k f a _; rfl
  | cons p rest ih =>
    intro k f a h
    obtain ⟨k0, w⟩ := p
    rw [vecGet] at h
    by_cases he : k0 = k
    · rw [if_pos he] at h
      exact absurd h (by simp)
    · rw [if_neg he] at h
      rw [vecEntryF, if_neg he]
      dsimp only
      rw [ih f a h]
      rfl

theorem denseGrow_of_lt {V : Type} {l : List (Option V)} {i : Nat}
    (h : i < l.length) : denseGrow l i = l := by
  rw [denseGrow, show i + 1 - l.length = 0 from by omega]
  simp

theorem denseGrow_length {V : Type} (l : List (Option V)) (i : Nat) :
    (denseGrow l i).length = max l.length (i + 1) := by
  rw [denseGrow]
  simp only [List.length_append, List.length_replicate]
  omega

theorem denseGrow_getD_none {V : Type} {st : List (Option V) × Nat} {k : Nat}
    (h : denseGet st k = none) :
    (denseGrow st.1 (k >>> st.2)).getD (k >>> st.2) none = none := by
  rw [denseGet] at h
  by_cases hlen : st.1.length > k >>> st.2
  · rw [if_pos hlen] at h
    rw [denseGrow_of_lt hlen]
    exact h
  · rw [denseGrow, List.getD, List.get?_eq_getElem?,
      List.getElem?_append_right (by omega), List.getElem?_replicate]
    rw [if_pos (by omega)]
    rfl

theorem denseEntryF_present {V A : Type} {st : List (Option V) × Nat} {k : Nat}
    {v : V} (f : A → V × A) (a : A) (h : denseGet st k = some v) :
    denseEntryF st k f a = (st, v, a) := by
  rw [denseGet] at h
  by_cases hlen : st.1.length > k >>> st.2
  · rw [if_pos hlen] at h
    rw [denseEntryF]
    dsimp only
    rw [denseGrow_of_lt hlen, h]
  · rw [if_neg hlen] at h
    exact absurd h (by simp)

theorem denseEntryF_absent {V A : Type} {st : List (Option V) × Nat} {k : Nat}
    (f : A → V × A) (a : A) (h : denseGet st k = none) :
    denseEntryF st k f a
      = (((denseGrow st.1 (k >>> st.2)).set (k >>> st.2) (some (f a).1), st.2),
         (f a).1, (f a).2) := by
  rw [denseEntryF]
  dsimp only
  rw [denseGrow_getD_none h]

/-- C7: in every Lookup implementation, entry_or_insert invokes the factory
and inserts its result only when the key is absent; when the key is present
it returns the existing entry, leaving both the store and the factory state
untouched. -/
theorem c7_entry_or_insert_lazy {K V A : Type} [DecidableEq K] :
    (∀ (m : HMap K V) (k : K) (f : A → V × A) (a : A),
        (∀ v, hmGet m k = some v → hmEntryF m k f a = (m, v, a))
        ∧ (hmGet m k = none →
            hmEntryF m k f a
              = ((fun k2 => if k2 = k then some (f a).1 else m k2),
                 (f a).1, (f a).2)))
    ∧ (∀ (l : List (K × V)) (k : K) (f : A → V × A) (a : A),
        (∀ v, vecGet l k = some v → vecEntryF l k f a = (l, v, a))
        ∧ (vecGet l k = none →
            vecEntryF l k f a = (l ++ [(k, (f a).1)], (f a).1, (f a).2)))
    ∧ (∀ (st : List (Option V) × Nat) (k : Nat) (f : A → V × A) (a : A),
        (∀ v, denseGet st k = some v → denseEntryF st k f a = (st, v, a))
        ∧ (denseGet st k = none →
            denseEntryF st k f a
              = (((denseGrow st.1 (k >>> st.2)).set (k >>> st.2) (some (f a).1),
                  st.2), (f a).1, (f a).2))) := by
  refine ⟨?_, ?_, ?_⟩
  · intro m k f a
    constructor
    · intro v h
      rw [hmEntryF, show m k = some v from h]
    · intro h
      rw [hmEntryF, show m k = none from h]
  · intro l k f a
    exact ⟨fun v h => vecEntryF_present f a h, fun h => vecEntryF_absent f a h⟩
  · intro st k f a
    exact ⟨fun v h => denseEntryF_present f a h, fun h => denseEntryF_absent f a h⟩

theorem c7_witness :
    vecEntryF [((4 : Nat), (9 : Nat))] 4 (fun a : Nat => (a + 10, a + 1)) 0
      = ([(4, 9)], 9, 0)
    ∧ vecEntryF [((4 : Nat), (9 : Nat))] 5 (fun a : Nat => (a + 10, a + 1)) 0
      = ([(4, 9), (5, 10)], 10, 1)
    ∧ denseEntryF (([some 3] : List (Option Nat)), 0) 0
        (fun a : Nat => (a + 10, a + 1)) 0 = (([some 3], 0), 3, 0) := by
  have h := c7_entry_or_insert_lazy (K := Nat) (V := Nat) (A := Nat)
  refine ⟨(h.2.1 [(4, 9)] 4 (fun a => (a + 10, a + 1)) 0).1 9 (by decide), ?_, ?_⟩
  · have h2 := (h.2.1 [(4, 9)] 5 (fun a => (a + 10, a + 1)) 0).2 (by decide)
    rw [h2]
    decide
  · exact (h.2.2 ([some 3], 0) 0 (fun a => (a + 10, a + 1)) 0).1 3 (by decide)

/-- C10: every operation of the dense Lookup depends on the key only through
key >> shift.  After entry_or_insert(k1, f), a get_ref(k2) with a distinct
key sharing the shifted index returns k1's entry, and remove_key(k2) removes
and returns it. -/
theorem c10_dense_conflation {V A : Type} (l : List (Option V)) (s : Nat)
    (k1 k2 : Nat) (f : A → V × A) (a : A) (hne : k1 ≠ k2)
    (hsh : k1 >>> s = k2 >>> s) :
    denseGet (denseEntryF (l, s) k1 f a).1 k2
        = denseGet (denseEntryF (l, s) k1 f a).1 k1
    ∧ (denseGet (denseEntryF (l, s) k1 f a).1 k1).isSome = true
    ∧ (denseRemove (denseEntryF (l, s) k1 f a).1 k2).1
        = denseGet (denseEntryF (l, s) k1 f a).1 k1
    ∧ denseGet (denseRemove (denseEntryF (l, s) k1 f a).1 k2).2 k1 = none := by
  have hs2 : (denseEntryF (l, s) k1 f a).1.2 = s := by
    rw [denseEntryF]
    dsimp only
    cases (denseGrow l (k1 >>> s)).getD (k1 >>> s) none <;> rfl
  have hget : ∀ (st : List (Option V) × Nat), st.2 = s →
      denseGet st k2 = denseGet st k1 := by
    intro st hst
    rw [denseGet, denseGet, hst, ← hsh]
  have hrem : ∀ (st : List (Option V) × Nat), st.2 = s →
      denseRemove st k2 = denseRemove st k1 := by
    intro st hst
    rw [denseRemove, denseRemove, hst, ← hsh]
  have hsome : (denseGet (denseEntryF (l, s) k1 f a).1 k1).isSome = true := by
    rw [denseEntryF]
    dsimp only
    cases hc : (denseGrow l (k1 >>> s)).getD (k1 >>> s) none with
    | some v =>
      rw [denseGet]
      dsimp only
      have hlen : k1 >>> s < (denseGrow l (k1 >>> s)).length := by
        rw [denseGrow_length]
        omega
      rw [if_pos hlen, hc]
      rfl
    | none =>
      rw [denseGet]
      dsimp only
      have hlen : k1 >>> s < ((denseGrow l (k1 >>> s)).set (k1 >>> s)
          (some (f a).1)).length := by
        rw [List.length_set, denseGrow_length]
        omega
      rw [if_pos hlen, List.getD, List.get?_eq_getElem?,
        List.getElem?_set_self (by rw [denseGrow_length]; omega)]
      rfl
  have hfst : ∀ (st : List (Option V) × Nat) (k : Nat),
      (denseRemove st k).1 = denseGet st k := by
    intro st k
    rw [denseRemove, denseGet]
    split_ifs <;> rfl
  have hlen1 : (denseEntryF (l, s) k1 f a).1.1.length
      > k1 >>> (denseEntryF (l, s) k1 f a).1.2 := by
    by_contra hc
    have h0 := hsome
    rw [denseGet, if_neg hc] at h0
    exact absurd h0 (by simp)
  refine ⟨hget _ hs2, hsome, ?_, ?_⟩
  · rw [hrem _ hs2, hfst]
  · rw [hrem _ hs2, denseRemove, if_pos hlen1, denseGet]
    dsimp only
    rw [if_pos (by rw [List.length_set]; exact hlen1)]
    rw [List.getD, List.get?_eq_getElem?, List.getElem?_set_self hlen1]
    rfl

/-- One observable Lookup operation over unsigned keys: get_ref, get_mut
followed by a write through the returned reference when one is returned,
entry_or_insert with a factory producing a fixed value, and remove_key. -/
inductive LOp (V : Type) where
  | getOp (k : Nat)
  | setOp (k : Nat) (v : V)
  | entryOp (k : Nat) (v : V)
  | removeOp (k : Nat)

/-- One operation against the HashMap Lookup: the observation (value seen)
and the next state. -/
def hmStepOp {V : Type} (m : HMap Nat V) : LOp V → Option V × HMap Nat V
  | .getOp k => (hmGet m k, m)
  | .setOp k v => (hmGet m k, hmSet m k v)
  | .entryOp k v =>
    let r := hmEntryF m k (fun u : Unit => (v, u)) ()
    (some r.2.1, r.1)
  | .removeOp k => hmRemove m k

/-- Observation trace of an operation sequence against the HashMap Lookup. -/
def hmRunOps {V : Type} (m : HMap Nat V) : List (LOp V) → List (Option V)
  | [] => []
  | op :: rest =>
    let r := hmStepOp m op
    r.1 :: hmRunOps r.2 rest

/-- One operation against the vector Lookup. -/
def vecStepOp {V : Type} (l : List (Nat × V)) :
    LOp V → Option V × List (Nat × V)
  | .getOp k => (vecGet l k, l)
  | .setOp k v => (vecGet l k, vecSet l k v)
  | .entryOp k v =>
    let r := vecEntryF l k (fun u : Unit => (v, u)) ()
    (some r.2.1, r.1)
  | .removeOp k => vecRemoveKey l k

/-- Observation trace of an operation sequence against the vector Lookup. -/
def vecRunOps {V : Type} (l : List (Nat × V)) : List (LOp V) → List (Option V)
  | [] => []
  | op :: rest =>
    let r := vecStepOp l op
    r.1 :: vecRunOps r.2 rest

/-- One operation against the dense Lookup. -/
def denseStepOp {V : Type} (d : List (Option V) × Nat) :
    LOp V → Option V × (List (Option V) × Nat)
  | .getOp k => (denseGet d k, d)
  | .setOp k v => (denseGet d k, denseSet d k v)
  | .entryOp k v =>
    let r := denseEntryF d k (fun u : Unit => (v, u)) ()
    (some r.2.1, r.1)
  | .removeOp k => denseRemove d k

/-- Observation trace of an operation sequence against the dense Lookup. -/
def denseRunOps {V : Type} (d : List (Option V) × Nat) :
    List (LOp V) → List (Option V)
  | [] => []
  | op :: rest =>
    let r := denseStepOp d op
    r.1 :: denseRunOps r.2 rest

theorem vecGet_eq_none_iff {K V : Type} [DecidableEq K] :
    ∀ {l : List (K × V)} {k : K}, vecGet l k = none ↔ k ∉ l.map Prod.fst := by
  intro l
  induction l with
  | nil => intro k; simp [vecGet]
  | cons p rest ih =>
    intro k
    obtain ⟨k0, w⟩ := p
    rw [vecGet]
    by_cases he : k0 = k
    · rw [if_pos he]
      simp [he]
    · rw [if_neg he]
      simp only [List.map_cons, List.mem_cons, ih]
      constructor
      · intro h hc
        rcases hc with hc | hc
        · exact he hc.symm
        · exact h hc
      · intro h
        exact fun hc => h (Or.inr hc)

theorem vecGet_mem {K V : Type} [DecidableEq K] :
    ∀ {l : List (K × V)} {k : K} {v : V}, vecGet l k = some v → (k, v) ∈ l := by
  intro l
  induction l with
  | nil => intro k v h; simp [vecGet] at h
  | cons p rest ih =>
    intro k v h
    obtain ⟨k0, w⟩ := p
    rw [vecGet] at h
    by_cases he : k0 = k
    · rw [if_pos he] at h
      simp only [Option.some.injEq] at h
      subst he h
      exact List.mem_cons_self _ _
    · rw [if_neg he] at h
      exact List.mem_cons_of_mem _ (ih h)

theorem vecGet_of_mem {K V : Type} [DecidableEq K] :
    ∀ {l : List (K × V)} {k : K} {v : V}, (l.map Prod.fst).Nodup →
      (k, v) ∈ l → vecGet l k = some v := by
  intro l
  induction l with
  | nil => intro k v _ hm; simp at hm
  | cons p rest ih =>
    intro k v hn hm
    obtain ⟨k0, w⟩ := p
    rw [List.map_cons, List.nodup_cons] at hn
    rcases List.mem_cons.mp hm with hm | hm
    · have hm2 : k = k0 ∧ v = w := by simpa using hm
      rw [vecGet, if_pos hm2.1.symm, hm2.2]
    · have hkm : k ∈ rest.map Prod.fst := List.mem_map_of_mem Prod.fst hm
      have hne : k0 ≠ k := fun he => hn.1 (by rw [he]; exact hkm)
      rw [vecGet, if_neg hne]
      exact ih hn.2 hm

theorem vecGet_perm {K V : Type} [DecidableEq K] {l l2 : List (K × V)}
    (hn : (l.map Prod.fst).Nodup) (hp : l.Perm l2) (k : K) :
    vecGet l k = vecGet l2 k := by
  have hn2 : (l2.map Prod.fst).Nodup := ((hp.map Prod.fst).nodup_iff).mp hn
  cases hg : vecGet l k with
  | none =>
    rw [vecGet_eq_none_iff] at hg
    exact (vecGet_eq_none_iff.mpr (fun hc => hg ((hp.map Prod.fst).mem_iff.mpr hc))).symm
  | some v =>
    exact (vecGet_of_mem hn2 (hp.mem_iff.mp (vecGet_mem hg))).symm

theorem vecSet_map_fst {K V : Type} [DecidableEq K] :
    ∀ (l : List (K × V)) (k : K) (v : V),
      (vecSet l k v).map Prod.fst = l.map Prod.fst := by
  intro l
  induction l with
  | nil => intro k v; rfl
  | cons p rest ih =>
    intro k v
    obtain ⟨k0, w⟩ := p
    rw [vecSet]
    by_cases he : k0 = k
    · rw [if_pos he]
      simp
    · rw [if_neg he]
      simp only [List.map_cons, ih]

theorem vecSet_of_none {K V : Type} [DecidableEq K] :
    ∀ {l : List (K × V)} {k : K} (v : V), vecGet l k = none →
      vecSet l k v = l := by
  intro l
  induction l with
  | nil => intro k v _; rfl
  | cons p rest ih =>
    intro k v h
    obtain ⟨k0, w⟩ := p
    rw [vecGet] at h
    by_cases he : k0 = k
    · rw [if_pos he] at h
      exact absurd h (by simp)
    · rw [if_neg he] at h
      rw [vecSet, if_neg he, ih v h]

theorem vecGet_vecSet_self {K V : Type} [DecidableEq K] :
    ∀ {l : List (K × V)} {k : K} {v w : V}, vecGet l k = some w →
      vecGet (vecSet l k v) k = some v := by
  intro l
  induction l with
  | nil => intro k v w h; simp [vecGet] at h
  | cons p rest ih =>
    intro k v w h
    obtain ⟨k0, u⟩ := p
    rw [vecGet] at h
    by_cases he : k0 = k
    · rw [vecSet, if_pos he, vecGet, if_pos he]
    · rw [if_neg he] at h
      rw [vecSet, if_neg he, vecGet, if_neg he]
      exact ih h

theorem vecGet_vecSet_other {K V : Type} [DecidableEq K] :
    ∀ {l : List (K × V)} {k k2 : K} (v : V), k2 ≠ k →
      vecGet (vecSet l k v) k2 = vecGet l k2 := by
  intro l
  induction l with
  | nil => intro k k2 v _; rfl
  | cons p rest ih =>
    intro k k2 v hne
    obtain ⟨k0, u⟩ := p
    rw [vecSet]
    by_cases he : k0 = k
    · rw [if_pos he, vecGet, vecGet, if_neg (he.symm ▸ fun h => hne h.symm),
        if_neg (he.symm ▸ fun h => hne h.symm)]
    · rw [if_neg he, vecGet, vecGet]
      by_cases h2 : k0 = k2
      · rw [if_pos h2, if_pos h2]
      · rw [if_neg h2, if_neg h2, ih v hne]

theorem vecGet_append_left {K V : Type} [DecidableEq K] :
    ∀ {l l2 : List (K × V)} {k : K} {v : V}, vecGet l k = some v →
      vecGet (l ++ l2) k = some v := by
  intro l
  induction l with
  | nil => intro l2 k v h; simp [vecGet] at h
  | cons p rest ih =>
    intro l2 k v h
    obtain ⟨k0, w⟩ := p
    rw [vecGet] at h
    rw [List.cons_append, vecGet]
    by_cases he : k0 = k
    · rw [if_pos he] at h
      rw [if_pos he]
      exact h
    · rw [if_neg he] at h
      rw [if_neg he]
      exact ih h

theorem vecGet_append_right {K V : Type} [DecidableEq K] :
    ∀ {l l2 : List (K × V)} {k : K}, vecGet l k = none →
      vecGet (l ++ l2) k = vecGet l2 k := by
  intro l
  induction l with
  | nil => intro l2 k _; rfl
  | cons p rest ih =>
    intro l2 k h
    obtain ⟨k0, w⟩ := p
    rw [vecGet] at h
    by_cases he : k0 = k
    · rw [if_pos he] at h
      exact absurd h (by simp)
    · rw [if_neg he] at h
      rw [List.cons_append, vecGet, if_neg he]
      exact ih h

theorem vecPosition_none_iff {K V : Type} [DecidableEq K] :
    ∀ {l : List (K × V)} {k : K}, vecPosition l k = none ↔ vecGet l k = none := by
  intro l
  induction l with
  | nil => intro k; simp [vecPosition, vecGet]
  | cons p rest ih =>
    intro k
    obtain ⟨k0, w⟩ := p
    rw [vecPosition, vecGet]
    by_cases he : k0 = k
    · rw [if_pos he, if_pos he]
      simp
    · rw [if_neg he, if_neg he]
      rw [Option.map_eq_none']
      exact ih

theorem vecPosition_spec {K V : Type} [DecidableEq K] :
    ∀ {l : List (K × V)} {k : K} {i : Nat}, vecPosition l k = some i →
      l[i]?.map Prod.fst = some k ∧ l[i]?.map Prod.snd = vecGet l k := by
  intro l
  induction l with
  | nil => intro k i h; simp [vecPosition] at h
  | cons p rest ih =>
    intro k i h
    obtain ⟨k0, w⟩ := p
    rw [vecPosition] at h
    by_cases he : k0 = k
    · rw [if_pos he] at h
      simp only [Option.some.injEq] at h
      subst h
      rw [vecGet, if_pos he]
      simp [he]
    · rw [if_neg he] at h
      rw [Option.map_eq_some'] at h
      obtain ⟨j, hj, rfl⟩ := h
      have := ih hj
      rw [vecGet, if_neg he]
      simpa using this

theorem vecSwapRemove_perm {K V : Type} :
    ∀ (l : List (K × V)) (i : Nat), i < l.length →
      (vecSwapRemove l i).Perm (l.take i ++ l.drop (i + 1)) := by
  intro l
  induction l using List.reverseRecOn with
  | nil => intro i h; simp at h
  | append_singleton init last ih =>
    intro i h
    rw [List.length_append, List.length_singleton] at h
    rw [vecSwapRemove, List.getLast?_concat]
    show (((init ++ [last]).set i last).dropLast).Perm
      (List.take i (init ++ [last]) ++ List.drop (i + 1) (init ++ [last]))
    by_cases hi : i < init.length
    · have ht : List.take i (init ++ [last]) = List.take i init := by
        rw [List.take_append_eq_append_take,
          show i - init.length = 0 from by omega]
        simp
      have hd : List.drop (i + 1) (init ++ [last])
          = List.drop (i + 1) init ++ [last] := by
        rw [List.drop_append_eq_append_drop,
          show i + 1 - init.length = 0 from by omega]
        simp
      rw [ht, hd, List.set_append_left _ _ hi, List.dropLast_concat,
        List.set_eq_take_cons_drop _ hi]
      exact List.Perm.append_left _ (List.perm_append_singleton _ _).symm
    · have hi2 : i = init.length := by omega
      subst hi2
      have hset : (init ++ [last]).set init.length last = init ++ [last] := by
        rw [List.set_append_right _ _ (le_refl _), Nat.sub_self]
        rfl
      have ht : List.take init.length (init ++ [last]) = init := by
        rw [List.take_append_eq_append_take, Nat.sub_self]
        simp
      have hd : List.drop (init.length + 1) (init ++ [last]) = [] := by
        rw [List.drop_append_eq_append_drop,
          List.drop_eq_nil_of_le (by omega)]
        simp
      rw [hset, List.dropLast_concat, ht, hd, List.append_nil]

theorem list_decomp_at {α : Type} :
    ∀ (l : List α) (i : Nat) (p : α), l[i]? = some p →
      l = l.take i ++ p :: l.drop (i + 1) := by
  intro l
  induction l with
  | nil => intro i p h; simp at h
  | cons a rest ih =>
    intro i p h
    cases i with
    | zero =>
      rw [List.getElem?_cons_zero] at h
      simp only [Option.some.injEq] at h
      subst h
      simp
    | succ j =>
      rw [List.getElem?_cons_succ] at h
      simp only [List.take_succ_cons, List.drop_succ_cons, List.cons_append,
        List.cons.injEq, true_and]
      exact ih j p h

theorem denseRemove_fst {V : Type} (st : List (Option V) × Nat) (k : Nat) :
    (denseRemove st k).1 = denseGet st k := by
  rw [denseRemove, denseGet]
  split_ifs <;> rfl

theorem denseGet_grow_set_other {V : Type} {dl : List (Option V)} {k k2 : Nat}
    (hne : k2 ≠ k) (x : Option V) :
    denseGet ((denseGrow dl k).set k x, 0) k2 = denseGet (dl, 0) k2 := by
  rw [denseGet, denseGet]
  simp only [Nat.shiftRight_zero, List.length_set]
  by_cases hk2 : dl.length > k2
  · rw [if_pos (by rw [denseGrow_length]; omega), if_pos hk2]
    rw [List.getD, List.getD, List.get?_eq_getElem?, List.get?_eq_getElem?,
      List.getElem?_set_ne (fun hc => hne hc.symm), denseGrow,
      List.getElem?_append_left hk2]
  · rw [if_neg (show ¬dl.length > k2 from hk2)]
    by_cases hgl : (denseGrow dl k).length > k2
    · rw [if_pos hgl]
      rw [List.getD, List.get?_eq_getElem?,
        List.getElem?_set_ne (fun hc => hne hc.symm), denseGrow,
        List.getElem?_append_right (by omega), List.getElem?_replicate]
      split_ifs <;> rfl
    · rw [if_neg hgl]

/-- Pointwise agreement of a HashMap Lookup state with a vector Lookup state
whose keys are duplicate-free. -/
def HVInv {V : Type} (m : HMap Nat V) (l : List (Nat × V)) : Prop :=
  (∀ k, hmGet m k = vecGet l k) ∧ (l.map Prod.fst).Nodup

/-- Pointwise agreement of a HashMap Lookup state with a dense Lookup state
of shift zero, the shift the operator constructs via look(0). -/
def HDInv {V : Type} (m : HMap Nat V) (d : List (Option V) × Nat) : Prop :=
  (∀ k, hmGet m k = denseGet d k) ∧ d.2 = 0

theorem hvStep {V : Type} {m : HMap Nat V} {l : List (Nat × V)}
    (h : HVInv m l) (op : LOp V) :
    (hmStepOp m op).1 = (vecStepOp l op).1
    ∧ HVInv (hmStepOp m op).2 (vecStepOp l op).2 := by
  obtain ⟨hg, hn⟩ := h
  cases op with
  | getOp k => exact ⟨hg k, hg, hn⟩
  | setOp k v =>
    refine ⟨hg k, ?_⟩
    show HVInv (hmSet m k v) (vecSet l k v)
    cases hmk : m k with
    | none =>
      have hvk : vecGet l k = none := by rw [← hg k]; exact hmk
      have e1 : hmSet m k v = m := by simp [hmSet, hmk]
      rw [e1, vecSet_of_none v hvk]
      exact ⟨hg, hn⟩
    | some w =>
      have hvk : vecGet l k = some w := by rw [← hg k]; exact hmk
      have e1 : hmSet m k v = fun k2 => if k2 = k then some v else m k2 := by
        simp [hmSet, hmk]
      refine ⟨?_, ?_⟩
      · intro k2
        by_cases h2 : k2 = k
        · subst h2
          have eL : hmGet (hmSet m k2 v) k2 = some v := by rw [e1]; simp [hmGet]
          rw [eL, vecGet_vecSet_self hvk]
        · have eL : hmGet (hmSet m k v) k2 = m k2 := by rw [e1]; simp [hmGet, h2]
          rw [eL, vecGet_vecSet_other v h2]
          exact hg k2
      · rw [vecSet_map_fst]
        exact hn
  | entryOp k v =>
    cases hmk : m k with
    | some w =>
      have hvk : vecGet l k = some w := by rw [← hg k]; exact hmk
      have e1 : hmEntryF m k (fun u : Unit => (v, u)) () = (m, w, ()) := by
        simp [hmEntryF, hmk]
      have e2 : vecEntryF l k (fun u : Unit => (v, u)) () = (l, w, ()) :=
        vecEntryF_present _ _ hvk
      simp only [hmStepOp, vecStepOp, e1, e2]
      exact ⟨trivial, hg, hn⟩
    | none =>
      have hvk : vecGet l k = none := by rw [← hg k]; exact hmk
      have e1 : hmEntryF m k (fun u : Unit => (v, u)) ()
          = ((fun k2 => if k2 = k then some v else m k2), v, ()) := by
        simp [hmEntryF, hmk]
      have e2 : vecEntryF l k (fun u : Unit => (v, u)) ()
          = (l ++ [(k, v)], v, ()) := vecEntryF_absent _ _ hvk
      simp only [hmStepOp, vecStepOp, e1, e2]
      refine ⟨trivial, ?_, ?_⟩
      · intro k2
        show (if k2 = k then some v else m k2) = vecGet (l ++ [(k, v)]) k2
        by_cases h2 : k2 = k
        · subst h2
          rw [if_pos rfl, vecGet_append_right hvk, vecGet, if_pos rfl]
        · rw [if_neg h2]
          cases hlk2 : vecGet l k2 with
          | some u =>
            rw [vecGet_append_left hlk2, ← hlk2]
            exact hg k2
          | none =>
            rw [vecGet_append_right hlk2, vecGet,
              if_neg (fun hc => h2 hc.symm)]
            show hmGet m k2 = vecGet [] k2
            rw [hg k2, hlk2]
            rfl
      · rw [List.map_append]
        refine List.Nodup.append hn (by simp) ?_
        intro a ha hb
        simp only [List.map_cons, List.map_nil, List.mem_singleton] at hb
        subst hb
        exact (vecGet_eq_none_iff.mp hvk) ha
  | removeOp k =>
    simp only [hmStepOp, vecStepOp]
    cases hpos : vecPosition l k with
    | none =>
      have hvk : vecGet l k = none := vecPosition_none_iff.mp hpos
      have e2 : vecRemoveKey l k = (none, l) := by simp [vecRemoveKey, hpos]
      rw [e2, hmRemove]
      have hgk : m k = vecGet l k := hg k
      refine ⟨by rw [hgk, hvk], ?_, hn⟩
      intro k2
      show (if k2 = k then none else m k2) = vecGet l k2
      by_cases h2 : k2 = k
      · subst h2
        rw [if_pos rfl, hvk]
      · rw [if_neg h2]
        exact hg k2
    | some i =>
      obtain ⟨hsp1, hsp2⟩ := vecPosition_spec hpos
      obtain ⟨p, hp, hpk⟩ := Option.map_eq_some'.mp hsp1
      have hilt : i < l.length := by
        by_contra hc
        rw [List.getElem?_eq_none (by omega)] at hp
        exact absurd hp (by simp)
      have e2 : vecRemoveKey l k
          = (l[i]?.map (fun q => q.2), vecSwapRemove l i) := by
        simp [vecRemoveKey, hpos]
      rw [e2, hmRemove]
      have hdec := list_decomp_at l i p hp
      have hmap : l.map Prod.fst
          = (l.take i).map Prod.fst ++ k :: (l.drop (i + 1)).map Prod.fst := by
        conv_lhs => rw [hdec]
        rw [List.map_append, List.map_cons, hpk]
      have hn2 : ((l.take i).map Prod.fst ++ k :: (l.drop (i + 1)).map Prod.fst).Nodup := by
        rw [← hmap]; exact hn
      have hmid := (List.nodup_middle).mp hn2
      rw [List.nodup_cons] at hmid
      have hknotin : k ∉ (l.take i).map Prod.fst ++ (l.drop (i + 1)).map Prod.fst :=
        hmid.1
      have hnAB : ((l.take i).map Prod.fst ++ (l.drop (i + 1)).map Prod.fst).Nodup :=
        hmid.2
      have hperm := vecSwapRemove_perm l i hilt
      have hnsw : ((vecSwapRemove l i).map Prod.fst).Nodup := by
        refine ((hperm.map Prod.fst).nodup_iff).mpr ?_
        rw [List.map_append]
        exact hnAB
      have hgAB : ∀ k2, vecGet (vecSwapRemove l i) k2
          = vecGet (l.take i ++ l.drop (i + 1)) k2 :=
        fun k2 => vecGet_perm hnsw hperm k2
      refine ⟨?_, ?_, hnsw⟩
      · show m k = l[i]?.map (fun q => q.2)
        rw [show m k = hmGet m k from rfl, hg k, ← hsp2]
      · intro k2
        show (if k2 = k then none else m k2) = vecGet (vecSwapRemove l i) k2
        rw [hgAB k2]
        by_cases h2 : k2 = k
        · subst h2
          rw [if_pos rfl]
          symm
          rw [vecGet_eq_none_iff, List.map_append]
          exact hknotin
        · rw [if_neg h2]
          have hgk2 : m k2 = vecGet l k2 := hg k2
          rw [hgk2]
          conv_lhs => rw [hdec]
          cases hA : vecGet (l.take i) k2 with
          | some u =>
            rw [vecGet_append_left hA, vecGet_append_left hA]
          | none =>
            rw [vecGet_append_right hA, vecGet_append_right hA]
            rw [vecGet, hpk, if_neg (fun hc => h2 hc.symm)]

theorem hdStep {V : Type} {m : HMap Nat V} {d : List (Option V) × Nat}
    (h : HDInv m d) (op : LOp V) :
    (hmStepOp m op).1 = (denseStepOp d op).1
    ∧ HDInv (hmStepOp m op).2 (denseStepOp d op).2 := by
  obtain ⟨hg, h0⟩ := h
  obtain ⟨dl, ds⟩ := d
  subst h0
  have hDG : ∀ (dl2 : List (Option V)) (k2 : Nat),
      denseGet (dl2, 0) k2
        = (if dl2.length > k2 then dl2[k2]?.getD none else none) := by
    intro dl2 k2
    show (if dl2.length > k2 then dl2.getD k2 none else none) = _
    rw [List.getD, List.get?_eq_getElem?]
  have hgL : ∀ k, m k = (if dl.length > k then dl[k]?.getD none else none) :=
    fun k => (hg k).trans (hDG dl k)
  cases op with
  | getOp k => exact ⟨hg k, hg, rfl⟩
  | setOp k v =>
    refine ⟨hg k, ?_⟩
    show HDInv (hmSet m k v) (denseSet (dl, 0) k v)
    by_cases hlen : dl.length > k
    · cases hgd : dl[k]?.getD none with
      | none =>
        have hmk : m k = none := by rw [hgL k, if_pos hlen, hgd]
        have hgd0 : dl.getD k none = none := by
          rw [List.getD, List.get?_eq_getElem?]
          exact hgd
        have e1 : hmSet m k v = m := by simp [hmSet, hmk]
        have e2 : denseSet (dl, 0) k v = (dl, 0) := by
          show (if dl.length > k then
              match dl.getD k none with
              | some _ => ((dl.set k (some v), 0) : List (Option V) × Nat)
              | none => (dl, 0)
            else (dl, 0)) = (dl, 0)
          rw [if_pos hlen, hgd0]
        rw [e1, e2]
        exact ⟨hg, rfl⟩
      | some w =>
        have hmk : m k = some w := by rw [hgL k, if_pos hlen, hgd]
        have hgd0 : dl.getD k none = some w := by
          rw [List.getD, List.get?_eq_getElem?]
          exact hgd
        have e1 : hmSet m k v = fun k2 => if k2 = k then some v else m k2 := by
          simp [hmSet, hmk]
        have e2 : denseSet (dl, 0) k v = (dl.set k (some v), 0) := by
          show (if dl.length > k then
              match dl.getD k none with
              | some _ => ((dl.set k (some v), 0) : List (Option V) × Nat)
              | none => (dl, 0)
            else (dl, 0)) = (dl.set k (some v), 0)
          rw [if_pos hlen, hgd0]
        rw [e1, e2]
        refine ⟨?_, rfl⟩
        intro k2
        show (if k2 = k then some v else m k2)
          = denseGet (dl.set k (some v), 0) k2
        rw [hDG, List.length_set]
        by_cases h2 : k2 = k
        · subst h2
          rw [if_pos rfl, if_pos hlen, List.getElem?_set_self hlen]
          rfl
        · rw [if_neg h2, hgL k2]
          by_cases hl2 : dl.length > k2
          · rw [if_pos hl2, if_pos hl2,
              List.getElem?_set_ne (fun hc => h2 hc.symm)]
          · rw [if_neg hl2, if_neg hl2]
    · have hmk : m k = none := by rw [hgL k, if_neg hlen]
      have e1 : hmSet m k v = m := by simp [hmSet, hmk]
      have e2 : denseSet (dl, 0) k v = (dl, 0) := by
        show (if dl.length > k then
            match dl.getD k none with
            | some _ => ((dl.set k (some v), 0) : List (Option V) × Nat)
            | none => (dl, 0)
          else (dl, 0)) = (dl, 0)
        rw [if_neg hlen]
      rw [e1, e2]
      exact ⟨hg, rfl⟩
  | entryOp k v =>
    cases hdk : denseGet (dl, 0) k with
    | some w =>
      have hmk : m k = some w := (hg k).trans hdk
      have e1 : hmEntryF m k (fun u : Unit => (v, u)) () = (m, w, ()) := by
        simp [hmEntryF, hmk]
      have e2 := denseEntryF_present (fun u : Unit => (v, u)) () hdk
      constructor
      · simp [hmStepOp, denseStepOp, e1, e2]
      · simp only [hmStepOp, denseStepOp, e1, e2]
        exact ⟨hg, rfl⟩
    | none =>
      have hmk : m k = none := (hg k).trans hdk
      have e1 : hmEntryF m k (fun u : Unit => (v, u)) ()
          = ((fun k2 => if k2 = k then some v else m k2), v, ()) := by
        simp [hmEntryF, hmk]
      have e2 := denseEntryF_absent (fun u : Unit => (v, u)) () hdk
      constructor
      · simp [hmStepOp, denseStepOp, e1, e2]
      · simp only [hmStepOp, denseStepOp, e1, e2, Nat.shiftRight_zero]
        refine ⟨?_, rfl⟩
        intro k2
        by_cases h2 : k2 = k
        · subst h2
          show (if k2 = k2 then some v else m k2)
            = denseGet ((denseGrow dl k2).set k2 (some v), 0) k2
          rw [if_pos rfl, hDG, List.length_set,
            if_pos (by rw [denseGrow_length]; omega),
            List.getElem?_set_self (by rw [denseGrow_length]; omega)]
          rfl
        · show (if k2 = k then some v else m k2)
            = denseGet ((denseGrow dl k).set k (some v), 0) k2
          rw [if_neg h2, denseGet_grow_set_other h2, ← hg k2]
          rfl
  | removeOp k =>
    simp only [hmStepOp, denseStepOp, hmRemove]
    refine ⟨?_, ?_⟩
    · rw [denseRemove_fst]
      exact hg k
    · show HDInv (fun k2 => if k2 = k then none else m k2)
        (denseRemove (dl, 0) k).2
      by_cases hlen : dl.length > k
      · have e2 : (denseRemove (dl, 0) k).2 = (dl.set k none, 0) := by
          show (if dl.length > k then
              ((dl.getD k none, (dl.set k none, 0))
                : Option V × List (Option V) × Nat)
            else (none, (dl, 0))).2 = (dl.set k none, 0)
          rw [if_pos hlen]
        rw [e2]
        refine ⟨?_, rfl⟩
        intro k2
        show (if k2 = k then none else m k2) = denseGet (dl.set k none, 0) k2
        rw [hDG, List.length_set]
        by_cases h2 : k2 = k
        · subst h2
          rw [if_pos rfl, if_pos hlen, List.getElem?_set_self hlen]
          rfl
        · rw [if_neg h2, hgL k2]
          by_cases hl2 : dl.length > k2
          · rw [if_pos hl2, if_pos hl2,
              List.getElem?_set_ne (fun hc => h2 hc.symm)]
          · rw [if_neg hl2, if_neg hl2]
      · have e2 : (denseRemove (dl, 0) k).2 = (dl, 0) := by
          show (if dl.length > k then
              ((dl.getD k none, (dl.set k none, 0))
                : Option V × List (Option V) × Nat)
            else (none, (dl, 0))).2 = (dl, 0)
          rw [if_neg hlen]
        rw [e2]
        refine ⟨?_, rfl⟩
        intro k2
        show (if k2 = k then none else m k2) = denseGet (dl, 0) k2
        by_cases h2 : k2 = k
        · subst h2
          have hdk : denseGet (dl, 0) k2 = none := by
            rw [hDG, if_neg hlen]
          rw [if_pos rfl, hdk]
        · rw [if_neg h2]
          exact hg k2

theorem hvRun {V : Type} :
    ∀ (ops : List (LOp V)) (m : HMap Nat V) (l : List (Nat × V)),
      HVInv m l → hmRunOps m ops = vecRunOps l ops := by
  intro ops
  induction ops with
  | nil => intro m l _; rfl
  | cons op rest ih =>
    intro m l h
    have hs := hvStep h op
    simp only [hmRunOps, vecRunOps]
    rw [hs.1, ih _ _ hs.2]

theorem hdRun {V : Type} :
    ∀ (ops : List (LOp V)) (m : HMap Nat V) (d : List (Option V) × Nat),
      HDInv m d → hmRunOps m ops = denseRunOps d ops := by
  intro ops
  induction ops with
  | nil => intro m d _; rfl
  | cons op rest ih =>
    intro m d h
    have hs := hdStep h op
    simp only [hmRunOps, denseRunOps]
    rw [hs.1, ih _ _ hs.2]

theorem hvInv_empty {V : Type} : HVInv (hmEmpty : HMap Nat V) [] :=
  ⟨fun _ => rfl, List.nodup_nil⟩

theorem hdInv_empty {V : Type} : HDInv (hmEmpty : HMap Nat V) ([], 0) :=
  ⟨fun _ => rfl, rfl⟩

/-- Modelled from the spec: per-key history, the (time, value differences)
batches installed for one key, the per-key view of a Trace keyed by its
Lookup. -/
abbrev Hist (V : Type) := List (Nat × Diffs V)

/-- Modelled from the spec: Trace installation against the HashMap Lookup,
entry_or_insert with an empty-vector factory, then a push of the (time,
diffs) batch. -/
def hmInstall {V : Type} (m : HMap Nat (Hist V)) (k t : Nat) (ds : Diffs V) :
    HMap Nat (Hist V) :=
  let r := hmEntryF m k (fun u : Unit => (([] : Hist V), u)) ()
  hmSet r.1 k (r.2.1 ++ [(t, ds)])

/-- Modelled from the spec: Trace installation against the dense Lookup. -/
def denseInstall {V : Type} (d : List (Option (Hist V)) × Nat) (k t : Nat)
    (ds : Diffs V) : List (Option (Hist V)) × Nat :=
  let r := denseEntryF d k (fun u : Unit => (([] : Hist V), u)) ()
  denseSet r.1 k (r.2.1 ++ [(t, ds)])

/-- Modelled from the spec: Trace::get_collection_using for one key at one
time over the key's history as held by a Lookup with read function read. -/
def collOf {σ V : Type} [LinearOrder V] (read : σ → Nat → Option (Hist V))
    (s : σ) (k t : Nat) : Diffs V :=
  canonDiffs ((((read s k).getD []).filter (fun e => decide (e.1 ≤ t))).map
    (fun e => e.2)).flatten

/-- Modelled from the spec: Trace::interesting_times for one key over the
key's history. -/
def intTimesOf {σ V : Type} (read : σ → Nat → Option (Hist V)) (s : σ)
    (k t : Nat) : List Nat :=
  List.dedup (t :: ((read s k).getD []).map (fun e => max t e.1))

/-- Net output differences for one pending key, over Lookup-backed traces. -/
def keyOutputL {σ τ V V2 : Type} [LinearOrder V] [LinearOrder V2]
    (readS : σ → Nat → Option (Hist V)) (readR : τ → Nat → Option (Hist V2))
    (s : σ) (r : τ) (logic : Nat → Diffs V → Diffs V2) (t k : Nat) :
    Diffs V2 :=
  let inColl := collOf readS s k t
  let buffer := if inColl = [] then [] else logic k inColl
  coalesce (mergeBy valLeB (negate (collOf readR r k t)) (sortVals buffer))

/-- Operator state over Lookup-backed source and result traces. -/
structure GStateL (σ τ D2 : Type) where
  source : σ
  result : τ
  toDo : List (Nat × List Nat)
  emitted : List (Nat × Nat × D2 × Int)

/-- Phase A over a Lookup-backed source: stage and compact, enqueue every key
of the compact at each interesting time the source reports, then install the
per-key diffs at the notified time. -/
def gStepAL {σ τ V D2 : Type} [LinearOrder V]
    (read : σ → Nat → Option (Hist V))
    (install : σ → Nat → Nat → Diffs V → σ) (hash : Nat → Nat)
    (st : GStateL σ τ D2) (t : Nat) (queue : List (List (Rec Nat V))) :
    GStateL σ τ D2 :=
  match stageAndCompact hash queue with
  | none => st
  | some c =>
    { st with
      toDo := (c.map (fun g => g.1)).foldl
        (fun td k => (intTimesOf read st.source k t).foldl
          (fun td2 s2 => pendPush td2 s2 k) td) st.toDo,
      source := c.foldl (fun s2 kg => install s2 kg.1 t kg.2) st.source }

/-- Phase B over Lookup-backed traces: process the pending keys in
deterministic order, emit their net differences and install the nonempty
accumulation. -/
def gStepBL {σ τ V V2 D2 : Type} [LinearOrder V] [LinearOrder V2]
    (readS : σ → Nat → Option (Hist V)) (readR : τ → Nat → Option (Hist V2))
    (installR : τ → Nat → Nat → Diffs V2 → τ) (hash : Nat → Nat)
    (logic : Nat → Diffs V → Diffs V2) (reduc : Nat → V2 → D2)
    (st1 : GStateL σ τ D2) (t : Nat) : GStateL σ τ D2 :=
  match pendRemove st1.toDo t with
  | (none, td) => { st1 with toDo := td }
  | (some keys, td) =>
    let outs := (processKeys hash keys).map
      (fun k => (k, keyOutputL readS readR st1.source st1.result logic t k))
    { source := st1.source,
      result := if accOf outs = [] then st1.result
                else (accOf outs).foldl
                  (fun r2 kg => installR r2 kg.1 t kg.2) st1.result,
      toDo := td,
      emitted := st1.emitted ++ emitsOf reduc t outs }

/-- One notified time over Lookup-backed traces: phase A then phase B. -/
def gStepL {σ τ V V2 D2 : Type} [LinearOrder V] [LinearOrder V2]
    (readS : σ → Nat → Option (Hist V))
    (installS : σ → Nat → Nat → Diffs V → σ)
    (readR : τ → Nat → Option (Hist V2))
    (installR : τ → Nat → Nat → Diffs V2 → τ) (hash : Nat → Nat)
    (logic : Nat → Diffs V → Diffs V2) (reduc : Nat → V2 → D2)
    (st : GStateL σ τ D2) (inp : Nat × List (List (Rec Nat V))) :
    GStateL σ τ D2 :=
  gStepBL readS readR installR hash logic reduc
    (gStepAL readS installS hash st inp.1 inp.2) inp.1

/-- Run the operator over notified times from given initial traces. -/
def gRunL {σ τ V V2 D2 : Type} [LinearOrder V] [LinearOrder V2]
    (readS : σ → Nat → Option (Hist V))
    (installS : σ → Nat → Nat → Diffs V → σ)
    (readR : τ → Nat → Option (Hist V2))
    (installR : τ → Nat → Nat → Diffs V2 → τ) (hash : Nat → Nat)
    (logic : Nat → Diffs V → Diffs V2) (reduc : Nat → V2 → D2)
    (s0 : σ) (r0 : τ) (inputs : List (Nat × List (List (Rec Nat V)))) :
    GStateL σ τ D2 :=
  inputs.foldl (gStepL readS installS readR installR hash logic reduc)
    ⟨s0, r0, [], []⟩

theorem hdInstall_inv {V : Type} {m : HMap Nat (Hist V)}
    {d : List (Option (Hist V)) × Nat} (h : HDInv m d) (k t : Nat)
    (ds : Diffs V) : HDInv (hmInstall m k t ds) (denseInstall d k t ds) := by
  have he := hdStep h (LOp.entryOp k ([] : Hist V))
  have hobs : (hmEntryF m k (fun u : Unit => (([] : Hist V), u)) ()).2.1
      = (denseEntryF d k (fun u : Unit => (([] : Hist V), u)) ()).2.1 := by
    have h1 := he.1
    simp only [hmStepOp, denseStepOp, Option.some.injEq] at h1
    exact h1
  have hinv2 : HDInv (hmEntryF m k (fun u : Unit => (([] : Hist V), u)) ()).1
      (denseEntryF d k (fun u : Unit => (([] : Hist V), u)) ()).1 := he.2
  have hs := hdStep hinv2 (LOp.setOp k
    ((hmEntryF m k (fun u : Unit => (([] : Hist V), u)) ()).2.1 ++ [(t, ds)]))
  show HDInv
    (hmSet (hmEntryF m k (fun u : Unit => (([] : Hist V), u)) ()).1 k
      ((hmEntryF m k (fun u : Unit => (([] : Hist V), u)) ()).2.1 ++ [(t, ds)]))
    (denseSet (denseEntryF d k (fun u : Unit => (([] : Hist V), u)) ()).1 k
      ((denseEntryF d k (fun u : Unit => (([] : Hist V), u)) ()).2.1 ++ [(t, ds)]))
  rw [← hobs]
  exact hs.2

theorem hdInstall_fold {V : Type} (t : Nat) :
    ∀ (c : List (Nat × Diffs V)) {m : HMap Nat (Hist V)}
      {d : List (Option (Hist V)) × Nat}, HDInv m d →
      HDInv (c.foldl (fun s2 kg => hmInstall s2 kg.1 t kg.2) m)
        (c.foldl (fun s2 kg => denseInstall s2 kg.1 t kg.2) d) := by
  intro c
  induction c with
  | nil => intro m d h; exact h
  | cons kg rest ih =>
    intro m d h
    exact ih (hdInstall_inv h kg.1 t kg.2)

theorem collOf_eq {σ τ V : Type} [LinearOrder V]
    {read : σ → Nat → Option (Hist V)} {read2 : τ → Nat → Option (Hist V)}
    {s : σ} {u : τ} (h : ∀ k, read s k = read2 u k) (k t : Nat) :
    collOf read s k t = collOf read2 u k t := by
  rw [collOf, collOf, h k]

theorem intTimesOf_eq {σ τ V : Type} {read : σ → Nat → Option (Hist V)}
    {read2 : τ → Nat → Option (Hist V)} {s : σ} {u : τ}
    (h : ∀ k, read s k = read2 u k) (k t : Nat) :
    intTimesOf read s k t = intTimesOf read2 u k t := by
  rw [intTimesOf, intTimesOf, h k]

theorem keyOutputL_eq {σ σ2 τ τ2 V V2 : Type} [LinearOrder V] [LinearOrder V2]
    {readS : σ → Nat → Option (Hist V)} {readS2 : σ2 → Nat → Option (Hist V)}
    {readR : τ → Nat → Option (Hist V2)} {readR2 : τ2 → Nat → Option (Hist V2)}
    {s : σ} {s2 : σ2} {r : τ} {r2 : τ2}
    (hs : ∀ k, readS s k = readS2 s2 k) (hr : ∀ k, readR r k = readR2 r2 k)
    (logic : Nat → Diffs V → Diffs V2) (t k : Nat) :
    keyOutputL readS readR s r logic t k
      = keyOutputL readS2 readR2 s2 r2 logic t k := by
  rw [keyOutputL, keyOutputL, collOf_eq hs, collOf_eq hr]

theorem foldl_congr_fn {α β : Type} (l : List α) :
    ∀ (f g : β → α → β) (b : β), (∀ b2 a, a ∈ l → f b2 a = g b2 a) →
      l.foldl f b = l.foldl g b := by
  induction l with
  | nil => intro f g b _; rfl
  | cons a rest ih =>
    intro f g b h
    rw [List.foldl_cons, List.foldl_cons, h b a (List.mem_cons_self a rest)]
    exact ih f g _ (fun b2 a2 ha => h b2 a2 (List.mem_cons_of_mem a ha))

set_option maxHeartbeats 1000000 in
theorem gStepL_bisim {V V2 D2 : Type} [LinearOrder V] [LinearOrder V2]
    (hash : Nat → Nat) (logic : Nat → Diffs V → Diffs V2)
    (reduc : Nat → V2 → D2) {m : HMap Nat (Hist V)}
    {d : List (Option (Hist V)) × Nat} {mr : HMap Nat (Hist V2)}
    {dr : List (Option (Hist V2)) × Nat} {td : List (Nat × List Nat)}
    {em : List (Nat × Nat × D2 × Int)} (hs : HDInv m d) (hr : HDInv mr dr)
    (inp : Nat × List (List (Rec Nat V))) :
    HDInv (gStepL hmGet hmInstall hmGet hmInstall hash logic reduc
        ⟨m, mr, td, em⟩ inp).source
      (gStepL denseGet denseInstall denseGet denseInstall hash logic reduc
        ⟨d, dr, td, em⟩ inp).source
    ∧ HDInv (gStepL hmGet hmInstall hmGet hmInstall hash logic reduc
        ⟨m, mr, td, em⟩ inp).result
      (gStepL denseGet denseInstall denseGet denseInstall hash logic reduc
        ⟨d, dr, td, em⟩ inp).result
    ∧ (gStepL hmGet hmInstall hmGet hmInstall hash logic reduc
        ⟨m, mr, td, em⟩ inp).toDo
      = (gStepL denseGet denseInstall denseGet denseInstall hash logic reduc
        ⟨d, dr, td, em⟩ inp).toDo
    ∧ (gStepL hmGet hmInstall hmGet hmInstall hash logic reduc
        ⟨m, mr, td, em⟩ inp).emitted
      = (gStepL denseGet denseInstall denseGet denseInstall hash logic reduc
        ⟨d, dr, td, em⟩ inp).emitted := by
  obtain ⟨t, queue⟩ := inp
  rw [gStepL, gStepL, gStepAL, gStepAL]
  dsimp only
  cases hsc : stageAndCompact hash queue with
  | none =>
    rw [gStepBL, gStepBL]
    dsimp only
    cases hpr : pendRemove td t with
    | mk o td2 =>
      cases o with
      | none => exact ⟨hs, hr, rfl, rfl⟩
      | some keys =>
        dsimp only
        have houts : (processKeys hash keys).map
            (fun k => (k, keyOutputL hmGet hmGet m mr logic t k))
            = (processKeys hash keys).map
            (fun k => (k, keyOutputL denseGet denseGet d dr logic t k)) := by
          apply List.map_congr_left
          intro k _
          rw [keyOutputL_eq hs.1 hr.1]
        rw [houts]
        refine ⟨hs, ?_, rfl, rfl⟩
        split_ifs with hacc
        · exact hr
        · exact hdInstall_fold t _ hr
  | some c =>
    have htd : (c.map (fun g => g.1)).foldl
        (fun td3 k => (intTimesOf hmGet m k t).foldl
          (fun td2 s2 => pendPush td2 s2 k) td3) td
        = (c.map (fun g => g.1)).foldl
        (fun td3 k => (intTimesOf denseGet d k t).foldl
          (fun td2 s2 => pendPush td2 s2 k) td3) td := by
      apply foldl_congr_fn
      intro td3 k _
      rw [intTimesOf_eq hs.1]
    have hsrc := hdInstall_fold t c hs
    rw [gStepBL, gStepBL]
    dsimp only
    rw [htd]
    cases hpr : pendRemove ((c.map (fun g => g.1)).foldl
        (fun td3 k => (intTimesOf denseGet d k t).foldl
          (fun td2 s2 => pendPush td2 s2 k) td3) td) t with
    | mk o td2 =>
      cases o with
      | none => exact ⟨hsrc, hr, rfl, rfl⟩
      | some keys =>
        dsimp only
        have houts : (processKeys hash keys).map
            (fun k => (k, keyOutputL hmGet hmGet
              (c.foldl (fun s2 kg => hmInstall s2 kg.1 t kg.2) m) mr logic t k))
            = (processKeys hash keys).map
            (fun k => (k, keyOutputL denseGet denseGet
              (c.foldl (fun s2 kg => denseInstall s2 kg.1 t kg.2) d) dr
              logic t k)) := by
          apply List.map_congr_left
          intro k _
          rw [keyOutputL_eq hsrc.1 hr.1]
        rw [houts]
        refine ⟨hsrc, ?_, rfl, rfl⟩
        split_ifs with hacc
        · exact hr
        · exact hdInstall_fold t _ hr

theorem gRunFold_bisim {V V2 D2 : Type} [LinearOrder V] [LinearOrder V2]
    (hash : Nat → Nat) (logic : Nat → Diffs V → Diffs V2)
    (reduc : Nat → V2 → D2) :
    ∀ (inputs : List (Nat × List (List (Rec Nat V))))
      (st1 : GStateL (HMap Nat (Hist V)) (HMap Nat (Hist V2)) D2)
      (st2 : GStateL (List (Option (Hist V)) × Nat)
        (List (Option (Hist V2)) × Nat) D2),
      HDInv st1.source st2.source → HDInv st1.result st2.result →
      st1.toDo = st2.toDo → st1.emitted = st2.emitted →
      (inputs.foldl (gStepL hmGet hmInstall hmGet hmInstall hash logic reduc)
          st1).emitted
        = (inputs.foldl (gStepL denseGet denseInstall denseGet denseInstall
          hash logic reduc) st2).emitted := by
  intro inputs
  induction inputs with
  | nil => intro st1 st2 _ _ _ h4; exact h4
  | cons inp rest ih =>
    intro st1 st2 h1 h2 h3 h4
    rw [List.foldl_cons, List.foldl_cons]
    have e1 : st1 = ⟨st1.source, st1.result, st1.toDo, st1.emitted⟩ := rfl
    have e2 : st2 = ⟨st2.source, st2.result, st1.toDo, st1.emitted⟩ := by
      rw [h3, h4]
    rw [e1, e2]
    have hstep := @gStepL_bisim V V2 D2 _ _ hash logic reduc _ _ _ _
      st1.toDo st1.emitted h1 h2 inp
    exact ih _ _ hstep.1 hstep.2.1 hstep.2.2.1 hstep.2.2.2

/-- C6: the three Lookup implementations are observationally equivalent, and
group results computed with the dense-array Lookup are identical to results
computed with the hash-indexed Lookup.  Part one: from each implementation's
new() state, every operation sequence yields the same observation trace on
the HashMap, vector and dense Lookups.  Part two: running the operator over
any input with both traces backed by the dense Lookup emits exactly the
records and weights of the hash-backed run. -/
theorem c6_lookup_equivalence :
    (∀ (W : Type) (ops : List (LOp W)),
        hmRunOps hmEmpty ops = vecRunOps [] ops
        ∧ hmRunOps hmEmpty ops = denseRunOps ([], 0) ops)
    ∧ (∀ (V V2 D2 : Type) [LinearOrder V] [LinearOrder V2]
        (hash : Nat → Nat) (logic : Nat → Diffs V → Diffs V2)
        (reduc : Nat → V2 → D2)
        (inputs : List (Nat × List (List (Rec Nat V)))),
        (gRunL hmGet hmInstall hmGet hmInstall hash logic reduc
          hmEmpty hmEmpty inputs).emitted
        = (gRunL denseGet denseInstall denseGet denseInstall hash logic reduc
          ([], 0) ([], 0) inputs).emitted) := by
  constructor
  · intro W ops
    exact ⟨hvRun ops hmEmpty [] hvInv_empty,
      hdRun ops hmEmpty ([], 0) hdInv_empty⟩
  · intro V V2 D2 instV instV2 hash logic reduc inputs
    rw [gRunL, gRunL]
    exact gRunFold_bisim hash logic reduc inputs ⟨hmEmpty, hmEmpty, [], []⟩
      ⟨([], 0), ([], 0), [], []⟩ hdInv_empty hdInv_empty rfl rfl

theorem c10_witness :
    ((2 : Nat) ≠ 3 ∧ 2 >>> 1 = 3 >>> 1)
    ∧ denseGet (denseEntryF (([] : List (Option Nat)), 1) 2
          (fun a : Nat => (a + 10, a + 1)) 0).1 3
        = denseGet (denseEntryF (([] : List (Option Nat)), 1) 2
            (fun a : Nat => (a + 10, a + 1)) 0).1 2
    ∧ denseGet (denseRemove (denseEntryF (([] : List (Option Nat)), 1) 2
          (fun a : Nat => (a + 10, a + 1)) 0).1 3).2 2 = none := by
  have h := c10_dense_conflation ([] : List (Option Nat)) 1 2 3
    (fun a : Nat => (a + 10, a + 1)) 0 (by decide) (by decide)
  exact ⟨⟨by decide, by decide⟩, h.1, h.2.2.2⟩

end DD
